import Mathlib

/-!
Verification development for the FRI / WHIR / ZK-WHIR reference model
(sage sources fri.py, whir.py, zkwhir.py).

The sage field / polynomial-ring / Reed-Solomon backend is external to the
repository; it is embedded here concretely:
  * a field element is an element of an arbitrary decidable field,
  * a univariate polynomial is its little-endian coefficient list,
  * a multivariate polynomial is a formal sum of monomial terms,
  * a Reed-Solomon codeword is the list of evaluations of the message
    polynomial at the successive powers of the domain generator
    (this is exactly what the EvaluationPolynomial encoder of sage computes),
  * the multiplicative order that sage computes for a generator is passed
    explicitly, together with (in theorems that need it) the defining
    property of the order.
Randomness (fold challenges, out-of-domain points, query indices) is modelled
as explicit input streams, standing in for the trusted randomness source of
the sources.  Python exceptions are modelled with an Except monad.
-/

/-- Kinds of runtime failures of the python sources that the embedding
models explicitly. -/
inductive PyErr : Type where
  | valueError : PyErr
  | assertError : PyErr
  | nameError : PyErr
  | indexError : PyErr
  | fuelOut : PyErr
  deriving DecidableEq, Repr

instance {ε α : Type} [DecidableEq ε] [DecidableEq α] : DecidableEq (Except ε α) :=
  fun a b =>
  match a, b with
  | .ok x, .ok y =>
    if h : x = y then isTrue (by rw [h]) else isFalse (fun hh => h (Except.ok.inj hh))
  | .error x, .error y =>
    if h : x = y then isTrue (by rw [h]) else isFalse (fun hh => h (Except.error.inj hh))
  | .ok _, .error _ => isFalse (fun hh => Except.noConfusion hh)
  | .error _, .ok _ => isFalse (fun hh => Except.noConfusion hh)

/-- An executable realisation of the field inverse, so that witnesses and
counterexamples evaluate inside the kernel (the generic inverse of the
residue fields is defined by well-founded recursion and does not reduce
there).  einv is the field inverse. -/
class ExecField (F : Type) [Field F] where
  einv : F → F
  einv_eq : ∀ a : F, einv a = a⁻¹

/-! ## Univariate polynomials as little-endian coefficient lists -/

variable {F : Type} [Field F] [DecidableEq F] [ExecField F]

/-- Drop the trailing zero coefficients, yielding the canonical coefficient
list of the polynomial (sage's poly.list). -/
def ptrim (p : List F) : List F :=
  (p.reverse.dropWhile (fun a => a == 0)).reverse

/-- Degree of the polynomial, with the sage convention that the zero
polynomial has degree -1. -/
def pdeg (p : List F) : Int :=
  ((ptrim p).length : Int) - 1

/-- Horner evaluation of a coefficient list. -/
def peval (p : List F) (x : F) : F :=
  p.foldr (fun a acc => a + x * acc) 0

/-- Pointwise sum of coefficient lists. -/
def padd : List F → List F → List F
  | [], q => q
  | p, [] => p
  | a :: p, b :: q => (a + b) :: padd p q

/-- Negation of a coefficient list. -/
def pneg (p : List F) : List F := p.map (fun a => -a)

/-- Difference of coefficient lists. -/
def psub (p q : List F) : List F := padd p (pneg q)

/-- Scalar multiple of a coefficient list. -/
def pscale (c : F) (p : List F) : List F := p.map (fun a => c * a)

/-- The monomial c * X^k as a coefficient list. -/
def pmono (k : Nat) (c : F) : List F := List.replicate k 0 ++ [c]

/-- Product of coefficient lists. -/
def pmul : List F → List F → List F
  | [], _ => []
  | a :: p, q => padd (pscale a q) (0 :: pmul p q)

/-- One step of polynomial long division: with enough fuel this computes
quotient and remainder of the division of p by d (sage's divmod). -/
def pdivmodAux : Nat → List F → List F → List F × List F
  | 0, r, _ => ([], r)
  | fuel + 1, r, d =>
    let rt := ptrim r
    let dt := ptrim d
    if dt.isEmpty then ([], r)
    else if rt.length < dt.length then ([], rt)
    else
      let k := rt.length - dt.length
      let c := rt.getLastD 0 * ExecField.einv (dt.getLastD 0)
      let r' := psub rt (pscale c (List.replicate k 0 ++ dt))
      let qr := pdivmodAux fuel r' d
      (padd qr.1 (pmono k c), qr.2)

/-- Quotient and remainder of polynomial division (sage's divmod; the
quotient is sage's floor division of polynomials). -/
def pdivmod (p d : List F) : List F × List F :=
  pdivmodAux (p.length + 1) p d

/-- Lagrange interpolation through a list of (point, value) pairs, with
pairwise distinct points: the unique polynomial of degree < n through the
n pairs (sage's lagrange_polynomial).  For a list of points, the
coefficient vector it returns is also the solution of the Vandermonde
linear system V c = values with V i j = (points i)^j, which is how the
sources compute it (via an explicit matrix inverse). -/
def lagrange (pts : List (F × F)) : List F :=
  let xs := pts.map Prod.fst
  (List.range pts.length).foldl
    (fun acc i =>
      let xi := xs.getD i 0
      let yi := (pts.getD i (0, 0)).2
      let others := (xs.enum.filter (fun e => decide (e.1 ≠ i))).map Prod.snd
      let numer := others.foldl (fun q xj => pmul q [-xj, 1]) [1]
      let denom := others.foldl (fun a xj => a * (xi - xj)) 1
      padd acc (pscale (yi * ExecField.einv denom) numer))
    []

/-- The coefficient list of a list polynomial as a Mathlib polynomial
(proof-side bridge only; Mathlib polynomials are not executable). -/
noncomputable def toPoly (p : List F) : Polynomial F :=
  p.foldr (fun a q => Polynomial.C a + Polynomial.X * q) 0

/-- The other interpolation points of the i-th Lagrange basis factor: the
x-coordinates of all points except the i-th. -/
def lagOthers (pts : List (F × F)) (i : Nat) : List F :=
  (((pts.map Prod.fst).enum).filter (fun e => decide (e.1 ≠ i))).map Prod.snd

/-- Numerator product of the i-th Lagrange basis polynomial. -/
def lagNumer (pts : List (F × F)) (i : Nat) : List F :=
  (lagOthers pts i).foldl (fun q xj => pmul q [-xj, 1]) [1]

/-- Denominator product of the i-th Lagrange basis polynomial. -/
def lagDenom (pts : List (F × F)) (i : Nat) : F :=
  (lagOthers pts i).foldl
    (fun a xj => a * ((pts.map Prod.fst).getD i 0 - xj)) 1

/-- Monic associate of a polynomial (leading coefficient scaled to 1). -/
def pmonic (p : List F) : List F :=
  let t := ptrim p
  pscale (ExecField.einv (t.getLastD 0)) t

/-- Euclidean gcd of two polynomials, normalised monic, fuel-driven. -/
def pgcdAux : Nat → List F → List F → List F
  | 0, a, _ => pmonic a
  | fuel + 1, a, b =>
    if (ptrim b).isEmpty then pmonic a
    else pgcdAux fuel b (pdivmod a b).2

/-- Monic gcd of two polynomials. -/
def pgcd (a b : List F) : List F :=
  pgcdAux (a.length + b.length + 1) a b

/-- Canonical form of the rational function num/den in the fraction field
of the polynomial ring (sage reduces fractions to lowest terms with a
monic denominator). -/
def ratReduce (num den : List F) : List F × List F :=
  let g := pgcd num den
  ((pdivmod num g).1, (pdivmod den g).1)

/-! ## Power-of-two test -/

/-- Fuel-driven base-2 logarithm (with enough fuel, Nat.log2; stated in a
kernel-reducible form). -/
def pow2Log : Nat → Nat → Nat
  | 0, _ => 0
  | fuel + 1, n => if n < 2 then 0 else pow2Log fuel (n / 2) + 1

/-- Boolean power-of-two test on naturals (sage's is_power_of_two; note
that 1 is a power of two and 0 is not). -/
def isPow2 (n : Nat) : Bool :=
  n == 2 ^ pow2Log n n

/-! ## FRIRound (fri.py) -/

/-- Majority vote over a list of booleans (fri.py is_majority). -/
def is_majority (lst : List Bool) : Bool :=
  (lst.countP id) > lst.length / 2

/-- Overwhelming-majority vote: strictly more than two thirds of the votes
(fri.py is_overwhelming_majority). -/
def is_overwhelming_majority (lst : List Bool) : Bool :=
  (lst.countP id) > (2 * lst.length) / 3

/-- The coefficients of index congruent to j modulo t, in increasing order
of index: the coefficient list of the j-th residue-class sub-polynomial. -/
def splitCoeffs (cs : List F) (t j : Nat) : List F :=
  cs.enum.filterMap (fun e => if e.1 % t == j then some e.2 else none)

/-- Split a polynomial into t residue-class sub-polynomials by coefficient
index modulo t (fri.py poly_ksplit; the reconstruction assertion of the
source holds identically and is not re-checked here). -/
def poly_ksplit (p : List F) (t : Nat) : List (List F) :=
  (List.range t).map (fun j => splitCoeffs (ptrim p) t j)

/-- One layer of the FRI protocol: the message polynomial together with the
Reed-Solomon domain data (fri.py class FRIRound).  mult_order is the
multiplicative order of omega as computed by the field backend. -/
structure FRIRound (F : Type) where
  poly : List F
  omega : F
  mult_order : Nat
  rate_factor : Nat
  folding_factor : Nat
  deriving Repr, DecidableEq

namespace FRIRound

/-- Dimension of the Reed-Solomon code of the layer. -/
def dimension (r : FRIRound F) : Nat := r.mult_order / r.rate_factor

/-- Generator of the folding subgroup. -/
def folding_root (r : FRIRound F) : F :=
  r.omega ^ (r.mult_order / r.folding_factor)

/-- Constructor of a FRIRound with the configuration checks of
FRIRound.__init__: power-of-two multiplicative order, power-of-two rate
factor not exceeding the order, power-of-two folding factor, and the
assertion folding_root^folding_factor == 1. -/
def make (poly : List F) (ω : F) (order rate ff : Nat) :
    Except PyErr (FRIRound F) :=
  if ¬ isPow2 order then .error .valueError
  else if ¬ isPow2 rate ∨ order < rate then .error .valueError
  else if ¬ isPow2 ff then .error .valueError
  else if (ω ^ (order / ff)) ^ ff ≠ 1 then .error .assertError
  else .ok ⟨poly, ω, order, rate, ff⟩

/-- Evaluation points of the Reed-Solomon code: the successive powers of
the domain generator. -/
def evaluation_points (r : FRIRound F) : List F :=
  (List.range r.mult_order).map (fun i => r.omega ^ i)

/-- The codeword of the layer polynomial over the evaluation domain
(fri.py gen_proof without the corruption hook). -/
def gen_proof (r : FRIRound F) : List F :=
  r.evaluation_points.map (fun x => peval r.poly x)

/-- The folding-coset conjugate indices of an index
(fri.py ndx_with_folding_roots). -/
def ndx_with_folding_roots (r : FRIRound F) (ndx : Nat) : List Nat :=
  (List.range r.folding_factor).map
    (fun j => (ndx + j * (r.mult_order / r.folding_factor)) % r.mult_order)

end FRIRound

namespace FRIRound

/-- The DEEP numerator and denominator (fri.py deep_rational_poly): the
Lagrange interpolation of the polynomial at the out-of-domain challenges,
and the product of the linear factors (X - v). -/
def deep_rational_poly (eval_poly : List F)
    (ood_challenges : List F) : List F × List F :=
  let numerator := lagrange (ood_challenges.map (fun v => (v, peval eval_poly v)))
  let denomonator := ood_challenges.foldl (fun acc v => pmul acc [-v, 1]) [1]
  (numerator, denomonator)

/-- Fold the layer polynomial with a challenge (fri.py FRIRound.fold):
recombine the residue-class sub-polynomials with powers of the challenge,
optionally divide out the DEEP correction, and build the next layer with
the domain generator raised to the folding factor.  An empty ood list is
python's None.  The multiplicative order of omega^folding_factor that the
field backend computes is mult_order / gcd(mult_order, folding_factor).
The assertion of the source that the DEEP division is exact is the
assertError branch. -/
def fold (r : FRIRound F) (fold_challenge : F)
    (ood_challenges : List F) :
    Except PyErr (FRIRound F × Option (List F × List F)) :=
  let splits := poly_ksplit r.poly r.folding_factor
  let poly_tbf := splits.enum.foldl
    (fun acc e => padd acc (pscale (fold_challenge ^ e.1) e.2)) []
  let new_omega := r.omega ^ r.folding_factor
  let new_order := r.mult_order / Nat.gcd r.mult_order r.folding_factor
  if ood_challenges.isEmpty then
    (make poly_tbf new_omega new_order r.rate_factor r.folding_factor).map
      (fun rr => (rr, none))
  else
    let nd := deep_rational_poly poly_tbf ood_challenges
    let new_num := psub poly_tbf nd.1
    let qr := pdivmod new_num nd.2
    if ¬ (ptrim qr.2).isEmpty then .error .assertError
    else
      (make qr.1 new_omega new_order r.rate_factor r.folding_factor).map
        (fun rr => (rr, some (ratReduce nd.1 nd.2)))

/-- One random consistency query of consistancy_cross_check: sample an
index of the previous layer, reconstruct the algebraic fold from the
conjugate codeword values by solving the Vandermonde system, apply the
DEEP correction when the DEEP response is truthy (a nonzero fraction),
and compare to the codeword value of the new layer. -/
def cross_check_one (this_round prev_round : FRIRound F)
    (folding_challenge : F) (ood_response : Option (List F × List F))
    (ndx_raw : Nat) : Bool :=
  let previous_round_proof := prev_round.gen_proof
  let this_round_proof := this_round.gen_proof
  let ndx := ndx_raw % previous_round_proof.length
  let check_indices := prev_round.ndx_with_folding_roots ndx
  let new_ndx := ndx % this_round.mult_order
  let values := check_indices.map (fun i => previous_round_proof.getD i 0)
  let eval_point := prev_round.evaluation_points.getD ndx 0
  let alphas := (List.range prev_round.folding_factor).map
    (fun i => prev_round.folding_root ^ i)
  let coeff := lagrange ((alphas.map (fun a => eval_point * a)).zip values)
  let expected := peval coeff folding_challenge
  let value_this_round := this_round_proof.getD new_ndx 0
  match ood_response with
  | none => value_this_round == expected
  | some nd =>
    if (ptrim nd.1).isEmpty then value_this_round == expected
    else
      let this_round_omega := this_round.evaluation_points.getD new_ndx 0
      (peval nd.2 this_round_omega * value_this_round
        + peval nd.1 this_round_omega) == expected

/-- Per-layer consistency check (fri.py FRIRound.consistancy_cross_check):
run the given number of independent random queries and accept iff an
overwhelming majority of them match.  The random index draws are the
values of the stream rnd. -/
def consistancy_cross_check
    (this_round prev_round : FRIRound F) (folding_challenge : F)
    (queries : Nat) (ood_response : Option (List F × List F))
    (rnd : Nat → Nat) : Bool :=
  let success := (List.range queries).map
    (fun t => cross_check_one this_round prev_round folding_challenge
      ood_response (rnd t))
  is_overwhelming_majority success

end FRIRound

/-! ## FRI-IOPP (fri.py class FRIOPP) -/

/-- Data of one round of the FRI fold chain (FRIOPP.RoundData). -/
structure RoundData (F : Type) where
  fri_round : FRIRound F
  fold_randomness : Option F
  deep_poly : Option (List F × List F)
  deriving Repr, DecidableEq

/-- The rounds added by the fold loop of FRIOPP.__init__: while the current
polynomial degree exceeds the folding factor, draw a fold challenge and the
out-of-domain challenges from the streams and fold.  The fuel bounds the
number of iterations; the python loop terminates because the degree
strictly shrinks. -/
def friopp_tail :
    Nat → FRIRound F → (Nat → F) → (Nat → List F) → Nat →
    Except PyErr (List (RoundData F))
  | 0, _, _, _, _ => .ok []
  | fuel + 1, r, chs, oods, i =>
    if pdeg r.poly ≤ (r.folding_factor : Int) then .ok []
    else do
      let nx ← r.fold (chs i) (oods i)
      let rest ← friopp_tail fuel nx.1 chs oods (i + 1)
      .ok (⟨nx.1, some (chs i), nx.2⟩ :: rest)

/-- The FRI interactive oracle proof of proximity: the first round plus
the chain of folded rounds (fri.py class FRIOPP; rounds = first followed by
tail, and proof_oracle is the first round). -/
structure FRIOPP (F : Type) where
  first : FRIRound F
  tail : List (RoundData F)
  deriving Repr, DecidableEq

/-- Build a FRIOPP from an input polynomial and domain data, drawing the
fold and out-of-domain challenges from the streams (FRIOPP.__init__; an
oods stream returning [] models ood_count = 0). -/
def FRIOPP.build (fuel : Nat) (input_polynomial : List F)
    (ntt_omega : F) (order rate_factor folding_factor : Nat)
    (chs : Nat → F) (oods : Nat → List F) : Except PyErr (FRIOPP F) := do
  let first ← FRIRound.make input_polynomial ntt_omega order rate_factor folding_factor
  let tail ← friopp_tail fuel first chs oods 0
  .ok ⟨first, tail⟩

/-- The loop of FRIOPP.verify_proximity over self.rounds[1:], carrying the
previous round and the tracked degree bound; rnd is the stream of random
query indices (q of them consumed per layer pair, the k-th pair starting at
offset k*q), and the final step Lagrange-interpolates the codeword of the
last examined layer. -/
def vpLoop (prev_round : FRIRound F)
    (rest : List (RoundData F)) (bound : Int) (query_count : Nat)
    (rnd : Nat → Nat) (k : Nat) : Bool :=
  match rest with
  | [] =>
    pdeg (lagrange (prev_round.evaluation_points.zip prev_round.gen_proof))
      ≤ (prev_round.folding_factor : Int)
  | rd :: rest' =>
    let this_fri := rd.fri_round
    let is_good := FRIRound.consistancy_cross_check this_fri prev_round
      (rd.fold_randomness.getD 0) query_count rd.deep_poly
      (fun t => rnd (k * query_count + t))
    if ¬ is_good then false
    else
      let b1 := Int.fdiv bound this_fri.folding_factor + 1
      let b2 := match rd.deep_poly with
        | none => b1
        | some nd => if (ptrim nd.1).isEmpty then b1 else b1 - pdeg nd.2
      if b2 ≤ (this_fri.folding_factor : Int) then
        pdeg (lagrange (this_fri.evaluation_points.zip this_fri.gen_proof))
          ≤ (this_fri.folding_factor : Int)
      else vpLoop this_fri rest' b2 query_count rnd (k + 1)

/-- FRIOPP.verify_proximity: reject if the first layer's code dimension is
below the claimed degree, then run the per-pair consistency loop and the
final interpolation check. -/
def FRIOPP.verify_proximity (o : FRIOPP F)
    (max_degree : Int) (query_count : Nat) (rnd : Nat → Nat) : Bool :=
  if (o.first.dimension : Int) < max_degree then false
  else vpLoop o.first o.tail max_degree query_count rnd 0

/-! ## FRI-PCS verifier (fri.py class FRIPCS_Verifier) -/

/-- FRIPCS_Verifier.verify_proof: check proximity of the committed oracle
at the configured degree and of the quotient oracle one degree lower,
reject on mismatched evaluation domains, then accept iff strictly more
than two thirds of query_count random indices satisfy
v + q[i]*(domain[i] - z) == f[i].  rndO, rndQ and rndV are the index
streams of the two proximity checks and of the final query loop. -/
def FRIPCS_verify_proof (poly_degree : Int)
    (query_count : Nat) (original_commit quot_commit : FRIOPP F)
    (evaluation_point expected_value : F)
    (rndO rndQ rndV : Nat → Nat) : Bool :=
  if original_commit.verify_proximity poly_degree query_count rndO = false then
    false
  else if quot_commit.verify_proximity (poly_degree - 1) query_count rndQ = false then
    false
  else
    let eval_points := original_commit.first.evaluation_points
    if eval_points ≠ quot_commit.first.evaluation_points then false
    else
      let rs_orignal := original_commit.first.gen_proof
      let rs_quot := quot_commit.first.gen_proof
      let votes := (List.range query_count).countP (fun t =>
        let ndx := rndV t % rs_orignal.length
        expected_value + rs_quot.getD ndx 0 * (eval_points.getD ndx 0 - evaluation_point)
          == rs_orignal.getD ndx 0)
      votes > (2 * query_count) / 3

/-! ## Specification models (the claims' wording, to be compared with the
source embeddings) -/

/-- A DEEP response in the canonical form of the fraction field: if the
numerator is zero then the denominator is one.  Every response produced by
FRIRound.fold is canonical, since sage fractions are always reduced. -/
def DeepCanon (ood : Option (List F × List F)) : Prop :=
  ∀ nd, ood = some nd → (ptrim nd.1).isEmpty = true → nd.2 = [1]

/-- Final acceptance step of the claimed verify_proximity behaviour:
Lagrange-interpolate the entire codeword of the given layer and accept iff
the interpolated polynomial's degree is at most that layer's folding
factor. -/
def finalInterpCheck (layer : FRIRound F) : Bool :=
  pdeg (lagrange (layer.evaluation_points.zip layer.gen_proof))
    ≤ (layer.folding_factor : Int)

/-- Degree-bound update of the claimed verify_proximity behaviour: replace
the bound by floor(bound / folding_factor) + 1, further subtracting the
DEEP denominator's degree when a DEEP response is present. -/
def boundUpdateSpec (bound : Int) (rd : RoundData F) :
    Int :=
  Int.fdiv bound rd.fri_round.folding_factor + 1 -
    (match rd.deep_poly with
     | none => 0
     | some nd => pdeg nd.2)

/-- The claimed layer loop of verify_proximity, processing the list of
consecutive layer pairs: return False at the first pair failing
consistancy_cross_check, update the tracked bound after each checked pair,
stop as soon as the bound is at most the current folding factor, and end
with the final interpolation check on the last examined layer. -/
def vpSpecGo :
    List (FRIRound F × RoundData F) → Int → Nat → (Nat → Nat) → Nat →
    FRIRound F → Bool
  | [], _, _, _, _, last => finalInterpCheck last
  | pr :: rest, bound, q, rnd, k, _ =>
    if ¬ FRIRound.consistancy_cross_check pr.2.fri_round pr.1
        (pr.2.fold_randomness.getD 0) q pr.2.deep_poly
        (fun t => rnd (k * q + t)) then false
    else
      let b := boundUpdateSpec bound pr.2
      if b ≤ (pr.2.fri_round.folding_factor : Int) then
        finalInterpCheck pr.2.fri_round
      else vpSpecGo rest b q rnd (k + 1) pr.2.fri_round

/-- The consecutive layer pairs of a fold chain. -/
def consecutivePairs (o : FRIOPP F) : List (FRIRound F × RoundData F) :=
  (o.first :: o.tail.map (fun rd => rd.fri_round)).zip o.tail

/-- The claimed behaviour of FRIOPP.verify_proximity (claim C1): reject if
the first layer's code dimension is below the claimed degree, otherwise
run the layer-pair loop with the final interpolation check. -/
def vpSpec (o : FRIOPP F) (max_degree : Int)
    (query_count : Nat) (rnd : Nat → Nat) : Bool :=
  if (o.first.dimension : Int) < max_degree then false
  else vpSpecGo (consecutivePairs o) max_degree query_count rnd 0 o.first

/-- The claimed single random-index check of consistancy_cross_check
(claim C3): gather the conjugate codeword values of the previous layer,
solve the Vandermonde system built from the folding-root powers to obtain
the algebraic fold at the challenge, apply the DEEP correction
value := den(omega)*value + num(omega) whenever a DEEP response is given,
and compare against the new layer's codeword value at the corresponding
index. -/
def crossCheckSpecMatch
    (this_round prev_round : FRIRound F) (folding_challenge : F)
    (ood_response : Option (List F × List F)) (ndx_raw : Nat) : Bool :=
  let previous_round_proof := prev_round.gen_proof
  let ndx := ndx_raw % previous_round_proof.length
  let conjugates := prev_round.ndx_with_folding_roots ndx
  let values := conjugates.map (fun i => previous_round_proof.getD i 0)
  let eval_point := prev_round.evaluation_points.getD ndx 0
  let alphas := (List.range prev_round.folding_factor).map
    (fun i => prev_round.folding_root ^ i)
  let fold_coeff := lagrange ((alphas.map (fun a => eval_point * a)).zip values)
  let algebraic_fold := peval fold_coeff folding_challenge
  let new_ndx := ndx % this_round.mult_order
  let codeword_value := this_round.gen_proof.getD new_ndx 0
  match ood_response with
  | none => codeword_value == algebraic_fold
  | some nd =>
    let ω := this_round.evaluation_points.getD new_ndx 0
    (peval nd.2 ω * codeword_value + peval nd.1 ω) == algebraic_fold

/-- The claimed behaviour of consistancy_cross_check (claim C3): perform
the given number of independent random-index checks and return True iff
strictly more than two thirds of them match, i.e. matches > floor(2q/3). -/
def crossCheckSpec
    (this_round prev_round : FRIRound F) (folding_challenge : F)
    (queries : Nat) (ood_response : Option (List F × List F))
    (rnd : Nat → Nat) : Bool :=
  ((List.range queries).countP (fun t =>
      crossCheckSpecMatch this_round prev_round folding_challenge
        ood_response (rnd t)))
    > (2 * queries) / 3

/-! ## Multivariate polynomials as formal sums of monomial terms

A term is an exponent vector (indexed by variable number, little-endian,
trailing zeros irrelevant) together with a coefficient; a polynomial is a
list of terms whose meaning is their sum.  sage's canonical representation
is recovered by mNorm, so that polynomial equality of the sources is mEqb
and the variables() method of sage is mVars. -/

/-- A monomial term: exponent vector and coefficient. -/
abbrev MTerm (F : Type) := List Nat × F

/-- A multivariate polynomial: a formal sum of terms. -/
abbrev MPoly (F : Type) := List (MTerm F)

/-- Pointwise sum of exponent vectors. -/
def expAdd : List Nat → List Nat → List Nat
  | [], q => q
  | p, [] => p
  | a :: p, b :: q => (a + b) :: expAdd p q

/-- Drop trailing zero exponents. -/
def expTrim (e : List Nat) : List Nat :=
  (e.reverse.dropWhile (fun a => a == 0)).reverse

/-- The exponent vector of the single variable v. -/
def expOne (v : Nat) : List Nat := List.replicate v 0 ++ [1]

/-- A strict total order on trimmed exponent vectors: by length, then
lexicographically. -/
def expLt (a b : List Nat) : Bool :=
  a.length < b.length || (a.length == b.length && decide (a < b))

/-- The product of the given powers of the assignment values; a missing
assignment value is taken to be 0 (never exercised by well-formed
evaluations). -/
def prodPow : List Nat → List F → F
  | [], _ => 1
  | e :: es, [] => (0 : F) ^ e * prodPow es []
  | e :: es, x :: xs => x ^ e * prodPow es xs

/-- Evaluation of a multivariate polynomial at a positional assignment. -/
def mEval (p : MPoly F) (xs : List F) : F :=
  (p.map (fun t => t.2 * prodPow t.1 xs)).sum

/-- Sum of polynomials (formal concatenation of the term sums). -/
def mAdd (p q : MPoly F) : MPoly F := p ++ q

/-- Scalar multiple of a polynomial. -/
def mScale (c : F) (p : MPoly F) : MPoly F :=
  p.map (fun t => (t.1, c * t.2))

/-- Product of polynomials: the formal sum of all pairwise term products. -/
def mMul (p q : MPoly F) : MPoly F :=
  p.foldr (fun t acc => (q.map (fun u => (expAdd t.1 u.1, t.2 * u.2))) ++ acc) []

/-- The constant polynomial. -/
def mConstP (c : F) : MPoly F := [([], c)]

/-- The single-variable polynomial X_v. -/
def mVarP (v : Nat) : MPoly F := [(expOne v, 1)]

/-- Substitute the field constant c for the variable v. -/
def mSubst (p : MPoly F) (v : Nat) (c : F) : MPoly F :=
  p.map (fun t => (t.1.set v 0, t.2 * c ^ (t.1.getD v 0)))

/-- Insert a term into a normalised term list, keeping the exponent
vectors sorted and summing coefficients of equal exponent vectors. -/
def mInsert (e : List Nat) (a : F) : MPoly F → MPoly F
  | [] => [(e, a)]
  | t :: rest =>
    if e == t.1 then (t.1, t.2 + a) :: rest
    else if expLt e t.1 then (e, a) :: t :: rest
    else t :: mInsert e a rest

/-- Canonical (sage) form of a polynomial: like terms collected on trimmed
exponent vectors, zero terms dropped, terms sorted. -/
def mNorm (p : MPoly F) : MPoly F :=
  (p.foldl (fun acc t => mInsert (expTrim t.1) t.2 acc) []).filter
    (fun t => !(t.2 == 0))

/-- Polynomial equality as sage decides it: equality of canonical forms. -/
def mEqb (p q : MPoly F) : Bool :=
  mNorm p == mNorm q

/-- Truthiness of a sage ring element: nonzero. -/
def mTruthy (p : MPoly F) : Bool :=
  !(mNorm p == [])

/-- The value of a polynomial with no free variables (evaluation at the
empty assignment). -/
def mToConst (p : MPoly F) : F := mEval p []

/-- Insert a natural into a sorted list of naturals without duplicates. -/
def insSorted (i : Nat) : List Nat → List Nat
  | [] => [i]
  | j :: rest =>
    if i == j then j :: rest
    else if i < j then i :: j :: rest
    else j :: insSorted i rest

/-- The variable indices occurring in an exponent vector. -/
def expVars (e : List Nat) : List Nat :=
  e.enum.filterMap (fun p => if p.2 ≠ 0 then some p.1 else none)

/-- The variables occurring in a polynomial, in increasing order: sage's
variables() method (computed on the canonical form, so that cancelled
variables do not occur). -/
def mVars (p : MPoly F) : List Nat :=
  ((mNorm p).foldr (fun t acc => expVars t.1 ++ acc) []).foldl
    (fun acc i => insSorted i acc) []

/-- Sum the substitutions of the hypercube values for the variable v. -/
def sumSubst (p : MPoly F) (v : Nat) (hypercube : List F) : MPoly F :=
  (hypercube.map (fun h => mSubst p v h)).foldl mAdd []

/-- Hypercube sum of a polynomial over all its variables except the listed
ones (whir.py WhirRound.do_hypercube_sum: the variable list is computed
once up front from the polynomial). -/
def mHSum (p : MPoly F) (hypercube : List F)
    (skip_variables : List Nat) : MPoly F :=
  (mVars p).foldl
    (fun acc v => if skip_variables.contains v then acc
                  else sumSubst acc v hypercube) p

/-- The univariate exponent of a term under the bit-reversal bijection:
the variable at position ndx of the present-variable list vs maps to
exponent 2^ndx (whir.py WhirRound.to_univariate substitutes h^(2^ndx) for
the ndx-th present variable). -/
def expUniv (vs : List Nat) (e : List Nat) : Nat :=
  (vs.enum.map (fun p => e.getD p.2 0 * 2 ^ p.1)).sum

/-- The univariate (bit-reversal) form of a multilinear polynomial
(whir.py WhirRound.to_univariate). -/
def toUnivariate (p : MPoly F) : List F :=
  let vs := mVars p
  p.foldl (fun acc t => padd acc (pmono (expUniv vs t.1) t.2)) []

/-- One factor of the eq polynomial: x*r + (1-x)*(1-r)
(whir.py eq_list one_term). -/
def eqOneTerm (v : Nat) (r : F) : MPoly F :=
  mAdd (mScale r (mVarP v))
    (mMul (mAdd (mConstP 1) (mScale (-1) (mVarP v))) (mConstP (1 - r)))

/-- The product of the eq factors over the given variables and values:
the value whir.py eq_list computes once its first-variable access has
succeeded. -/
def eqList (poly_vars : List Nat) (eq_values : List F) : MPoly F :=
  ((poly_vars.zip eq_values).foldl
    (fun acc pv => mMul acc (eqOneTerm pv.1 pv.2)) (mConstP 1))

/-- whir.py eq_list: raise a ValueError when the variable and value lists
have different lengths, then read poly_vars[0] to obtain the ambient ring
— an unconditional access that raises an IndexError on an empty variable
list — and only then build the product of the eq factors. -/
def eq_list (poly_vars : List Nat) (eq_values : List F) :
    Except PyErr (MPoly F) :=
  if poly_vars.length ≠ eq_values.length then .error .valueError
  else if poly_vars.isEmpty then .error .indexError
  else .ok (eqList poly_vars eq_values)

/-- The successive squares of a point, one per listed variable: the
frobenious_char2 map of whir.py update_weight. -/
def frobSquares (point : F) (vs : List Nat) : List F :=
  vs.enum.map (fun p => point ^ (2 ^ p.1))

/-- The equality-constraint weight term of a query point: the eq
polynomial of the present witness variables against the successive squares
of the point (the weight_updt map of whir.py update_weight). -/
def weightUpdt (vs : List Nat) (point : F) : MPoly F :=
  eqList vs (frobSquares point vs)

/-! ## WhirRound (whir.py) -/

/-- Reed-Solomon encoding of a message polynomial: evaluation at the
successive powers of the domain generator (the EvaluationPolynomial
encoder of the backend). -/
def rsEncode (ω : F) (n : Nat) (p : List F) : List F :=
  (List.range n).map (fun i => peval p (ω ^ i))

/-- The multiplicative order of the square of a group element of
power-of-two order n, as the field backend computes it. -/
def ordSquare (n : Nat) : Nat := max 1 (n / 2)

/-- One round of the WHIR protocol (whir.py class WhirRound).  weight is
the coefficient of the weight variable Z: the weight polynomial is
always Z times a base-ring polynomial (it is constructed and updated in
that shape throughout the sources), so it is represented by that
coefficient.  claimed_sum is a ring element (sage dynamic typing allows
the claimed sum to be a polynomial), code_value is the codeword of the
bit-reversal univariate form of the witness at construction time. -/
structure WhirRound (F : Type) where
  poly : MPoly F
  weight : MPoly F
  polyvars : List Nat
  omega : F
  multi_order : Nat
  dimension : Nat
  hypercube : List F
  sumcheck_challenges : List F
  sumcheck_poly : MPoly F
  claimed_sum : MPoly F
  code_value : List F
  deriving DecidableEq

namespace WhirRound

/-- Constructor of a WhirRound (WhirRound.__init__): power-of-two order
check, dimension-versus-order check, the sumcheck polynomial as the weight
with the witness substituted for the weight variable, the claimed sum
defaulting (for an absent or falsy argument) to the hypercube sum, and the
debug assertion that a truthy claimed sum matches the hypercube sum. -/
def make (poly weight : MPoly F) (ω : F)
    (order : Nat) (claimed : Option (MPoly F)) (hyp : List F) :
    Except PyErr (WhirRound F) :=
  let pvars := mVars poly
  let dim := 2 ^ pvars.length
  if ¬ isPow2 order then .error .valueError
  else if order / 2 < dim then .error .valueError
  else
    let scPoly := mMul weight poly
    let hsum := mHSum scPoly hyp []
    let truthy := match claimed with
      | none => false
      | some c => mTruthy c
    let claimedVal := match claimed with
      | none => hsum
      | some c => if mTruthy c then c else hsum
    if truthy && !(mEqb hsum claimedVal) then .error .assertError
    else .ok ⟨poly, weight, pvars, ω, order, dim, hyp, [], scPoly, claimedVal,
      rsEncode ω order (toUnivariate poly)⟩

/-- The cached Reed-Solomon codeword of the witness in the bit-reversal
univariate basis (whir.py fri_oracle). -/
def fri_oracle (r : WhirRound F) : List F := r.code_value

/-- The bit-reversal univariate form of the current witness
(whir.py folded_poly). -/
def folded_poly (r : WhirRound F) : List F :=
  toUnivariate r.poly

/-- One prover round of the sumcheck (whir.py sumcheck_prover_round):
only the first round may omit the challenge; a call after all variables
are consumed returns the fully specialized polynomial without touching
the state; otherwise the challenge (when given) is substituted into the
sumcheck polynomial, the witness and the weight, the round polynomial is
the hypercube sum skipping the next free variable, and the claimed sum
becomes its value at 0 plus its value at 1. -/
def sumcheck_prover_round (r : WhirRound F)
    (sumcheck_challenge : Option F) :
    Except PyErr (WhirRound F × MPoly F) :=
  if sumcheck_challenge.isNone ∧ r.sumcheck_challenges.length > 0 then
    .error .valueError
  else if r.sumcheck_challenges.length = r.polyvars.length then
    .ok (r, r.sumcheck_poly)
  else do
    let r' ← match sumcheck_challenge with
      | none => Except.ok r
      | some c =>
        match r.polyvars.get? r.sumcheck_challenges.length with
        | none => Except.error PyErr.indexError
        | some this_var =>
          Except.ok { r with
            sumcheck_challenges := r.sumcheck_challenges ++ [c],
            sumcheck_poly := mSubst r.sumcheck_poly this_var c,
            poly := mSubst r.poly this_var c,
            weight := mSubst r.weight this_var c }
    match r'.polyvars.get? r'.sumcheck_challenges.length with
    | none => .error .indexError
    | some skip_var =>
      let result := mHSum r'.sumcheck_poly r'.hypercube [skip_var]
      match mVars result with
      | [] => .error .indexError
      | interminate :: _ =>
        let newClaim := mAdd (mSubst result interminate 0) (mSubst result interminate 1)
        .ok ({ r' with claimed_sum := newClaim }, result)

/-- Prover-side weight update of a fold round (whir.py
WhirRound.update_weight): evaluate the folded polynomial at the
out-of-domain sample, extend the weight by one equality-constraint term
for the sample and one per shift query scaled by successive powers of
gamma, and combine the responses with successive powers of gamma.  The
weight_updt map calls eq_list on the current witness variables, whose
first-variable access raises an IndexError when the witness has been
collapsed to a constant (no variables left); the first such call is made
for the out-of-domain sample before anything is returned. -/
def update_weight (r : WhirRound F)
    (gamma ood_sample : F) (shift_query : List F) :
    Except PyErr (F × MPoly F × F) :=
  let fp := r.folded_poly
  let ood_reply := peval fp ood_sample
  let vs := mVars r.poly
  (eq_list vs (frobSquares ood_sample vs)).map (fun _ =>
    let update_sum := shift_query.enum.foldl
      (fun acc q => mAdd acc (mScale (gamma ^ (q.1 + 2)) (weightUpdt vs q.2)))
      (mScale gamma (weightUpdt vs ood_sample))
    let new_weight := mAdd r.weight update_sum
    let h_terms := ood_reply :: shift_query.map (fun q => peval fp q)
    let h_update := (h_terms.enum.map (fun p => p.2 * gamma ^ (p.1 + 1))).sum
    (ood_reply, new_weight, h_update))

/-- Result of a fold round (whir.py WhirRound.FoldData). -/
structure FoldData (F : Type) where
  last_round : WhirRound F
  this_round : WhirRound F
  ood_data : F × F
  shift_queries : List F
  deriving DecidableEq

/-- Fold round of the prover (whir.py WhirRound.fold_round): update the
weight, add the response combination to the claimed sum, and construct
the next WhirRound over the squared domain generator. -/
def fold_round (r : WhirRound F)
    (gamma ood_sample : F) (shift_queries : List F) :
    Except PyErr (FoldData F) := do
  let uw ← r.update_weight gamma ood_sample shift_queries
  let claimed := mAdd (mConstP uw.2.2) r.claimed_sum
  let next ← make r.poly uw.2.1 (r.omega ^ 2) (ordSquare r.multi_order)
    (some claimed) r.hypercube
  .ok ⟨r, next, (ood_sample, uw.1), shift_queries⟩

end WhirRound

/-! ## WhirVerifier (whir.py) -/

/-- The tensor coefficient of index i: the product of the fold challenges
at the set bit positions of i (whir.py tensor_map). -/
def tensorCoef (chs : List F) (i : Nat) : F :=
  (chs.enum.map (fun p => if Nat.testBit i p.1 then p.2 else 1)).prod

/-- Virtual fold of codeword entries (whir.py fold_virtually): for each
oracle index, gather the conjugate codeword values, solve the Vandermonde
system of the conjugate points to recover the residue sub-polynomial
values, and tensor-combine them with the fold challenges; returns the
pairs (folded point, folded value).  The assertions of the source are the
assertError branches. -/
def fold_virtually (oracle_ndxes : List Nat)
    (proof_oracle : List F) (fold_challenges : List F) (ntt_omega : F) :
    Except PyErr (List (F × F)) :=
  let folding_factor := 2 ^ fold_challenges.length
  let order := proof_oracle.length
  if ¬ (decide (order > folding_factor) && decide (order % folding_factor = 0)) then
    .error .assertError
  else
    let fold_omega := ntt_omega ^ (order / folding_factor)
    if fold_omega ^ folding_factor ≠ 1 then .error .assertError
    else
      let step := order / folding_factor
      .ok (oracle_ndxes.map (fun ndx =>
        let query_ndx := (List.range folding_factor).map
          (fun j => (ndx + j * step) % order)
        let query_resp := query_ndx.map (fun i => proof_oracle.getD i 0)
        let q_omega := ntt_omega ^ ndx
        let pts := (List.range folding_factor).map
          (fun j => q_omega * fold_omega ^ j)
        let coefficients := lagrange (pts.zip query_resp)
        let fold_value := (coefficients.enum.map
          (fun p => tensorCoef fold_challenges p.1 * p.2)).sum
        (q_omega ^ folding_factor, fold_value)))

/-- The last n elements of a list, with python's negative-slice convention
that the slice [-0:] is the whole list. -/
def lastSlice {α : Type} (n : Nat) (l : List α) : List α :=
  if n = 0 then l else l.drop (l.length - n)

/-- Verifier state of the WHIR protocol (whir.py class WhirVerifier).
weight is the coefficient of the weight variable, as for WhirRound. -/
structure WhirVerifier (F : Type) where
  weight : MPoly F
  verifier_omega : F
  claimed_sum : MPoly F
  schk_rounds : Nat
  shift_query_count : Nat
  mult_order : Nat
  hypercube : List F
  schk_challenges : List F
  deriving DecidableEq

namespace WhirVerifier

/-- Constructor of a WhirVerifier (WhirVerifier.__init__): schk_rounds is
log2 of the fold factor, and the domain generator must have the given
power-of-two multiplicative order. -/
def make (weight : MPoly F) (ω : F)
    (claimed : MPoly F) (fold_factor shift_query_count order : Nat)
    (hyp : List F) : Except PyErr (WhirVerifier F) :=
  if ¬ (isPow2 order && decide (ω ^ order = 1) && decide (ω ^ (order / 2) ≠ 1)) then
    .error .assertError
  else
    .ok ⟨weight, ω, claimed, pow2Log fold_factor fold_factor, shift_query_count,
      order, hyp, []⟩

/-- The loop body of do_sumcheck over the zip of the round indices with
the weight variables: at a positive round index draw a fresh challenge,
update the running claim from the previous round polynomial at the
challenge and substitute the challenge into the verifier weight; then
obtain the prover's round polynomial, reject (returning none, python's
False) unless its hypercube sum matches the running claim. -/
def dsLoop :
    List (Nat × Nat) → WhirVerifier F → WhirRound F →
    Option (MPoly F × Nat) → MPoly F → (Nat → F) → Nat →
    Except PyErr (Option (WhirVerifier F × WhirRound F))
  | [], v, prover, _, claimed, _, _ =>
    .ok (some ({ v with claimed_sum := claimed }, prover))
  | it :: rest, v, prover, prev, claimed, rnd, chIdx =>
    match it.1, prev with
    | 0, _ => do
      let pr ← prover.sumcheck_prover_round none
      if ¬ mEqb (sumSubst pr.2 it.2 v.hypercube) claimed then .ok none
      else dsLoop rest v pr.1 (some (pr.2, it.2)) claimed rnd chIdx
    | _ + 1, none => .error .valueError
    | _ + 1, some pp => do
      let challenge := rnd chIdx
      let claimed' := mSubst pp.1 pp.2 challenge
      let v' := { v with
        schk_challenges := v.schk_challenges ++ [challenge],
        weight := mSubst v.weight pp.2 challenge }
      let pr ← prover.sumcheck_prover_round (some challenge)
      if ¬ mEqb (sumSubst pr.2 it.2 v'.hypercube) claimed' then .ok none
      else dsLoop rest v' pr.1 (some (pr.2, it.2)) claimed' rnd (chIdx + 1)

/-- One sumcheck batch of the verifier (whir.py WhirVerifier.do_sumcheck):
iterate over the zip of range(schk_rounds+1) with the weight variables;
the returned none is python's False return, and some carries the updated
verifier (with the final running claim stored) and prover. -/
def do_sumcheck (v : WhirVerifier F)
    (prover : WhirRound F) (rnd : Nat → F) :
    Except PyErr (Option (WhirVerifier F × WhirRound F)) :=
  let polyvars := mVars v.weight
  dsLoop ((List.range (v.schk_rounds + 1)).zip polyvars) v prover none
    v.claimed_sum rnd 0

/-- Verifier-side virtual recomputation of the shift-query responses from
the previous layer's public codeword (whir.py virtual_shift_response),
including the debug assertion comparing with the folded polynomial. -/
def virtual_shift_response (v : WhirVerifier F)
    (last_round : WhirRound F) (shift_queries : List F)
    (shift_queries_ndxes : List Nat) : Except PyErr (List (F × F)) :=
  if shift_queries.length ≠ shift_queries_ndxes.length then .error .assertError
  else do
    let result ← fold_virtually shift_queries_ndxes last_round.fri_oracle
      (lastSlice v.schk_rounds v.schk_challenges) last_round.omega
    let fp := last_round.folded_poly
    if shift_queries.map (fun q => (q, peval fp q)) ≠ result then
      .error .assertError
    else .ok result

/-- Verifier-side weight and claim update (whir.py
WhirVerifier.update_weight): one equality-constraint term for the
out-of-domain challenge and one per shift query, scaled by successive
powers of gamma, and the response combination added to the claimed sum.
The weight_updt map calls eq_list on the weight coefficient's variables,
so it raises an IndexError when that coefficient is a constant. -/
def update_weight (v : WhirVerifier F) (gamma : F)
    (ood_query : F × F) (shift_query : List (F × F)) :
    Except PyErr (WhirVerifier F) :=
  let vs := mVars v.weight
  (eq_list vs (frobSquares ood_query.1 vs)).map (fun _ =>
    let update_sum := shift_query.enum.foldl
      (fun acc q => mAdd acc (mScale (gamma ^ (q.1 + 2)) (weightUpdt vs q.2.1)))
      (mScale gamma (weightUpdt vs ood_query.1))
    let h_terms := ood_query.2 :: shift_query.map Prod.snd
    let h_update := (h_terms.enum.map (fun p => p.2 * gamma ^ (p.1 + 1))).sum
    { v with weight := mAdd v.weight update_sum,
             claimed_sum := mAdd v.claimed_sum (mConstP h_update) })

/-- One fold round driven by the verifier (whir.py
WhirVerifier.fold_check): draw gamma, one out-of-domain challenge and the
shift-query indices (modelled as inputs), drive the prover's fold_round,
recompute the shift responses virtually and update the verifier state. -/
def fold_check (v : WhirVerifier F)
    (prover : WhirRound F) (shift_query_count : Nat) (gamma ood_challenge : F)
    (shiftRnd : Nat → Nat) : Except PyErr (WhirVerifier F × WhirRound F) :=
  let fold_factor := 2 ^ v.schk_rounds
  if prover.multi_order % fold_factor ≠ 0 then .error .assertError
  else
    let shift_omega := prover.omega ^ fold_factor
    let ndxes := (List.range shift_query_count).map
      (fun t => shiftRnd t % prover.multi_order)
    let queries := ndxes.map (fun i => shift_omega ^ i)
    do
      let fd ← prover.fold_round gamma ood_challenge queries
      let responses ← v.virtual_shift_response fd.last_round queries ndxes
      let v2 ← v.update_weight gamma fd.ood_data responses
      .ok (v2, fd.this_round)

end WhirVerifier

/-- The randomness drawn by the verifier in one iteration of
validate_pcs_claim: the sumcheck challenges, gamma, the out-of-domain
challenge and the shift-query index draws. -/
structure VRand (F : Type) where
  schk : Nat → F
  gamma : F
  ood : F
  shifts : Nat → Nat

/-- The main verifier loop (whir.py WhirVerifier.validate_pcs_claim):
alternate do_sumcheck and fold_check while the current round's
Reed-Solomon dimension exceeds the fold factor, rejecting as soon as a
sumcheck batch fails; afterwards substitute the final witness polynomial
into the accumulated weight, sum over the hypercube and accept iff the
result equals the accumulated claimed sum.  The fuel bounds the number of
iterations of the while loop. -/
def validate_pcs_claim :
    Nat → WhirVerifier F → WhirRound F → (Nat → VRand F) → Except PyErr Bool
  | 0, _, _, _ => .error .fuelOut
  | fuel + 1, v, r, rnds =>
    let folding_factor := 2 ^ v.schk_rounds
    if r.dimension > folding_factor then do
      let res ← v.do_sumcheck r (rnds 0).schk
      match res with
      | none => .ok false
      | some vp => do
        let nx ← vp.1.fold_check vp.2 vp.1.shift_query_count (rnds 0).gamma
          (rnds 0).ood (rnds 0).shifts
        validate_pcs_claim fuel nx.1 nx.2 (fun i => rnds (i + 1))
    else
      let sumcheck_poly := mMul v.weight r.poly
      let expected_sum := mHSum sumcheck_poly v.hypercube []
      .ok (mEqb expected_sum v.claimed_sum)

/-! ## ZK-WHIR (zkwhir.py) -/

/-- Little-endian bit decomposition padded to a minimum length
(zkwhir.py bit_decom). -/
def natBits : Nat → Nat → List Nat
  | 0, _ => []
  | fuel + 1, n => if n = 0 then [] else (n % 2) :: natBits fuel (n / 2)

/-- Little-endian bit list of a natural (sage Integer.bits; the zero
integer has no bits). -/
def bitsOf (n : Nat) : List Nat := natBits n n

def bit_decom (i min_len : Nat) : List Nat :=
  let b := bitsOf i
  b ++ List.replicate (min_len - b.length) 0

/-- Lift a univariate coefficient list to a multilinear polynomial in
nvars variables through the bit-decomposition bijection
(zkwhir.py uni_to_multi). -/
def uni_to_multi (univar : List F) (nvars : Nat) : MPoly F :=
  univar.enum.map (fun p => (bit_decom p.1 nvars, p.2))

/-- Pad an exponent vector with zeros to the given length. -/
def padExp (e : List Nat) (n : Nat) : List Nat :=
  e ++ List.replicate (n - e.length) 0

/-- Re-interpret a polynomial in nvars variables as a polynomial in
nvars+1 variables with last exponent 0 (zkwhir.py upgrade_ring). -/
def upgrade_ring (p : MPoly F) (nvars : Nat) : MPoly F :=
  p.map (fun t => (padExp t.1 nvars ++ [0], t.2))

/-- A random multilinear polynomial with the given coefficient draws over
the monomial basis (whir.py random_multilinear_poly with the coefficient
draws made explicit). -/
def random_multilinear_from (coeffs : List F) (nvars : Nat) : MPoly F :=
  coeffs.enum.map (fun p => (bit_decom p.1 nvars, p.2))

/-- The number of random mask coefficients beyond the constant one drawn
by mask_polynomial: nzc = 2^ceil(log2(input_degree + mask_degree)) -
input_degree - 1 with input_degree = 2^nvars and
mask_degree = query_threshold * folding_factor. -/
def mask_nzc (nvars query_threshold folding_factor : Nat) : Nat :=
  2 ^ (Nat.clog 2 (2 ^ nvars + query_threshold * folding_factor))
    - 2 ^ nvars - 1

/-- The masked witness of zkwhir.py mask_polynomial, with the random
univariate mask draw passed in explicitly: the input polynomial lifted to
one more variable, plus the mask (lifted through the bit-decomposition
bijection) multiplied by the new last variable. -/
def mask_polynomial (input_poly : MPoly F)
    (nvars : Nat) (random_poly : List F) : MPoly F :=
  let random_multivar := uni_to_multi random_poly (nvars + 1)
  let input' := upgrade_ring input_poly nvars
  mAdd input' (mMul random_multivar (mVarP nvars))

/-- The top-level names that the module of zkwhir.py can resolve: its own
definitions, the definitions of whir.py (imported by star import), and
the names imported by either module from the sage backend and the python
standard library. -/
def zkwhirModuleNames : List String :=
  ["os", "sys", "ceil", "log", "Integer", "ReedSolomonCode", "bit_decom",
   "uni_to_multi", "upgrade_ring", "mask_polynomial", "CommitmentData",
   "ZKWhirPCS", "eq_list", "eq_polyomial", "monomial_basis",
   "random_multilinear_poly", "eq_weight_polynomial", "gen_mvariate_ring",
   "tensor_map", "fold_virtually", "WhirRound", "WhirVerifier",
   "PolynomialRing", "Polynomial", "is_power_of_two", "GF", "FiniteField",
   "prod", "to_subscript", "vector", "random", "Matrix", "matrix",
   "proth_in_range", "deepcopy"]

/-- The names referenced by the debug validation block of
mask_polynomial (zkwhir.py lines 67-77). -/
def maskDebugNames : List String :=
  ["eq_polynomial", "compute_hypercube_sum"]

/-- mask_polynomial including its debug-only validation block: with debug
checks enabled the block evaluates eq_polynomial(...) and
compute_hypercube_sum(...), so it fails with a name-resolution error
unless both names resolve in the module. -/
def mask_polynomial_checked (debug : Bool)
    (input_poly : MPoly F) (nvars : Nat) (random_poly : List F) :
    Except PyErr (MPoly F) :=
  if debug && !(maskDebugNames.all (fun n => zkwhirModuleNames.contains n)) then
    .error .nameError
  else .ok (mask_polynomial input_poly nvars random_poly)

/-- State of a ZKWhirPCS after construction (zkwhir.py ZKWhirPCS). -/
structure ZKWhirPCS (F : Type) where
  input_poly : MPoly F
  masked_poly : MPoly F
  scheck_mask : MPoly F
  folding_factor : Nat
  omega : F
  multi_order : Nat
  dimension : Nat

/-- Constructor of a ZKWhirPCS (zkwhir.py ZKWhirPCS.__init__): always
invokes mask_polynomial on the input polynomial (with its debug block when
debug checks are enabled), then draws the sumcheck mask; the mask and
sumcheck-mask random draws are explicit inputs. -/
def ZKWhirPCS.init (debug : Bool)
    (input_polynomial : MPoly F) (nvars : Nat) (mask_rnd : List F)
    (scheck_rnd : List F) (ntt_omega : F) (order : Nat)
    (query_threshold folding_factor : Nat) : Except PyErr (ZKWhirPCS F) := do
  let masked ← mask_polynomial_checked debug input_polynomial nvars mask_rnd
  let _ := query_threshold
  let scheck := random_multilinear_from scheck_rnd (nvars + 1)
  .ok ⟨input_polynomial, masked, scheck, folding_factor, ntt_omega, order,
    2 ^ (nvars + 1)⟩

/-! ## Specification model of do_sumcheck (claim C2) -/

/-- The claimed do_sumcheck loop: exactly rounds_left rounds remain; round
j > 0 draws a fresh challenge, sets the running claim to the previous
round polynomial's value at the challenge and substitutes the challenge
into the verifier weight; the round polynomial must sum to the running
claim over the hypercube, else False (none) immediately. -/
def dsSpecGo :
    Nat → Nat → List Nat → WhirVerifier F → WhirRound F →
    Option (MPoly F × Nat) → MPoly F → (Nat → F) → Nat →
    Except PyErr (Option (WhirVerifier F × WhirRound F))
  | 0, _, _, v, prover, _, claimed, _, _ =>
    .ok (some ({ v with claimed_sum := claimed }, prover))
  | rounds_left + 1, j, pvars, v, prover, prev, claimed, rnd, chIdx =>
    let var := pvars.getD j 0
    match j, prev with
    | 0, _ => do
      let pr ← prover.sumcheck_prover_round none
      if ¬ mEqb (sumSubst pr.2 var v.hypercube) claimed then .ok none
      else dsSpecGo rounds_left (j + 1) pvars v pr.1 (some (pr.2, var)) claimed rnd chIdx
    | _ + 1, none => .error .valueError
    | _ + 1, some pp => do
      let challenge := rnd chIdx
      let claimed' := mSubst pp.1 pp.2 challenge
      let v' := { v with
        schk_challenges := v.schk_challenges ++ [challenge],
        weight := mSubst v.weight pp.2 challenge }
      let pr ← prover.sumcheck_prover_round (some challenge)
      if ¬ mEqb (sumSubst pr.2 var v'.hypercube) claimed' then .ok none
      else dsSpecGo rounds_left (j + 1) pvars v' pr.1 (some (pr.2, var)) claimed' rnd (chIdx + 1)

/-- The claimed behaviour of do_sumcheck (claim C2): run exactly
log2(fold_factor) + 1 rounds over the successive weight variables. -/
def doSumcheckSpec (v : WhirVerifier F)
    (prover : WhirRound F) (rnd : Nat → F) :
    Except PyErr (Option (WhirVerifier F × WhirRound F)) :=
  dsSpecGo (v.schk_rounds + 1) 0 (mVars v.weight) v prover none
    v.claimed_sum rnd 0

/-- Combination of a response list with successive powers of gamma
starting at gamma^1 (the sumcheck-claim correction of claim C6). -/
def geomCombo (gamma : F) (rs : List F) : F :=
  (rs.enum.map (fun p => p.2 * gamma ^ (p.1 + 1))).sum

/-- The claimed weight-polynomial extension of a fold round (claim C6):
one equality-constraint term for the out-of-domain sample and one per
shift query, each scaled by successive powers of gamma. -/
def weightExtension (vs : List Nat)
    (gamma ood_sample : F) (shift_queries : List F) : MPoly F :=
  shift_queries.enum.foldl
    (fun acc q => mAdd acc (mScale (gamma ^ (q.1 + 2)) (weightUpdt vs q.2)))
    (mScale gamma (weightUpdt vs ood_sample))

/-! ## Concrete instances over the field of 17 elements -/

instance : Fact (Nat.Prime 17) := ⟨by norm_num⟩

instance : ExecField (ZMod 17) where
  einv a := a ^ 15
  einv_eq a := by
    rcases eq_or_ne a 0 with rfl | h
    · simp
    · have h16 : a ^ 16 = 1 := by
        have := ZMod.pow_card_sub_one_eq_one (p := 17) h
        simpa using this
      have hm : a * a ^ 15 = 1 := by
        rw [← pow_succ']
        exact h16
      exact (inv_eq_of_mul_eq_one_right hm).symm

/-- A concrete multilinear witness in two variables over GF(17):
7 + 3*x0 + 5*x1 + 2*x0*x1. -/
def wIn : MPoly (ZMod 17) := [([], 7), ([1], 3), ([0, 1], 5), ([1, 1], 2)]

/-- The eq weight coefficient for the evaluation point (2, 3); wIn(2,3) = 6. -/
def wW : MPoly (ZMod 17) := eqList [0, 1] [2, 3]

/-- The WhirRound of the concrete instance, as WhirRound.make constructs
it for wIn, wW, the generator 3 of the order-16 subgroup of GF(17) and
the claimed sum 6. -/
def wR : WhirRound (ZMod 17) :=
  ⟨wIn, wW, [0, 1], 3, 16, 4, [0, 1], [], mMul wW wIn, mConstP 6,
    rsEncode 3 16 (toUnivariate wIn)⟩

/-- The WhirVerifier of the concrete instance, as WhirVerifier.make
constructs it with fold factor 2 and two shift queries. -/
def wV : WhirVerifier (ZMod 17) :=
  ⟨wW, 3, mConstP 6, 1, 2, 16, [0, 1], []⟩

/-- A deterministic challenge stream for the concrete instance. -/
def wRnd : Nat → ZMod 17 := fun j => (5 + 2 * j : ZMod 17)

/-- A WhirRound on which all sumcheck variables have been collapsed: the
state of a two-variable round after both sumcheck challenges were
substituted (the witness and sumcheck polynomial are the constant 4, the
weight collapsed to the constant 1, and the claimed sum is the
fully-collapsed hypercube sum 1 * 4). -/
def wCollapsed : WhirRound (ZMod 17) :=
  { poly := mConstP 4, weight := mConstP 1, polyvars := [0, 1], omega := 3,
    multi_order := 16, dimension := 4, hypercube := [0, 1],
    sumcheck_challenges := [5, 6], sumcheck_poly := mConstP 4,
    claimed_sum := mConstP 4, code_value := [] }

/-- A WhirRound with no sumcheck variables at all: the constant witness 4
with constant weight 1. -/
def wEmptyR : WhirRound (ZMod 17) :=
  { poly := mConstP 4, weight := mConstP 1, polyvars := [], omega := 3,
    multi_order := 16, dimension := 1, hypercube := [0, 1],
    sumcheck_challenges := [], sumcheck_poly := mConstP 4,
    claimed_sum := mConstP 4, code_value := [] }

/-- A WhirRound whose witness still has one free variable (1 + x0) after
two factor-2 sumcheck steps were completed; its claimed sum is chosen so
that the fold round's updated claim collapses to zero (falsy), letting
the construction of the next round go through. -/
def wPartial : WhirRound (ZMod 17) :=
  { poly := [([], 1), ([1], 1)], weight := mConstP 1, polyvars := [0, 1],
    omega := 3, multi_order := 16, dimension := 4, hypercube := [0, 1],
    sumcheck_challenges := [5, 6], sumcheck_poly := [([], 1), ([1], 1)],
    claimed_sum := [([], 5)], code_value := [] }

/-- The fold data that fold_round produces from wPartial with gamma 3,
out-of-domain sample 2 and the single shift query 5 (extracted from the
computation; the default is never reached). -/
def c6fd : WhirRound.FoldData (ZMod 17) :=
  (wPartial.fold_round 3 2 [5]).toOption.getD
    ⟨wPartial, wPartial, (0, 0), []⟩

/-- A one-layer FRI chain over GF(17): the constant polynomial 5 on the
order-4 domain generated by 4, rate factor 2, folding factor 2. -/
def c1o : FRIOPP (ZMod 17) := ⟨⟨[5], 4, 4, 2, 2⟩, []⟩

/-- The first layer of the GF(17) chain for X^4: order-16 domain
generated by 3, rate factor 2, folding factor 2. -/
def c3prev : FRIRound (ZMod 17) := ⟨[0, 0, 0, 0, 1], 3, 16, 2, 2⟩

/-- The second layer of that chain after the DEEP fold with challenge 1
and out-of-domain point 2: the quotient polynomial X + 2 on the order-8
domain generated by 9. -/
def c3this : FRIRound (ZMod 17) := ⟨[2, 1], 9, 8, 2, 2⟩

/-- The quotient oracle matching c1o for an opening of the constant 5 at
the point 1: the zero polynomial on the same domain. -/
def c4quot : FRIOPP (ZMod 17) := ⟨⟨[], 4, 4, 2, 2⟩, []⟩

/-- The FRI chain that FRIOPP.build produces for X^4 over GF(17) with
fold challenge 1 and no out-of-domain samples: one fold to X^2 (the odd
part vanishes), after which the degree bound 2 stops the loop. -/
def c5o : FRIOPP (ZMod 17) :=
  ⟨⟨[0, 0, 0, 0, 1], 3, 16, 2, 2⟩,
   [⟨⟨[0, 0, 1], 9, 8, 2, 2⟩, some 1, none⟩]⟩

/-! # Theorems -/

/-! ## Basic lemmas about the coefficient-list polynomials -/

theorem pow2Log_pow (k : Nat) : ∀ fuel, 2 ^ k ≤ fuel → pow2Log fuel (2 ^ k) = k := by
  induction k with
  | zero =>
    intro fuel h
    match fuel, h with
    | fuel + 1, _ => simp [pow2Log]
  | succ k ih =>
    intro fuel h
    have h2 : 2 ≤ 2 ^ (k + 1) := Nat.one_lt_two_pow_iff.mpr (by omega)
    match fuel, Nat.le_trans h2 h with
    | fuel + 1, _ =>
      have hs : ¬ (2 ^ (k + 1) < 2) := not_lt.mpr h2
      have hdiv : 2 ^ (k + 1) / 2 = 2 ^ k := by
        rw [pow_succ]
        omega
      have hfl : 2 ^ k ≤ fuel := by
        have := Nat.pow_lt_pow_right (a := 2) (by norm_num) (Nat.lt_succ_self k)
        omega
      rw [pow2Log, if_neg hs, hdiv, ih fuel hfl]

theorem isPow2_iff (n : Nat) : isPow2 n = true ↔ ∃ k, n = 2 ^ k := by
  constructor
  · intro h
    exact ⟨pow2Log n n, by simpa [isPow2] using h⟩
  · rintro ⟨k, rfl⟩
    simp [isPow2, pow2Log_pow k (2 ^ k) le_rfl]

theorem isPow2_dvd_of_le {a b : Nat} (ha : isPow2 a = true) (hb : isPow2 b = true)
    (h : b ≤ a) : b ∣ a := by
  rcases (isPow2_iff a).mp ha with ⟨j, rfl⟩
  rcases (isPow2_iff b).mp hb with ⟨k, rfl⟩
  exact pow_dvd_pow 2 ((Nat.pow_le_pow_iff_right (by norm_num)).mp h)

theorem ptrim_eq_nil_iff (p : List F) : ptrim p = [] ↔ ∀ a ∈ p, a = 0 := by
  unfold ptrim
  rw [List.reverse_eq_nil_iff, List.dropWhile_eq_nil_iff]
  constructor
  · intro h a ha
    have := h a (List.mem_reverse.mpr ha)
    simpa using this
  · intro h a ha
    simpa using h a (List.mem_reverse.mp ha)

theorem peval_eq_zero_of_ptrim_nil {p : List F} (h : ptrim p = []) (x : F) :
    peval p x = 0 := by
  have hall := (ptrim_eq_nil_iff p).mp h
  induction p with
  | nil => rfl
  | cons a q ih =>
    have ha : a = 0 := hall a (by simp)
    have hq : ∀ b ∈ q, b = 0 := fun b hb => hall b (by simp [hb])
    have := ih ((ptrim_eq_nil_iff q).mpr hq) hq
    simp [peval] at this ⊢
    simp [ha, this]

/-! ## Claim C8: FRIRound construction checks -/

/-- Claim C8, counterexample: FRIRound construction does not check that
the folding factor is at most the rate factor.  Over GF(17) with the
generator 3 of genuine multiplicative order 16 (3^16 = 1, 3^8 ≠ 1),
rate factor 2 and folding factor 16, construction succeeds even though
the folding factor exceeds the rate factor, contradicting both the
claimed "if and only if" error condition and the claimed invariant
folding_factor ≤ rate_factor of successfully constructed rounds. -/
theorem C8_counterexample :
    FRIRound.make ([] : List (ZMod 17)) 3 16 2 16 =
      Except.ok ⟨[], 3, 16, 2, 16⟩
    ∧ (3 : ZMod 17) ^ 16 = 1
    ∧ (3 : ZMod 17) ^ 8 ≠ 1
    ∧ ¬ (16 ≤ 2) := by decide

/-- Claim C8, amended: FRIRound construction raises a configuration error
if and only if the multiplicative order, the rate factor or the folding
factor is not a power of two, or the rate factor exceeds the order (the
source never compares the folding factor with the rate factor); every
successfully constructed round satisfies rate_factor ≤ mult_order and
folding_root ^ folding_factor = 1. -/
theorem C8_make_amended (poly : List F) (ω : F) (order rate ff : Nat)
    (hω : ω ^ order = 1) :
    ((∃ e, FRIRound.make poly ω order rate ff = .error e) ↔
      (¬ isPow2 order ∨ ¬ isPow2 rate ∨ order < rate ∨ ¬ isPow2 ff))
    ∧ (∀ r, FRIRound.make poly ω order rate ff = .ok r →
        (r.rate_factor ≤ r.mult_order ∧ r.folding_root ^ r.folding_factor = 1)) := by
  have hassert : isPow2 order = true → isPow2 ff = true →
      (ω ^ (order / ff)) ^ ff = 1 := by
    intro ho hf
    rcases le_or_lt ff order with hle | hlt
    · have hdvd : ff ∣ order := isPow2_dvd_of_le ho hf hle
      have hffpos : 0 < ff := by
        rcases (isPow2_iff ff).mp hf with ⟨k, rfl⟩
        positivity
      rw [← pow_mul, Nat.div_mul_cancel hdvd, hω]
    · have : order / ff = 0 := Nat.div_eq_of_lt hlt
      simp [this]
  constructor
  · constructor
    · intro ⟨e, he⟩
      by_contra hcon
      push_neg at hcon
      obtain ⟨h1, h2, h3, h4⟩ := hcon
      rw [FRIRound.make] at he
      rw [if_neg (by simp [h1]), if_neg (by simp [h2, h3, not_lt.mpr h3]),
        if_neg (by simp [h4]), if_neg (by simp [hassert h1 h4])] at he
      exact Except.noConfusion he
    · intro h
      rw [FRIRound.make]
      by_cases h1 : isPow2 order
      · by_cases h2 : isPow2 rate ∧ order ≥ rate
        · by_cases h4 : isPow2 ff
          · exfalso
            rcases h with h | h | h | h
            · exact h h1
            · exact h h2.1
            · exact absurd h2.2 (not_le.mpr h)
            · exact h h4
          · rw [if_neg (by simp [h1]), if_neg (by simp [h2.1, not_lt.mpr h2.2])]
            exact ⟨.valueError, by rw [if_pos (by simp [h4])]⟩
        · rw [if_neg (by simp [h1])]
          rw [Classical.not_and_iff_or_not_not] at h2
          refine ⟨.valueError, ?_⟩
          rcases h2 with h2 | h2
          · rw [if_pos (by simp [h2])]
          · rw [if_pos (by right; exact not_le.mp h2)]
      · exact ⟨.valueError, by rw [if_pos (by simp [h1])]⟩
  · intro r hr
    rw [FRIRound.make] at hr
    by_cases h1 : isPow2 order
    · by_cases h2 : isPow2 rate ∧ ¬ (order < rate)
      · by_cases h4 : isPow2 ff
        · rw [if_neg (by simp [h1]), if_neg (by simp [h2.1, h2.2]),
            if_neg (by simp [h4]), if_neg (by simp [hassert h1 h4])] at hr
          cases hr
          refine ⟨not_lt.mp h2.2, ?_⟩
          exact hassert h1 h4
        · rw [if_neg (by simp [h1]), if_neg (by simp [h2.1, h2.2]),
            if_pos (by simp [h4])] at hr
          exact Except.noConfusion hr
      · rw [if_neg (by simp [h1])] at hr
        rw [Classical.not_and_iff_or_not_not] at h2
        rcases h2 with h2 | h2
        · rw [if_pos (by simp [h2])] at hr
          exact Except.noConfusion hr
        · rw [if_pos (by right; exact not_not.mp h2)] at hr
          exact Except.noConfusion hr
    · rw [if_pos (by simp [h1])] at hr
      exact Except.noConfusion hr

/-- Witness for the amended claim C8 at a concrete input: the generator 3
of GF(17) with order 16, rate factor 4, folding factor 2. -/
theorem C8_make_amended_witness :
    ((3 : ZMod 17) ^ 16 = 1)
    ∧ (((∃ e, FRIRound.make ([] : List (ZMod 17)) 3 16 4 2 = .error e) ↔
        (¬ isPow2 16 ∨ ¬ isPow2 4 ∨ 16 < 4 ∨ ¬ isPow2 2))
      ∧ (∀ r, FRIRound.make ([] : List (ZMod 17)) 3 16 4 2 = .ok r →
          (r.rate_factor ≤ r.mult_order ∧ r.folding_root ^ r.folding_factor = 1))) :=
  ⟨by decide, C8_make_amended [] 3 16 4 2 (by decide)⟩

/-! ## Claim C1: FRIOPP.verify_proximity -/

theorem pdeg_one_list : pdeg ([1] : List F) = 0 := by
  have h : ((1 : F) == 0) = false := by
    simp
  simp [pdeg, ptrim, List.dropWhile, h]

theorem boundUpdate_eq (bound : Int) (rd : RoundData F)
    (h : DeepCanon rd.deep_poly) :
    (match rd.deep_poly with
     | none => Int.fdiv bound rd.fri_round.folding_factor + 1
     | some nd =>
       if (ptrim nd.1).isEmpty then
         Int.fdiv bound rd.fri_round.folding_factor + 1
       else Int.fdiv bound rd.fri_round.folding_factor + 1 - pdeg nd.2)
    = boundUpdateSpec bound rd := by
  unfold boundUpdateSpec
  cases hd : rd.deep_poly with
  | none => simp
  | some nd =>
    by_cases he : (ptrim nd.1).isEmpty
    · have h2 : nd.2 = [1] := h nd hd he
      have hp : pdeg nd.2 = 0 := by rw [h2]; exact pdeg_one_list
      simp [he, hp]
    · simp [he]

theorem vpLoop_eq_specGo (rest : List (RoundData F)) :
    ∀ (prev : FRIRound F) (bound : Int) (q : Nat) (rnd : Nat → Nat) (k : Nat),
    (∀ rd ∈ rest, DeepCanon rd.deep_poly) →
    vpLoop prev rest bound q rnd k =
      vpSpecGo ((prev :: rest.map (fun rd => rd.fri_round)).zip rest)
        bound q rnd k prev := by
  induction rest with
  | nil =>
    intro prev bound q rnd k _
    rfl
  | cons rd rest' ih =>
    intro prev bound q rnd k hcanon
    have hd : DeepCanon rd.deep_poly := hcanon rd (by simp)
    have hrest : ∀ x ∈ rest', DeepCanon x.deep_poly :=
      fun x hx => hcanon x (by simp [hx])
    simp only [vpLoop, vpSpecGo, List.map_cons, List.zip_cons_cons]
    by_cases hcc : FRIRound.consistancy_cross_check rd.fri_round prev
        (rd.fold_randomness.getD 0) q rd.deep_poly (fun t => rnd (k * q + t))
    · simp only [hcc, not_true, if_neg (by simp : ¬ (¬ True)), ite_false]
      rw [boundUpdate_eq bound rd hd]
      by_cases hb : boundUpdateSpec bound rd ≤ (rd.fri_round.folding_factor : Int)
      · simp [hb, finalInterpCheck]
      · simp only [hb, ite_false, if_neg hb]
        exact ih rd.fri_round (boundUpdateSpec bound rd) q rnd (k + 1) hrest
    · simp [hcc]

/-- Claim C1 (confirmed): FRIOPP.verify_proximity behaves exactly as
claimed — it returns False if the first layer's Reed-Solomon dimension is
below the claimed degree; otherwise it runs consistancy_cross_check on
each consecutive layer pair, returning False at the first failing pair,
replaces the tracked bound by floor(bound/folding_factor)+1 after each
checked pair (further subtracting the DEEP denominator's degree when a
DEEP response is present), stops the loop as soon as the bound is at most
the current folding factor, and finally accepts iff the Lagrange
interpolation of the last examined layer's entire codeword has degree at
most that layer's folding factor.  The DEEP responses are assumed to be
in the canonical (reduced) fraction form that FRIRound.fold produces. -/
theorem C1_verify_proximity_spec (o : FRIOPP F) (max_degree : Int)
    (query_count : Nat) (rnd : Nat → Nat)
    (hcanon : ∀ rd ∈ o.tail, DeepCanon rd.deep_poly) :
    o.verify_proximity max_degree query_count rnd =
      vpSpec o max_degree query_count rnd := by
  unfold FRIOPP.verify_proximity vpSpec consecutivePairs
  by_cases h : (o.first.dimension : Int) < max_degree
  · simp [h]
  · simp only [h, ite_false, if_neg h]
    exact vpLoop_eq_specGo o.tail o.first max_degree query_count rnd 0 hcanon

/-- Witness for claim C1 at a concrete input: a one-layer chain over
GF(17) (the canonical-form hypothesis is vacuous for an empty tail). -/
theorem C1_verify_proximity_spec_witness :
    (∀ rd ∈ c1o.tail, DeepCanon rd.deep_poly)
    ∧ FRIOPP.verify_proximity c1o 1 1 (fun t => t) =
        vpSpec c1o 1 1 (fun t => t) :=
  ⟨by simp [c1o], C1_verify_proximity_spec c1o 1 1 (fun t => t) (by simp [c1o])⟩

/-! ## Claim C3: consistancy_cross_check -/

theorem cross_check_one_eq_spec (this_round prev_round : FRIRound F) (c : F)
    (ood : Option (List F × List F)) (ndx : Nat) (h : DeepCanon ood) :
    FRIRound.cross_check_one this_round prev_round c ood ndx =
      crossCheckSpecMatch this_round prev_round c ood ndx := by
  unfold FRIRound.cross_check_one crossCheckSpecMatch
  cases hd : ood with
  | none => rfl
  | some nd =>
    by_cases he : (ptrim nd.1).isEmpty
    · have h2 : nd.2 = [1] := h nd hd he
      have h0 : peval nd.1 (this_round.evaluation_points.getD
          (ndx % prev_round.gen_proof.length % this_round.mult_order) 0) = 0 :=
        peval_eq_zero_of_ptrim_nil (List.isEmpty_iff.mp he) _
      simp only [he, ite_true, if_pos he, h2, h0]
      simp [peval]
    · simp [he]

/-- Claim C3 (confirmed): consistancy_cross_check performs the given
number of independent random-index checks — each gathering the conjugate
codeword values of the previous layer, solving the Vandermonde system
built from the folding-root powers to obtain the algebraic fold at the
challenge, applying the DEEP correction
value := denominator(omega)*value + numerator(omega) when a DEEP response
is given, and comparing against the new layer's codeword value at the
corresponding index — and returns True iff strictly more than 2/3 of the
checks match, i.e. matches > floor(2q/3).  The DEEP response is assumed
to be in the canonical fraction form that FRIRound.fold produces. -/
theorem C3_consistancy_cross_check_spec (this_round prev_round : FRIRound F)
    (folding_challenge : F) (queries : Nat)
    (ood : Option (List F × List F)) (rnd : Nat → Nat) (h : DeepCanon ood) :
    FRIRound.consistancy_cross_check this_round prev_round folding_challenge
      queries ood rnd =
      crossCheckSpec this_round prev_round folding_challenge queries ood rnd := by
  unfold FRIRound.consistancy_cross_check crossCheckSpec is_overwhelming_majority
  have hmap : ∀ t, FRIRound.cross_check_one this_round prev_round
      folding_challenge ood (rnd t) =
      crossCheckSpecMatch this_round prev_round folding_challenge ood (rnd t) :=
    fun t => cross_check_one_eq_spec this_round prev_round folding_challenge
      ood (rnd t) h
  simp only [List.countP_map, List.length_map, List.length_range]
  have hcp : List.countP
      (id ∘ fun t => FRIRound.cross_check_one this_round prev_round
        folding_challenge ood (rnd t)) (List.range queries) =
      List.countP (fun t => crossCheckSpecMatch this_round prev_round
        folding_challenge ood (rnd t)) (List.range queries) :=
    List.countP_congr (fun t _ => by simp [Function.comp, hmap t])
  rw [hcp]

/-- Witness for claim C3 at a concrete input: the two layers of the GF(17)
chain for X^4 with one out-of-domain point, whose DEEP response has a
nonzero numerator (so it is canonical). -/
theorem C3_consistancy_cross_check_spec_witness :
    DeepCanon (F := ZMod 17) (some ([4], [15, 1]))
    ∧ FRIRound.consistancy_cross_check c3this c3prev
        1 3 (some ([4], [15, 1])) (fun t => t) =
      crossCheckSpec c3this c3prev
        1 3 (some ([4], [15, 1])) (fun t => t) :=
  ⟨fun nd hnd he => by cases hnd; revert he; decide,
   C3_consistancy_cross_check_spec c3this c3prev 1 3 _ (fun t => t)
     (fun nd hnd he => by cases hnd; revert he; decide)⟩

/-! ## Claim C4: FRIPCS_Verifier.verify_proof -/

theorem gen_proof_length (r : FRIRound F) : r.gen_proof.length = r.mult_order := by
  simp [FRIRound.gen_proof, FRIRound.evaluation_points]

/-- Claim C4, counterexample: perturbing the evaluation point does not
always reject.  Over GF(17), commit the constant polynomial 5 (an honest
commitment), open it at z = 1 — so v = 5 and the quotient is the zero
polynomial, as witnessed by the exact division below — and verify at the
perturbed point z' = 2 ≠ 1: verify_proof accepts for every draw of the
query indices, because the quotient codeword vanishes identically. -/
theorem C4_counterexample :
    ((FRIOPP.build (F := ZMod 17) 10 [5] 4 4 2 2 (fun _ => 1) (fun _ => [])).bind
      (fun orig =>
        (FRIOPP.build (F := ZMod 17) 10 [] 4 4 2 2 (fun _ => 1) (fun _ => [])).map
          (fun quot =>
            FRIPCS_verify_proof 1 1 orig quot 2 5 (fun _ => 0) (fun _ => 0)
              (fun t => t))))
      = .ok true
    ∧ peval ([5] : List (ZMod 17)) 1 = 5
    ∧ (pdivmod (psub ([5] : List (ZMod 17)) [5]) [-1, 1]).1 = []
    ∧ (2 : ZMod 17) ≠ 1 := by decide

/-! ## Claim C5: degree bounds along the fold chain -/

theorem padd_length (a b : List F) : (padd a b).length = max a.length b.length := by
  induction a generalizing b with
  | nil => simp [padd]
  | cons x a ih =>
    cases b with
    | nil => simp [padd]
    | cons y b =>
      simp only [padd, List.length_cons, ih]
      omega

theorem pscale_length (c : F) (p : List F) : (pscale c p).length = p.length := by
  simp [pscale]

theorem pneg_length (p : List F) : (pneg p).length = p.length := by
  simp [pneg]

theorem psub_length (a b : List F) : (psub a b).length = max a.length b.length := by
  simp [psub, padd_length, pneg_length]

theorem pmono_length (k : Nat) (c : F) : (pmono k c).length = k + 1 := by
  simp [pmono]

theorem ptrim_length_le (p : List F) : (ptrim p).length ≤ p.length := by
  unfold ptrim
  simpa using (List.dropWhile_suffix (l := p.reverse) (fun a => a == 0)).sublist.length_le

theorem pdeg_le_length (p : List F) : pdeg p ≤ (p.length : Int) - 1 := by
  unfold pdeg
  have := ptrim_length_le p
  omega

theorem foldl_padd_fn_length_le {α : Type} (l : List α) (B : Nat) (h : α → List F) :
    ∀ acc : List F, acc.length ≤ B → (∀ e ∈ l, (h e).length ≤ B) →
    ((l.foldl (fun a e => padd a (h e)) acc)).length ≤ B := by
  induction l with
  | nil => intro acc ha _; simpa using ha
  | cons e l ih =>
    intro acc ha hl
    simp only [List.foldl_cons]
    refine ih (padd acc (h e)) ?_ (fun x hx => hl x (by simp [hx]))
    rw [padd_length]
    exact max_le ha (hl e (by simp))

theorem filterMap_zip_fst_length (t j : Nat) :
    ∀ (l1 : List Nat) (l2 : List F), l1.length = l2.length →
    ((l1.zip l2).filterMap
        (fun e => if e.1 % t == j then some e.2 else none)).length
      = l1.countP (fun i => i % t == j) := by
  intro l1
  induction l1 with
  | nil => intro l2 _; simp
  | cons a l1 ih =>
    intro l2 h
    cases l2 with
    | nil => simp at h
    | cons b l2 =>
      have h' : l1.length = l2.length := by simpa using h
      by_cases hc : a % t = j
      · simp [List.zip_cons_cons, List.filterMap_cons, hc, List.countP_cons]
        simpa using ih l2 h'
      · simp [List.zip_cons_cons, List.filterMap_cons, hc, List.countP_cons]
        simpa using ih l2 h'

theorem dvd_iff_mod_eq (t j L : Nat) (ht : 0 < t) (hj : j < t) :
    t ∣ (L + (t - j)) ↔ L % t = j := by
  have hL := Nat.div_add_mod L t
  have hr : L % t < t := Nat.mod_lt _ ht
  constructor
  · rintro ⟨k, hk⟩
    have hk1 : k = L / t + 1 := by
      rcases Nat.lt_trichotomy k (L / t + 1) with h | h | h
      · have h1 : k ≤ L / t := by omega
        have h2 : t * k ≤ t * (L / t) := Nat.mul_le_mul_left t h1
        omega
      · exact h
      · have h1 : L / t + 2 ≤ k := by omega
        have h2 : t * (L / t + 2) ≤ t * k := Nat.mul_le_mul_left t h1
        rw [Nat.mul_add] at h2
        omega
    rw [hk1, Nat.mul_add] at hk
    omega
  · intro hm
    refine ⟨L / t + 1, ?_⟩
    rw [Nat.mul_add, Nat.mul_one]
    omega

theorem count_mod_range (t j : Nat) (ht : 0 < t) (hj : j < t) :
    ∀ L, (List.range L).countP (fun i => i % t == j) = (L + (t - 1 - j)) / t := by
  intro L
  induction L with
  | zero =>
    simp [Nat.div_eq_of_lt (by omega : t - 1 - j < t)]
  | succ L ih =>
    rw [List.range_succ, List.countP_append, ih]
    have hre : L + 1 + (t - 1 - j) = (L + (t - 1 - j)) + 1 := by omega
    have hiff : (t ∣ (L + (t - 1 - j)) + 1) ↔ L % t = j := by
      have he : (L + (t - 1 - j)) + 1 = L + (t - j) := by omega
      rw [he]
      exact dvd_iff_mod_eq t j L ht hj
    rw [hre, Nat.succ_div]
    by_cases hm : L % t = j
    · rw [if_pos (hiff.mpr hm)]
      simp [List.countP_cons, List.countP_nil, hm]
    · rw [if_neg (fun hc => hm (hiff.mp hc))]
      simp [List.countP_cons, List.countP_nil, hm]

theorem splitCoeffs_length (cs : List F) (t j : Nat) (ht : 0 < t) (hj : j < t) :
    (splitCoeffs cs t j).length = (cs.length + (t - 1 - j)) / t := by
  unfold splitCoeffs
  rw [List.enum_eq_zip_range]
  rw [filterMap_zip_fst_length t j _ _ (by simp)]
  exact count_mod_range t j ht hj cs.length

theorem splitCoeffs_length_le (cs : List F) (t j : Nat) (ht : 0 < t) (hj : j < t)
    (hc : 0 < cs.length) :
    (splitCoeffs cs t j).length ≤ (cs.length - 1) / t + 1 := by
  rw [splitCoeffs_length cs t j ht hj]
  have h1 : cs.length + (t - 1 - j) ≤ (cs.length - 1) + t := by omega
  calc (cs.length + (t - 1 - j)) / t ≤ ((cs.length - 1) + t) / t :=
        Nat.div_le_div_right h1
    _ = (cs.length - 1) / t + 1 := Nat.add_div_right _ ht

theorem pmul_linear_length_le (x : F) :
    ∀ q : List F, (pmul q [-x, 1]).length ≤ q.length + 1 := by
  intro q
  induction q with
  | nil => simp [pmul]
  | cons a q ih =>
    show (padd (pscale a [-x, 1]) (0 :: pmul q [-x, 1])).length ≤ q.length + 1 + 1
    rw [padd_length, pscale_length]
    have h2 : ([-x, 1] : List F).length = 2 := rfl
    simp only [List.length_cons, h2]
    omega

theorem enum_filter_ne_length {α : Type} (l : List α) (i : Nat) (hi : i < l.length) :
    ((l.enum.filter (fun e => decide (e.1 ≠ i))).length) < l.length := by
  have hmem : (i, l.get ⟨i, hi⟩) ∈ l.enum := by
    rw [List.enum_eq_zip_range]
    have hz : ((List.range l.length).zip l).get
        ⟨i, by simp [List.length_zip, hi]⟩ =
        ((List.range l.length).get ⟨i, by simpa using hi⟩, l.get ⟨i, hi⟩) := by
      simp [List.get_zip]
    rw [show ((i : Nat), l.get ⟨i, hi⟩) =
        ((List.range l.length).zip l).get ⟨i, by simp [List.length_zip, hi]⟩ from by
      rw [hz]; simp]
    exact List.get_mem _ i _
  calc ((l.enum.filter (fun e => decide (e.1 ≠ i))).length)
      < l.enum.length := by
        apply List.length_filter_lt_length_iff_exists.mpr
        exact ⟨(i, l.get ⟨i, hi⟩), hmem, by simp⟩
    _ = l.length := List.enum_length

theorem lagrange_length_le (pts : List (F × F)) :
    (lagrange pts).length ≤ pts.length := by
  unfold lagrange
  apply foldl_padd_fn_length_le (List.range pts.length) pts.length
  · simp
  · intro i hi
    rw [pscale_length]
    have hi' : i < pts.length := List.mem_range.mp hi
    have hfl : ((pts.map Prod.fst).enum.filter
        (fun e => decide (e.1 ≠ i))).length < pts.length := by
      have := enum_filter_ne_length (pts.map Prod.fst) i (by simpa using hi')
      simpa using this
    have hlen : ∀ (o : List F) (q : List F),
        (o.foldl (fun q xj => pmul q [-xj, 1]) q).length ≤ q.length + o.length := by
      intro o
      induction o with
      | nil => intro q; simp
      | cons x o ih =>
        intro q
        simp only [List.foldl_cons]
        calc ((o.foldl (fun q xj => pmul q [-xj, 1]) (pmul q [-x, 1]))).length
            ≤ (pmul q [-x, 1]).length + o.length := ih _
          _ ≤ q.length + 1 + o.length := by
              have := pmul_linear_length_le x q
              omega
          _ = q.length + (o.length + 1) := by omega
    calc (((((pts.map Prod.fst).enum.filter (fun e => decide (e.1 ≠ i))).map
          Prod.snd)).foldl (fun q xj => pmul q [-xj, 1]) [1]).length
        ≤ 1 + ((((pts.map Prod.fst).enum.filter (fun e => decide (e.1 ≠ i))).map
          Prod.snd)).length := hlen _ [1]
      _ ≤ pts.length := by
          rw [List.length_map]
          omega

theorem pdivmodAux_fst_length :
    ∀ (fuel : Nat) (r d : List F),
    (pdivmodAux fuel r d).1.length ≤ (ptrim r).length + 1 - (ptrim d).length := by
  intro fuel
  induction fuel with
  | zero => intro r d; simp [pdivmodAux]
  | succ fuel ih =>
    intro r d
    simp only [pdivmodAux]
    by_cases h1 : (ptrim d).isEmpty
    · simp [h1]
    · by_cases h2 : (ptrim r).length < (ptrim d).length
      · simp [h1, h2]
      · rw [if_neg h1, if_neg h2]
        simp only []
        rw [padd_length, pmono_length]
        have hd1 : 1 ≤ (ptrim d).length := by
          cases hh : ptrim d with
          | nil => rw [hh] at h1; simp at h1
          | cons a l => simp [hh]
        have hrec := ih (psub (ptrim r)
            (pscale ((ptrim r).getLastD 0 * ExecField.einv ((ptrim d).getLastD 0))
              (List.replicate ((ptrim r).length - (ptrim d).length) 0 ++ ptrim d))) d
        have htr := ptrim_length_le (psub (ptrim r)
            (pscale ((ptrim r).getLastD 0 * ExecField.einv ((ptrim d).getLastD 0))
              (List.replicate ((ptrim r).length - (ptrim d).length) 0 ++ ptrim d)))
        rw [psub_length, pscale_length, List.length_append, List.length_replicate] at htr
        omega

theorem padd_getLast_right (a : List F) :
    ∀ b : List F, a.length < b.length → (padd a b).getLast? = b.getLast? := by
  induction a with
  | nil => intro b _; cases b <;> rfl
  | cons x a ih =>
    intro b hb
    cases b with
    | nil => simp at hb
    | cons y b =>
      have hb' : a.length < b.length := by simpa using hb
      have hne : padd a b ≠ [] := by
        intro hc
        have := padd_length a b
        rw [hc] at this
        simp at this
        omega
      show ((x + y) :: padd a b).getLast? = (y :: b).getLast?
      cases hp : padd a b with
      | nil => exact absurd hp hne
      | cons u v =>
        rw [List.getLast?_cons_cons]
        rw [← hp, ih b hb']
        cases b with
        | nil => simp at hb'
        | cons w b' => rw [List.getLast?_cons_cons]

theorem pmul_linear_exact (x : F) (q : List F) (hq : q ≠ []) :
    (pmul q [-x, 1]).length = q.length + 1
    ∧ (pmul q [-x, 1]).getLast? = q.getLast? := by
  induction q with
  | nil => exact absurd rfl hq
  | cons a q ih =>
    cases q with
    | nil =>
      constructor
      · rfl
      · show (padd (pscale a [-x, 1]) (0 :: pmul [] [-x, 1])).getLast? = _
        simp [pmul, padd, pscale]
    | cons b q' =>
      obtain ⟨ihlen, ihlast⟩ := ih (by simp)
      have hlen : (pmul (a :: b :: q') [-x, 1]).length = (b :: q').length + 2 := by
        show (padd (pscale a [-x, 1]) (0 :: pmul (b :: q') [-x, 1])).length = _
        rw [padd_length, pscale_length]
        simp only [List.length_cons, List.length_nil, ihlen]
        omega
      refine ⟨by simpa using hlen, ?_⟩
      show (padd (pscale a [-x, 1]) (0 :: pmul (b :: q') [-x, 1])).getLast? = _
      rw [padd_getLast_right]
      · rw [show (0 :: pmul (b :: q') [-x, 1]).getLast? =
            (pmul (b :: q') [-x, 1]).getLast? from ?_]
        · rw [ihlast]
          rw [List.getLast?_cons_cons]
        · cases hp : pmul (b :: q') [-x, 1] with
          | nil =>
            exfalso
            rw [hp] at ihlen
            simp at ihlen
          | cons u v => rw [List.getLast?_cons_cons]
      · rw [pscale_length]
        simp only [List.length_cons, List.length_nil, ihlen]
        omega

theorem foldl_pmul_linear_props (l : List F) :
    ∀ acc : List F, acc ≠ [] →
    ((l.foldl (fun a v => pmul a [-v, 1]) acc)).length = acc.length + l.length
    ∧ ((l.foldl (fun a v => pmul a [-v, 1]) acc)).getLast? = acc.getLast? := by
  induction l with
  | nil => intro acc _; simp
  | cons v l ih =>
    intro acc hacc
    obtain ⟨h1, h2⟩ := pmul_linear_exact v acc hacc
    have hne : pmul acc [-v, 1] ≠ [] := by
      intro hc
      rw [hc] at h1
      simp at h1
    obtain ⟨ih1, ih2⟩ := ih (pmul acc [-v, 1]) hne
    constructor
    · simp only [List.foldl_cons]
      rw [ih1, h1, List.length_cons]
      omega
    · simp only [List.foldl_cons]
      rw [ih2, h2]

theorem ptrim_eq_self_of_getLast (p : List F) (c : F) (h : p.getLast? = some c)
    (hc : c ≠ 0) : ptrim p = p := by
  unfold ptrim
  have hh : p.reverse.head? = some c := by rw [List.head?_reverse]; exact h
  cases hrev : p.reverse with
  | nil => rw [hrev] at hh; simp at hh
  | cons a l =>
    rw [hrev] at hh
    injection hh with h1
    subst h1
    rw [List.dropWhile_cons, if_neg (by simpa using hc)]
    rw [← hrev, List.reverse_reverse]

theorem isPow2_pos {n : Nat} (h : isPow2 n = true) : 0 < n := by
  rcases (isPow2_iff n).mp h with ⟨k, rfl⟩
  positivity

theorem except_map_ok {ε α β : Type} {e : Except ε α} {f : α → β} {y : β}
    (h : e.map f = .ok y) : ∃ x, e = .ok x ∧ f x = y := by
  cases e with
  | error a => simp [Except.map] at h
  | ok x =>
    refine ⟨x, rfl, ?_⟩
    simpa [Except.map] using h

theorem make_ok_inv {p : List F} {ω : F} {o ra ff : Nat} {r : FRIRound F}
    (h : FRIRound.make p ω o ra ff = .ok r) :
    r = ⟨p, ω, o, ra, ff⟩ ∧ isPow2 o = true ∧ isPow2 ra = true ∧ ¬ o < ra
      ∧ isPow2 ff = true := by
  unfold FRIRound.make at h
  split_ifs at h with h1 h2 h3 h4
  exact ⟨(Except.ok.inj h).symm, by tauto, by tauto, by tauto, by tauto⟩

theorem enum_mem_snd {α : Type} {l : List α} {e : Nat × α} (h : e ∈ l.enum) :
    e.2 ∈ l := by
  rw [List.enum_eq_zip_range] at h
  exact (List.of_mem_zip h).2

theorem fdiv_natCast (a t : Nat) :
    Int.fdiv (a : Int) (t : Int) = ((a / t : Nat) : Int) := by
  cases a with
  | zero =>
    show Int.fdiv (Int.ofNat 0) (Int.ofNat t) = Int.ofNat (0 / t)
    rw [Nat.zero_div]
    cases t <;> rfl
  | succ a => rfl

theorem fdiv_neg_one_pos {t : Nat} (ht : 0 < t) :
    Int.fdiv (-1) (t : Int) = -1 := by
  obtain ⟨s, rfl⟩ : ∃ s, t = s + 1 := ⟨t - 1, by omega⟩
  show Int.fdiv (-1) ((s + 1 : Nat) : Int) = -1
  have : ((s + 1 : Nat) : Int) = Int.ofNat (s + 1) := rfl
  rw [this]
  show Int.negSucc (0 / (s + 1)) = -1
  rw [Nat.zero_div]
  rfl

theorem foldedPoly_length_le (p : List F) (c : F) (t : Nat) (ht : 0 < t) :
    ((poly_ksplit p t).enum.foldl
      (fun acc e => padd acc (pscale (c ^ e.1) e.2)) []).length ≤
      (if (ptrim p).length = 0 then 0 else ((ptrim p).length - 1) / t + 1) := by
  apply foldl_padd_fn_length_le
  · simp
  · intro e he
    rw [pscale_length]
    have hmem : e.2 ∈ poly_ksplit p t := enum_mem_snd he
    obtain ⟨j, hj, heq⟩ := List.mem_map.mp hmem
    have hjt : j < t := List.mem_range.mp hj
    rw [← heq]
    by_cases hL : (ptrim p).length = 0
    · have hnil : ptrim p = [] := List.length_eq_zero.mp hL
      simp [splitCoeffs, hnil, hL]
    · rw [if_neg hL]
      exact splitCoeffs_length_le (ptrim p) t j ht hjt (by omega)

theorem deep_quot_length_le (folded num den : List F) (S n : Nat)
    (hf : folded.length ≤ S) (hnum : num.length ≤ n)
    (hden : (ptrim den).length = n + 1) :
    (pdivmod (psub folded num) den).1.length ≤ max S n + 1 - (n + 1) := by
  have h1 := pdivmodAux_fst_length ((psub folded num).length + 1) (psub folded num) den
  have h2 := ptrim_length_le (psub folded num)
  rw [psub_length] at h2
  rw [hden] at h1
  unfold pdivmod
  omega

theorem fold_ok_pdeg_le {r : FRIRound F} {c : F} {ood : List F} {r' : FRIRound F}
    {frac : Option (List F × List F)}
    (h : r.fold c ood = .ok (r', frac)) :
    pdeg r'.poly ≤ Int.fdiv (pdeg r.poly) (r.folding_factor : Int) := by
  by_cases ho : ood.isEmpty
  · simp only [FRIRound.fold, ho, if_true, ite_true] at h
    obtain ⟨rr, hm, hfx⟩ := except_map_ok h
    obtain ⟨hre, _, _, _, hpf⟩ := make_ok_inv hm
    have ht : 0 < r.folding_factor := isPow2_pos hpf
    have hr' : r' = rr := by
      have := congrArg Prod.fst hfx
      simpa using this.symm
    subst hr'
    have hpoly : r'.poly = (poly_ksplit r.poly r.folding_factor).enum.foldl
        (fun acc e => padd acc (pscale (c ^ e.1) e.2)) [] := by
      rw [hre]
    rw [hpoly]
    have hb := foldedPoly_length_le r.poly c r.folding_factor ht
    have hd := pdeg_le_length ((poly_ksplit r.poly r.folding_factor).enum.foldl
      (fun acc e => padd acc (pscale (c ^ e.1) e.2)) [])
    by_cases hL : (ptrim r.poly).length = 0
    · rw [if_pos hL] at hb
      have : pdeg r.poly = -1 := by unfold pdeg; omega
      rw [this, fdiv_neg_one_pos ht]
      omega
    · rw [if_neg hL] at hb
      have hps : pdeg r.poly = (((ptrim r.poly).length - 1 : Nat) : Int) := by
        unfold pdeg
        omega
      rw [hps, fdiv_natCast]
      omega
  · simp only [FRIRound.fold, ho, if_false, ite_false, Bool.false_eq_true] at h
    split at h
    · exact absurd h (by simp)
    · rename_i hrem
      obtain ⟨rr, hm, hfx⟩ := except_map_ok h
      obtain ⟨hre, _, _, _, hpf⟩ := make_ok_inv hm
      have ht : 0 < r.folding_factor := isPow2_pos hpf
      have hr' : r' = rr := by
        have := congrArg Prod.fst hfx
        simpa using this.symm
      subst hr'
      have hpoly : r'.poly = (pdivmod (psub ((poly_ksplit r.poly
          r.folding_factor).enum.foldl (fun acc e => padd acc
            (pscale (c ^ e.1) e.2)) [])
          (lagrange (ood.map (fun v => (v, peval ((poly_ksplit r.poly
            r.folding_factor).enum.foldl (fun acc e => padd acc
              (pscale (c ^ e.1) e.2)) []) v)))))
          (ood.foldl (fun a v => pmul a [-v, 1]) [1])).1 := by
        rw [hre]
        rfl
      rw [hpoly]
      have hoodne : ood ≠ [] := by
        intro hc
        rw [hc] at ho
        simp at ho
      have hn1 : 1 ≤ ood.length := by
        cases ood with
        | nil => exact absurd rfl hoodne
        | cons a l => simp
      -- the denominator is monic of length ood.length + 1
      have hdenp := foldl_pmul_linear_props ood [1] (by simp)
      have hdentrim : ptrim (ood.foldl (fun a v => pmul a [-v, 1]) [1]) =
          ood.foldl (fun a v => pmul a [-v, 1]) [1] := by
        apply ptrim_eq_self_of_getLast _ 1
        · rw [hdenp.2]
          rfl
        · exact one_ne_zero
      have hdenlen : (ptrim (ood.foldl (fun a v => pmul a [-v, 1]) [1])).length =
          ood.length + 1 := by
        rw [hdentrim, hdenp.1]
        simp only [List.length_cons, List.length_nil]
        omega
      have hnum : (lagrange (ood.map (fun v => (v, peval ((poly_ksplit r.poly
          r.folding_factor).enum.foldl (fun acc e => padd acc
            (pscale (c ^ e.1) e.2)) []) v)))).length ≤ ood.length := by
        have := lagrange_length_le (ood.map (fun v => (v, peval ((poly_ksplit
          r.poly r.folding_factor).enum.foldl (fun acc e => padd acc
            (pscale (c ^ e.1) e.2)) []) v)))
        simpa using this
      have hb := foldedPoly_length_le r.poly c r.folding_factor ht
      by_cases hL : (ptrim r.poly).length = 0
      · rw [if_pos hL] at hb
        have hq := deep_quot_length_le _ _ _ 0 ood.length hb hnum hdenlen
        have hd := pdeg_le_length (pdivmod (psub ((poly_ksplit r.poly
          r.folding_factor).enum.foldl (fun acc e => padd acc
            (pscale (c ^ e.1) e.2)) [])
          (lagrange (ood.map (fun v => (v, peval ((poly_ksplit r.poly
            r.folding_factor).enum.foldl (fun acc e => padd acc
              (pscale (c ^ e.1) e.2)) []) v)))))
          (ood.foldl (fun a v => pmul a [-v, 1]) [1])).1
        have hz : pdeg r.poly = -1 := by unfold pdeg; omega
        rw [hz, fdiv_neg_one_pos ht]
        have hmax : max 0 ood.length + 1 - (ood.length + 1) = 0 := by omega
        rw [hmax] at hq
        omega
      · rw [if_neg hL] at hb
        have hq := deep_quot_length_le _ _ _ (((ptrim r.poly).length - 1) /
          r.folding_factor + 1) ood.length hb hnum hdenlen
        have hd := pdeg_le_length (pdivmod (psub ((poly_ksplit r.poly
          r.folding_factor).enum.foldl (fun acc e => padd acc
            (pscale (c ^ e.1) e.2)) [])
          (lagrange (ood.map (fun v => (v, peval ((poly_ksplit r.poly
            r.folding_factor).enum.foldl (fun acc e => padd acc
              (pscale (c ^ e.1) e.2)) []) v)))))
          (ood.foldl (fun a v => pmul a [-v, 1]) [1])).1
        have hps : pdeg r.poly = (((ptrim r.poly).length - 1 : Nat) : Int) := by
          unfold pdeg
          omega
        rw [hps, fdiv_natCast]
        omega

theorem friopp_tail_succ (fuel : Nat) (r : FRIRound F) (chs : Nat → F)
    (oods : Nat → List F) (i : Nat) :
    friopp_tail (fuel + 1) r chs oods i =
      if pdeg r.poly ≤ (r.folding_factor : Int) then .ok []
      else
        (r.fold (chs i) (oods i)).bind (fun nx =>
          (friopp_tail fuel nx.1 chs oods (i + 1)).bind (fun rest =>
            .ok (⟨nx.1, some (chs i), nx.2⟩ :: rest))) := rfl

theorem friopp_tail_chain (chs : Nat → F) (oods : Nat → List F) :
    ∀ (fuel : Nat) (r : FRIRound F) (i : Nat) (tl : List (RoundData F)),
    friopp_tail (fuel + 1) r chs oods i = .ok tl →
    ((tl = []) ↔ pdeg r.poly ≤ (r.folding_factor : Int)) ∧
    List.Chain' (fun a b =>
      pdeg b.poly ≤ Int.fdiv (pdeg a.poly) (a.folding_factor : Int) ∧
      (a.folding_factor : Int) < pdeg a.poly)
      (r :: tl.map (fun rd => rd.fri_round)) ∧
    (tl.length ≤ fuel →
      pdeg ((tl.map (fun rd => rd.fri_round)).getLastD r).poly ≤
        (((tl.map (fun rd => rd.fri_round)).getLastD r).folding_factor : Int)) := by
  intro fuel
  induction fuel with
  | zero =>
    intro r i tl h
    rw [friopp_tail_succ] at h
    by_cases hstop : pdeg r.poly ≤ (r.folding_factor : Int)
    · rw [if_pos hstop] at h
      obtain rfl : tl = [] := (Except.ok.inj h).symm
      refine ⟨by simp [hstop], by simp, fun _ => by simpa using hstop⟩
    · rw [if_neg hstop] at h
      cases hfold : r.fold (chs i) (oods i) with
      | error e =>
        rw [hfold] at h
        simp [Except.bind] at h
      | ok nx =>
        rw [hfold] at h
        simp only [Except.bind] at h
        have hz : friopp_tail 0 nx.1 chs oods (i + 1) =
            .ok ([] : List (RoundData F)) := rfl
        rw [hz] at h
        simp only [Except.bind] at h
        obtain rfl : tl = [⟨nx.1, some (chs i), nx.2⟩] := (Except.ok.inj h).symm
        have hf2 : r.fold (chs i) (oods i) = .ok (nx.1, nx.2) := by rw [hfold]
        refine ⟨?_, ?_, ?_⟩
        · constructor
          · intro hc
            exact absurd hc (by simp)
          · intro hc
            exact absurd hc hstop
        · rw [List.map_cons, List.map_nil, List.chain'_cons]
          exact ⟨⟨fold_ok_pdeg_le hf2, not_le.mp hstop⟩, List.chain'_singleton _⟩
        · intro hlen
          simp at hlen
  | succ fl ih =>
    intro r i tl h
    rw [friopp_tail_succ] at h
    by_cases hstop : pdeg r.poly ≤ (r.folding_factor : Int)
    · rw [if_pos hstop] at h
      obtain rfl : tl = [] := (Except.ok.inj h).symm
      refine ⟨by simp [hstop], by simp, fun _ => by simpa using hstop⟩
    · rw [if_neg hstop] at h
      cases hfold : r.fold (chs i) (oods i) with
      | error e =>
        rw [hfold] at h
        simp [Except.bind] at h
      | ok nx =>
        rw [hfold] at h
        simp only [Except.bind] at h
        cases htl : friopp_tail (fl + 1) nx.1 chs oods (i + 1) with
        | error e =>
          rw [htl] at h
          simp [Except.bind] at h
        | ok rest =>
          rw [htl] at h
          simp only [Except.bind] at h
          obtain rfl : tl = ⟨nx.1, some (chs i), nx.2⟩ :: rest :=
            (Except.ok.inj h).symm
          have hf2 : r.fold (chs i) (oods i) = .ok (nx.1, nx.2) := by rw [hfold]
          obtain ⟨ih1, ih2, ih3⟩ := ih nx.1 (i + 1) rest htl
          refine ⟨?_, ?_, ?_⟩
          · constructor
            · intro hc
              exact absurd hc (by simp)
            · intro hc
              exact absurd hc hstop
          · rw [List.map_cons, List.chain'_cons]
            exact ⟨⟨fold_ok_pdeg_le hf2, not_le.mp hstop⟩, ih2⟩
          · intro hlen
            rw [List.map_cons, List.getLastD_cons]
            exact ih3 (by simpa using hlen)

theorem FRIOPP_build_eq (fuel : Nat) (p : List F) (g : F)
    (order rate ff : Nat) (chs : Nat → F) (oods : Nat → List F) :
    FRIOPP.build fuel p g order rate ff chs oods =
      (FRIRound.make p g order rate ff).bind (fun first =>
        (friopp_tail fuel first chs oods 0).bind (fun tail =>
          .ok ⟨first, tail⟩)) := rfl

/-- C5 counterexample to the exact-degree invariant: over GF(17), folding
X^4 with challenge 1 and the out-of-domain sample 2 produces a round of
degree 1 while floor(4/2) = 2, and folding X^3 with challenge 0 and no
out-of-domain sample produces the zero polynomial (degree -1) while
floor(3/2) = 1: the next round's degree can be strictly below the floor,
both with and without out-of-domain samples. -/
theorem C5_counterexample :
    ((FRIOPP.build 2 [0, 0, 0, 0, 1] (3 : ZMod 17) 16 2 2 (fun _ => 1)
        (fun _ => [2])).map
      (fun o => (pdeg o.first.poly, o.tail.map (fun rd => pdeg rd.fri_round.poly)))
      = .ok (4, [1])) ∧ Int.fdiv 4 2 ≠ 1 ∧
    ((FRIOPP.build 2 [0, 0, 0, 1] (3 : ZMod 17) 16 2 2 (fun _ => 0)
        (fun _ => [])).map
      (fun o => (pdeg o.first.poly, o.tail.map (fun rd => pdeg rd.fri_round.poly)))
      = .ok (3, [-1])) ∧ Int.fdiv 3 2 ≠ -1 := by
  refine ⟨by decide, by decide, by decide, by decide⟩

/-- C5 (amended): for every FRIOPP transcript built by the fold loop,
round i+1's polynomial degree is at most floor(degree_i / folding_factor)
(equality can fail, for instance under DEEP division or unlucky
challenges), every round that the loop folds further has degree strictly
above its folding factor, the chain is empty iff the input polynomial
already has degree at most the folding factor, and when the fuel strictly
exceeds the number of rounds (so the python loop terminated on its
condition) the last round's degree is at most its folding factor: the
loop stops adding rounds exactly when the degree is at most the folding
factor. -/
theorem C5_chain_amended (fuel : Nat) (p : List F) (g : F)
    (order rate ff : Nat) (chs : Nat → F) (oods : Nat → List F)
    (o : FRIOPP F)
    (h : FRIOPP.build (fuel + 1) p g order rate ff chs oods = .ok o) :
    ((o.tail = []) ↔ pdeg o.first.poly ≤ (o.first.folding_factor : Int)) ∧
    List.Chain' (fun a b =>
      pdeg b.poly ≤ Int.fdiv (pdeg a.poly) (a.folding_factor : Int) ∧
      (a.folding_factor : Int) < pdeg a.poly)
      (o.first :: o.tail.map (fun rd => rd.fri_round)) ∧
    (o.tail.length ≤ fuel →
      pdeg ((o.tail.map (fun rd => rd.fri_round)).getLastD o.first).poly ≤
        (((o.tail.map (fun rd => rd.fri_round)).getLastD o.first).folding_factor
          : Int)) := by
  rw [FRIOPP_build_eq] at h
  cases hm : FRIRound.make p g order rate ff (F := F) with
  | error e =>
    rw [hm] at h
    simp [Except.bind] at h
  | ok first =>
    rw [hm] at h
    simp only [Except.bind] at h
    cases ht : friopp_tail (fuel + 1) first chs oods 0 with
    | error e =>
      rw [ht] at h
      simp [Except.bind] at h
    | ok tail =>
      rw [ht] at h
      simp only [Except.bind] at h
      obtain rfl : o = ⟨first, tail⟩ := (Except.ok.inj h).symm
      exact friopp_tail_chain chs oods fuel first 0 tail ht

/-- Witness for C5: the amended chain invariant instantiated on the
concrete GF(17) fold chain of X^4. -/
theorem C5_chain_amended_witness :
    ((c5o.tail = []) ↔ pdeg c5o.first.poly ≤ (c5o.first.folding_factor : Int)) ∧
    List.Chain' (fun a b =>
      pdeg b.poly ≤ Int.fdiv (pdeg a.poly) (a.folding_factor : Int) ∧
      (a.folding_factor : Int) < pdeg a.poly)
      (c5o.first :: c5o.tail.map (fun rd => rd.fri_round)) ∧
    (c5o.tail.length ≤ 3 →
      pdeg ((c5o.tail.map (fun rd => rd.fri_round)).getLastD c5o.first).poly ≤
        (((c5o.tail.map (fun rd => rd.fri_round)).getLastD
          c5o.first).folding_factor : Int)) :=
  C5_chain_amended 3 [0, 0, 0, 0, 1] 3 16 2 2 (fun _ => 1) (fun _ => [])
    c5o (by decide)

theorem prodPow_replicate_zero : ∀ (m : Nat) (v : List F),
    prodPow (List.replicate m 0) v = 1 := by
  intro m
  induction m with
  | zero => intro v; rfl
  | succ k ih =>
    intro v
    rw [List.replicate_succ]
    cases v with
    | nil =>
      show (0 : F) ^ 0 * prodPow (List.replicate k 0) [] = 1
      rw [pow_zero, one_mul, ih]
    | cons x v' =>
      show x ^ 0 * prodPow (List.replicate k 0) v' = 1
      rw [pow_zero, one_mul, ih]

theorem prodPow_append_replicate (m : Nat) :
    ∀ (es : List Nat) (v : List F),
    prodPow (es ++ List.replicate m 0) v = prodPow es v := by
  intro es
  induction es with
  | nil =>
    intro v
    rw [List.nil_append]
    rw [prodPow_replicate_zero]
    rfl
  | cons e es' ih =>
    intro v
    cases v with
    | nil =>
      show (0 : F) ^ e * prodPow (es' ++ List.replicate m 0) [] = _
      rw [ih]
      rfl
    | cons x v' =>
      show x ^ e * prodPow (es' ++ List.replicate m 0) v' = x ^ e * prodPow es' v'
      rw [ih]

theorem prodPow_take : ∀ (es : List Nat) (xs ys : List F),
    es.length ≤ xs.length → prodPow es (xs ++ ys) = prodPow es xs := by
  intro es
  induction es with
  | nil => intro xs ys _; rfl
  | cons e es' ih =>
    intro xs ys hlen
    cases xs with
    | nil => simp at hlen
    | cons x xs' =>
      show x ^ e * prodPow es' (xs' ++ ys) = x ^ e * prodPow es' xs'
      rw [ih xs' ys (by simpa using hlen)]

theorem expAdd_nil (q : List Nat) : expAdd [] q = q := by
  cases q <;> rfl

theorem prodPow_lastvar : ∀ (n : Nat) (e : List Nat) (xs : List F),
    xs.length = n → prodPow (expAdd e (expOne n)) (xs ++ [0]) = 0 := by
  intro n
  induction n with
  | zero =>
    intro e xs hx
    obtain rfl : xs = [] := List.length_eq_zero.mp hx
    cases e with
    | nil =>
      show (0 : F) ^ 1 * prodPow [] [] = 0
      rw [pow_one, zero_mul]
    | cons a p =>
      show (0 : F) ^ (a + 1) * prodPow (expAdd p []) [] = 0
      rw [zero_pow (by omega), zero_mul]
  | succ n' ih =>
    intro e xs hx
    cases xs with
    | nil => simp at hx
    | cons x xs' =>
      have hx' : xs'.length = n' := by simpa using hx
      have hexp : expOne (n' + 1) = 0 :: expOne n' := by
        show List.replicate (n' + 1) 0 ++ [1] = 0 :: (List.replicate n' 0 ++ [1])
        rw [List.replicate_succ]
        rfl
      cases e with
      | nil =>
        show prodPow (expOne (n' + 1)) ((x :: xs') ++ [0]) = 0
        rw [hexp]
        show x ^ 0 * prodPow (expOne n') (xs' ++ [0]) = 0
        rw [pow_zero, one_mul, ← expAdd_nil (expOne n')]
        exact ih [] xs' hx'
      | cons a p =>
        show prodPow (expAdd (a :: p) (expOne (n' + 1))) ((x :: xs') ++ [0]) = 0
        rw [hexp]
        show x ^ (a + 0) * prodPow (expAdd p (expOne n')) (xs' ++ [0]) = 0
        rw [ih p xs' hx', mul_zero]

theorem mMul_varP (n : Nat) : ∀ p : MPoly F,
    mMul p (mVarP n) = p.map (fun t => (expAdd t.1 (expOne n), t.2 * 1)) := by
  intro p
  induction p with
  | nil => rfl
  | cons t p' ih =>
    show ((mVarP n).map (fun u => (expAdd t.1 u.1, t.2 * u.2))) ++
        mMul p' (mVarP n) = _
    rw [ih]
    rfl

theorem mEval_append (p q : MPoly F) (xs : List F) :
    mEval (p ++ q) xs = mEval p xs + mEval q xs := by
  unfold mEval
  rw [List.map_append, List.sum_append]

/-- C9: the ZK mask cancels exactly when the new last variable is fixed to
zero: for every input polynomial over nvars variables, every random mask
draw, and every point, the masked polynomial evaluated at (x, 0) equals
the input polynomial evaluated at x. -/
theorem C9_mask_cancellation (input_poly : MPoly F) (nvars : Nat)
    (random_poly : List F) (xs : List F)
    (hvars : ∀ t ∈ input_poly, t.1.length ≤ nvars)
    (hx : xs.length = nvars) :
    mEval (mask_polynomial input_poly nvars random_poly) (xs ++ [0]) =
      mEval input_poly xs := by
  unfold mask_polynomial
  rw [show mAdd (upgrade_ring input_poly nvars)
      (mMul (uni_to_multi random_poly (nvars + 1)) (mVarP nvars)) =
      upgrade_ring input_poly nvars ++
        mMul (uni_to_multi random_poly (nvars + 1)) (mVarP nvars) from rfl]
  rw [mEval_append]
  have h2 : mEval (mMul (uni_to_multi random_poly (nvars + 1)) (mVarP nvars))
      (xs ++ [0]) = 0 := by
    rw [mMul_varP]
    unfold mEval
    rw [List.map_map]
    apply List.sum_eq_zero
    intro y hy
    obtain ⟨t, ht, rfl⟩ := List.mem_map.mp hy
    show t.2 * 1 * prodPow (expAdd t.1 (expOne nvars)) (xs ++ [0]) = 0
    rw [prodPow_lastvar nvars t.1 xs hx, mul_zero]
  rw [h2, add_zero]
  unfold mEval upgrade_ring
  rw [List.map_map]
  congr 1
  apply List.map_congr_left
  intro t ht
  show t.2 * prodPow (padExp t.1 nvars ++ [0]) (xs ++ [0]) = t.2 * prodPow t.1 xs
  congr 1
  have hlen := hvars t ht
  unfold padExp
  rw [List.append_assoc, show ([0] : List Nat) = List.replicate 1 0 from rfl,
    ← List.replicate_add]
  rw [prodPow_append_replicate]
  exact prodPow_take t.1 xs [0] (by omega)

/-- Witness for C9 on the concrete two-variable witness over GF(17). -/
theorem C9_mask_cancellation_witness :
    mEval (mask_polynomial wIn 2 [1, 2, 3]) ([2, 3] ++ [(0 : ZMod 17)]) =
      mEval wIn [2, 3] :=
  C9_mask_cancellation wIn 2 [1, 2, 3] [2, 3] (by decide) (by decide)

theorem ZKWhirPCS_init_eq (debug : Bool) (p : MPoly F) (nvars : Nat)
    (mask_rnd scheck_rnd : List F) (g : F) (order qt ff : Nat) :
    ZKWhirPCS.init debug p nvars mask_rnd scheck_rnd g order qt ff =
      (mask_polynomial_checked debug p nvars mask_rnd).bind (fun masked =>
        .ok ⟨p, masked, random_multilinear_from scheck_rnd (nvars + 1), ff, g,
          order, 2 ^ (nvars + 1)⟩) := rfl

/-- C10: with debug checks enabled, constructing a ZKWhirPCS fails with a
name-resolution error on every input, honest or not: the debug block of
mask_polynomial references the names eq_polynomial and
compute_hypercube_sum, neither of which resolves in the module (whir.py
defines only the differently spelled eq_polyomial); with debug checks
disabled the same construction succeeds, so the failing branch is exactly
the debug-guarded one. -/
theorem C10_init_debug_fails (input_polynomial : MPoly F) (nvars : Nat)
    (mask_rnd scheck_rnd : List F) (ntt_omega : F) (order qt ff : Nat) :
    ZKWhirPCS.init true input_polynomial nvars mask_rnd scheck_rnd ntt_omega
        order qt ff = .error .nameError ∧
    zkwhirModuleNames.contains ("eq_polyomial") = true ∧
    zkwhirModuleNames.contains ("eq_polynomial") = false ∧
    zkwhirModuleNames.contains ("compute_hypercube_sum") = false ∧
    ZKWhirPCS.init false input_polynomial nvars mask_rnd scheck_rnd ntt_omega
        order qt ff =
      .ok ⟨input_polynomial, mask_polynomial input_polynomial nvars mask_rnd,
        random_multilinear_from scheck_rnd (nvars + 1), ff, ntt_omega, order,
        2 ^ (nvars + 1)⟩ := by
  refine ⟨?_, by decide, by decide, by decide, ?_⟩
  · have hc : mask_polynomial_checked true input_polynomial nvars mask_rnd =
        (.error .nameError : Except PyErr (MPoly F)) := by
      unfold mask_polynomial_checked
      rw [if_pos (by decide)]
    rw [ZKWhirPCS_init_eq, hc]
    rfl
  · have hc : mask_polynomial_checked false input_polynomial nvars mask_rnd =
        .ok (mask_polynomial input_polynomial nvars mask_rnd) := by
      unfold mask_polynomial_checked
      rw [if_neg (by decide)]
    rw [ZKWhirPCS_init_eq, hc]
    rfl

theorem except_bind_ok {e a b : Type} (x : a) (f : a → Except e b) :
    (do let y ← (Except.ok x : Except e a); f y) = f x := rfl

/-- C7 (amended): the round-stepping contract of the sumcheck prover as
the source implements it. -/
theorem C7_prover_round_amended (r : WhirRound F) (c : F) :
    (r.sumcheck_challenges.length > 0 →
      r.sumcheck_prover_round none = .error .valueError) ∧
    (r.sumcheck_challenges.length = r.polyvars.length →
      r.sumcheck_prover_round (some c) = .ok (r, r.sumcheck_poly)) ∧
    (r.sumcheck_challenges.length = 0 → r.polyvars.length = 0 →
      r.sumcheck_prover_round none = .ok (r, r.sumcheck_poly)) ∧
    (∀ v, r.polyvars.get? r.sumcheck_challenges.length = some v →
      ∀ skip, r.polyvars.get? (r.sumcheck_challenges.length + 1) = some skip →
      ∀ i rest,
        mVars (mHSum (mSubst r.sumcheck_poly v c) r.hypercube [skip]) =
          i :: rest →
      r.sumcheck_prover_round (some c) =
        .ok ({ r with
                sumcheck_challenges := r.sumcheck_challenges ++ [c],
                sumcheck_poly := mSubst r.sumcheck_poly v c,
                poly := mSubst r.poly v c,
                weight := mSubst r.weight v c,
                claimed_sum := mAdd
                  (mSubst (mHSum (mSubst r.sumcheck_poly v c) r.hypercube
                    [skip]) i 0)
                  (mSubst (mHSum (mSubst r.sumcheck_poly v c) r.hypercube
                    [skip]) i 1) },
          mHSum (mSubst r.sumcheck_poly v c) r.hypercube [skip])) := by
  refine ⟨?_, ?_, ?_, ?_⟩
  · intro h
    unfold WhirRound.sumcheck_prover_round
    rw [if_pos ⟨rfl, h⟩]
  · intro h
    unfold WhirRound.sumcheck_prover_round
    rw [if_neg (by simp), if_pos h]
  · intro h0 hp
    unfold WhirRound.sumcheck_prover_round
    rw [if_neg (by rintro ⟨-, hgt⟩; omega), if_pos (by omega)]
  · intro v hv skip hskip i rest hvars
    have hlt : r.sumcheck_challenges.length < r.polyvars.length := by
      rcases List.get?_eq_some.mp hv with ⟨hh, -⟩
      exact hh
    unfold WhirRound.sumcheck_prover_round
    rw [if_neg (by simp), if_neg (by omega)]
    dsimp only []
    rw [hv]
    dsimp only []
    rw [except_bind_ok]
    dsimp only []
    have hlen2 : (r.sumcheck_challenges ++ [c]).length =
        r.sumcheck_challenges.length + 1 := by simp
    rw [hlen2, hskip]
    dsimp only []
    rw [hvars]

/-- C7 counterexample: on a round whose sumcheck variables are all
consumed, a call with no challenge raises the ValueError instead of
returning the specialized polynomial idempotently, and a first-round call
that does supply a challenge succeeds rather than failing. -/
theorem C7_counterexample :
    wCollapsed.sumcheck_challenges.length = wCollapsed.polyvars.length ∧
    wCollapsed.sumcheck_prover_round none = .error .valueError ∧
    wR.sumcheck_challenges = [] ∧
    (wR.sumcheck_prover_round (some 5)).isOk = true := by decide

/-- Witness for C7 on the concrete GF(17) rounds: the None-after-start
error, the idempotent return with a challenge after all variables are
consumed, the challenge-free call on a variable-free round, and a full
substitution round. -/
theorem C7_prover_round_amended_witness :
    wCollapsed.sumcheck_prover_round none = .error .valueError ∧
    wCollapsed.sumcheck_prover_round (some 5) =
      .ok (wCollapsed, wCollapsed.sumcheck_poly) ∧
    wEmptyR.sumcheck_prover_round none = .ok (wEmptyR, wEmptyR.sumcheck_poly) ∧
    wR.sumcheck_prover_round (some 5) =
      .ok ({ wR with
              sumcheck_challenges := wR.sumcheck_challenges ++ [5],
              sumcheck_poly := mSubst wR.sumcheck_poly 0 5,
              poly := mSubst wR.poly 0 5,
              weight := mSubst wR.weight 0 5,
              claimed_sum := mAdd
                (mSubst (mHSum (mSubst wR.sumcheck_poly 0 5) wR.hypercube [1])
                  1 0)
                (mSubst (mHSum (mSubst wR.sumcheck_poly 0 5) wR.hypercube [1])
                  1 1) },
        mHSum (mSubst wR.sumcheck_poly 0 5) wR.hypercube [1]) :=
  ⟨(C7_prover_round_amended wCollapsed 5).1 (by decide),
   (C7_prover_round_amended wCollapsed 5).2.1 (by decide),
   (C7_prover_round_amended wEmptyR 5).2.2.1 (by decide) (by decide),
   (C7_prover_round_amended wR 5).2.2.2 0 (by decide) 1 (by decide) 1 []
     (by decide)⟩

theorem update_weight_eq (r : WhirRound F) (gamma ood_sample : F)
    (sq : List F) :
    r.update_weight gamma ood_sample sq =
      (if (mVars r.poly).isEmpty then .error .indexError
       else .ok (peval (toUnivariate r.poly) ood_sample,
         mAdd r.weight (weightExtension (mVars r.poly) gamma ood_sample sq),
         geomCombo gamma (peval (toUnivariate r.poly) ood_sample ::
           sq.map (fun q => peval (toUnivariate r.poly) q)))) := by
  unfold WhirRound.update_weight eq_list
  dsimp only []
  rw [if_neg (fun hc => hc (by simp [frobSquares]))]
  by_cases h : (mVars r.poly).isEmpty
  · rw [if_pos h, if_pos h]
    rfl
  · rw [if_neg h, if_neg h]
    rfl

theorem fold_round_eq (r : WhirRound F) (gamma ood_sample : F)
    (sq : List F) :
    r.fold_round gamma ood_sample sq =
      (if (mVars r.poly).isEmpty then .error .indexError
       else
        (WhirRound.make r.poly
          (mAdd r.weight (weightExtension (mVars r.poly) gamma ood_sample sq))
          (r.omega ^ 2) (ordSquare r.multi_order)
          (some (mAdd (mConstP (geomCombo gamma
            (peval (toUnivariate r.poly) ood_sample ::
              sq.map (fun q => peval (toUnivariate r.poly) q)))) r.claimed_sum))
          r.hypercube).bind (fun next =>
            .ok ⟨r, next, (ood_sample, peval (toUnivariate r.poly) ood_sample),
              sq⟩)) := by
  unfold WhirRound.fold_round
  rw [update_weight_eq]
  by_cases h : (mVars r.poly).isEmpty
  · rw [if_pos h, if_pos h]
    rfl
  · rw [if_neg h, if_neg h]
    rfl

theorem whir_make_some_inv {poly weight : MPoly F} {g : F} {order : Nat}
    {c : MPoly F} {hyp : List F} {r : WhirRound F}
    (h : WhirRound.make poly weight g order (some c) hyp = .ok r) :
    r = ⟨poly, weight, mVars poly, g, order, 2 ^ (mVars poly).length, hyp, [],
      mMul weight poly,
      (if mTruthy c then c else mHSum (mMul weight poly) hyp []),
      rsEncode g order (toUnivariate poly)⟩ := by
  unfold WhirRound.make at h
  dsimp only [] at h
  split_ifs at h
  all_goals first
    | exact Except.noConfusion h
    | (rename_i hmt h4; rw [if_pos hmt]; exact (Except.ok.inj h).symm)
    | (rename_i hmt h4; rw [if_neg hmt]; exact (Except.ok.inj h).symm)

/-- C6 counterexample: on a WhirRound on which all sumcheck variables
have been collapsed (constant witness, no variables left), fold_round
does not return fold data at all — the weight update's eq_list call
raises an IndexError — and on a round with one witness variable left
after two completed factor-2 steps, the next round's domain generator is
the old generator squared once (9 = 3^2) and not squared once per
completed step (3^(2^2) = 13). -/
theorem C6_counterexample :
    mVars wCollapsed.poly = [] ∧
    wCollapsed.fold_round 3 2 [5] = .error .indexError ∧
    wPartial.sumcheck_challenges.length = 2 ∧
    wPartial.omega = 3 ∧
    mVars wPartial.poly = [0] ∧
    ((wPartial.fold_round 3 2 [5]).map (fun fd => fd.this_round.omega)
      = .ok 9) ∧
    (3 : ZMod 17) ^ 2 ^ 2 = 13 ∧ (9 : ZMod 17) ≠ 13 := by decide

/-- C6 (amended): on a fully collapsed round (the witness has no
variables left) fold_round raises an IndexError inside the weight update,
so no fold data exists; whenever fold_round does return fold data, it
keeps the previous round, squares the domain generator exactly once (not
once per completed factor-2 step) and halves the domain order, reports
the out-of-domain response as the bit-reversal univariate form of the
witness evaluated at the sample, extends the weight polynomial by one
equality-constraint term for the out-of-domain sample and one per shift
query scaled by successive powers of gamma, and (whenever the result is
a truthy polynomial) sets the next claimed sum to the previous one plus
the response combination sum of response_i times gamma^(i+1),
out-of-domain response first. -/
theorem C6_fold_round_amended (r : WhirRound F) (gamma ood_sample : F)
    (shift_queries : List F) :
    ((mVars r.poly).isEmpty = true →
      r.fold_round gamma ood_sample shift_queries = .error .indexError) ∧
    (∀ fd : WhirRound.FoldData F,
      r.fold_round gamma ood_sample shift_queries = .ok fd →
      fd.last_round = r ∧
      fd.this_round.poly = r.poly ∧
      fd.this_round.omega = r.omega ^ 2 ∧
      fd.this_round.multi_order = ordSquare r.multi_order ∧
      fd.ood_data = (ood_sample, peval (toUnivariate r.poly) ood_sample) ∧
      fd.shift_queries = shift_queries ∧
      fd.this_round.weight = mAdd r.weight
        (weightExtension (mVars r.poly) gamma ood_sample shift_queries) ∧
      (mTruthy (mAdd (mConstP (geomCombo gamma
          (peval (toUnivariate r.poly) ood_sample ::
            shift_queries.map (fun q => peval (toUnivariate r.poly) q))))
          r.claimed_sum) = true →
        fd.this_round.claimed_sum = mAdd (mConstP (geomCombo gamma
          (peval (toUnivariate r.poly) ood_sample ::
            shift_queries.map (fun q => peval (toUnivariate r.poly) q))))
          r.claimed_sum)) := by
  constructor
  · intro hempty
    rw [fold_round_eq, if_pos hempty]
  · intro fd h
    rw [fold_round_eq] at h
    by_cases hempty : (mVars r.poly).isEmpty
    · rw [if_pos hempty] at h
      exact absurd h (by simp)
    · rw [if_neg hempty] at h
      cases hm : WhirRound.make r.poly
          (mAdd r.weight (weightExtension (mVars r.poly) gamma ood_sample
            shift_queries))
          (r.omega ^ 2) (ordSquare r.multi_order)
          (some (mAdd (mConstP (geomCombo gamma
            (peval (toUnivariate r.poly) ood_sample ::
              shift_queries.map (fun q => peval (toUnivariate r.poly) q))))
            r.claimed_sum))
          r.hypercube with
      | error e =>
        rw [hm] at h
        simp [Except.bind] at h
      | ok next =>
        rw [hm] at h
        simp only [Except.bind] at h
        obtain rfl : fd = ⟨r, next, (ood_sample,
            peval (toUnivariate r.poly) ood_sample), shift_queries⟩ :=
          (Except.ok.inj h).symm
        have hinv := whir_make_some_inv hm
        subst hinv
        refine ⟨rfl, rfl, rfl, rfl, rfl, rfl, rfl, ?_⟩
        intro htr
        show (if mTruthy (mAdd (mConstP (geomCombo gamma
            (peval (toUnivariate r.poly) ood_sample ::
              shift_queries.map (fun q => peval (toUnivariate r.poly) q))))
            r.claimed_sum) then _ else _) = _
        rw [if_pos htr]

/-- Witness for C6 on the concrete GF(17) rounds: the IndexError on the
fully collapsed round, and the fold-data characterization on the round
with one witness variable left. -/
theorem C6_fold_round_amended_witness :
    wCollapsed.fold_round 3 2 [5] = .error .indexError ∧
    (c6fd.last_round = wPartial ∧
      c6fd.this_round.poly = wPartial.poly ∧
      c6fd.this_round.omega = wPartial.omega ^ 2 ∧
      c6fd.this_round.multi_order = ordSquare wPartial.multi_order ∧
      c6fd.ood_data = (2, peval (toUnivariate wPartial.poly) 2) ∧
      c6fd.shift_queries = [5] ∧
      c6fd.this_round.weight = mAdd wPartial.weight
        (weightExtension (mVars wPartial.poly) 3 2 [5]) ∧
      (mTruthy (mAdd (mConstP (geomCombo 3
          (peval (toUnivariate wPartial.poly) 2 ::
            List.map (fun q => peval (toUnivariate wPartial.poly) q) [5])))
          wPartial.claimed_sum) = true →
        c6fd.this_round.claimed_sum = mAdd (mConstP (geomCombo 3
          (peval (toUnivariate wPartial.poly) 2 ::
            List.map (fun q => peval (toUnivariate wPartial.poly) q) [5])))
          wPartial.claimed_sum)) :=
  ⟨(C6_fold_round_amended wCollapsed 3 2 [5]).1 (by decide),
   (C6_fold_round_amended wPartial 3 2 [5]).2 c6fd (by decide)⟩

theorem except_bind_error {e a b : Type} (err : e) (f : a → Except e b) :
    (do let y ← (Except.error err : Except e a); f y) =
      (Except.error err : Except e b) := rfl

theorem dsLoop_eq_specGo :
    ∀ (n j : Nat) (pvars : List Nat) (v : WhirVerifier F)
      (prover : WhirRound F) (prev : Option (MPoly F × Nat))
      (claimed : MPoly F) (rnd : Nat → F) (chIdx : Nat),
      j + n ≤ pvars.length →
      WhirVerifier.dsLoop ((List.range' j n).zip (pvars.drop j)) v prover prev claimed rnd
          chIdx =
        dsSpecGo n j pvars v prover prev claimed rnd chIdx := by
  intro n
  induction n with
  | zero =>
    intro j pvars v prover prev claimed rnd chIdx hle
    rfl
  | succ m ih =>
    intro j pvars v prover prev claimed rnd chIdx hle
    have hj : j < pvars.length := by omega
    rw [List.range'_succ, List.drop_eq_getElem_cons hj, List.zip_cons_cons]
    rw [show (pvars[j] : Nat) = pvars.getD j 0 from
      (List.getD_eq_getElem pvars 0 hj).symm]
    cases j with
    | zero =>
      simp only [WhirVerifier.dsLoop, dsSpecGo]
      cases hpr : prover.sumcheck_prover_round none with
      | error e =>
        rw [except_bind_error, except_bind_error]
      | ok pr =>
        rw [except_bind_ok, except_bind_ok]
        by_cases hc : ¬ mEqb (sumSubst pr.2 (pvars.getD 0 0) v.hypercube) claimed
        · rw [if_pos hc, if_pos hc]
        · rw [if_neg hc, if_neg hc]
          exact ih 1 pvars v pr.1 (some (pr.2, pvars.getD 0 0)) claimed rnd
            chIdx (by omega)
    | succ k =>
      cases prev with
      | none =>
        simp only [WhirVerifier.dsLoop, dsSpecGo]
      | some pp =>
        simp only [WhirVerifier.dsLoop, dsSpecGo]
        cases hpr : prover.sumcheck_prover_round (some (rnd chIdx)) with
        | error e =>
          rw [except_bind_error, except_bind_error]
        | ok pr =>
          rw [except_bind_ok, except_bind_ok]
          by_cases hc : ¬ mEqb
            (sumSubst pr.2 (pvars.getD (k + 1) 0)
              (WhirVerifier.hypercube { v with
                schk_challenges := v.schk_challenges ++ [rnd chIdx],
                weight := mSubst v.weight pp.2 (rnd chIdx) }))
            (mSubst pp.1 pp.2 (rnd chIdx))
          · rw [if_pos hc, if_pos hc]
          · rw [if_neg hc, if_neg hc]
            exact ih (k + 2) pvars _ pr.1 (some (pr.2, pvars.getD (k + 1) 0))
              (mSubst pp.1 pp.2 (rnd chIdx)) rnd (chIdx + 1) (by omega)

/-- C2: do_sumcheck runs the claimed schk_rounds + 1 sumcheck rounds over
the successive weight variables whenever the weight polynomial has at
least that many variables, rejecting (none, python's False) as soon as a
round polynomial's hypercube sum differs from the running claim and
otherwise updating the claim from the previous round polynomial at a
fresh challenge; and validate_pcs_claim alternates do_sumcheck and
fold_check while the round's Reed-Solomon dimension exceeds the fold
factor (propagating a failed sumcheck batch as an immediate False),
and once the dimension is small enough returns the comparison of the
hypercube sum of the weight-witness product with the accumulated claimed
sum. -/
theorem C2_verifier_spec (v : WhirVerifier F) (r : WhirRound F)
    (rnd : Nat → F) (rnds : Nat → VRand F) (fuel : Nat)
    (hlen : v.schk_rounds + 1 ≤ (mVars v.weight).length) :
    v.do_sumcheck r rnd = doSumcheckSpec v r rnd ∧
    (r.dimension ≤ 2 ^ v.schk_rounds →
      validate_pcs_claim (fuel + 1) v r rnds =
        .ok (mEqb (mHSum (mMul v.weight r.poly) v.hypercube [])
          v.claimed_sum)) ∧
    (r.dimension > 2 ^ v.schk_rounds →
      v.do_sumcheck r (rnds 0).schk = .ok none →
      validate_pcs_claim (fuel + 1) v r rnds = .ok false) ∧
    (∀ vp nx, r.dimension > 2 ^ v.schk_rounds →
      v.do_sumcheck r (rnds 0).schk = .ok (some vp) →
      vp.1.fold_check vp.2 vp.1.shift_query_count (rnds 0).gamma (rnds 0).ood
        (rnds 0).shifts = .ok nx →
      validate_pcs_claim (fuel + 1) v r rnds =
        validate_pcs_claim fuel nx.1 nx.2 (fun i => rnds (i + 1))) := by
  refine ⟨?_, ?_, ?_, ?_⟩
  · unfold WhirVerifier.do_sumcheck doSumcheckSpec
    rw [List.range_eq_range', show mVars v.weight =
      (mVars v.weight).drop 0 from rfl]
    exact dsLoop_eq_specGo (v.schk_rounds + 1) 0 (mVars v.weight) v r none
      v.claimed_sum rnd 0 (by omega)
  · intro hdim
    simp only [validate_pcs_claim]
    rw [if_neg (by omega)]
  · intro hdim hds
    simp only [validate_pcs_claim]
    rw [if_pos hdim, hds, except_bind_ok]
  · intro vp nx hdim hds hfc
    simp only [validate_pcs_claim]
    rw [if_pos hdim, hds, except_bind_ok]
    dsimp only []
    rw [hfc, except_bind_ok]

/-- Witness for C2: the do_sumcheck specification equality on the concrete
GF(17) verifier instance. -/
theorem C2_verifier_spec_witness :
    wV.do_sumcheck wR wRnd = doSumcheckSpec wV wR wRnd :=
  (C2_verifier_spec wV wR wRnd (fun _ => ⟨wRnd, 2, 3, fun _ => 0⟩) 1
    (by decide)).1
theorem peval_nil (x : F) : peval ([] : List F) x = 0 := rfl

theorem peval_cons (a : F) (p : List F) (x : F) :
    peval (a :: p) x = a + x * peval p x := rfl

theorem peval_padd (p q : List F) (x : F) :
    peval (padd p q) x = peval p x + peval q x := by
  induction p generalizing q with
  | nil => simp [padd, peval]
  | cons a p ih =>
    cases q with
    | nil => simp [padd, peval]
    | cons b q =>
      show (a + b) + x * peval (padd p q) x = _
      rw [ih]
      rw [peval_cons, peval_cons]
      ring

theorem peval_pneg (p : List F) (x : F) : peval (pneg p) x = -peval p x := by
  induction p with
  | nil => simp [pneg, peval]
  | cons a p ih =>
    show -a + x * peval (pneg p) x = -(a + x * peval p x)
    rw [ih]
    ring

theorem peval_psub (p q : List F) (x : F) :
    peval (psub p q) x = peval p x - peval q x := by
  rw [psub, peval_padd, peval_pneg]
  ring

theorem peval_pscale (c : F) (p : List F) (x : F) :
    peval (pscale c p) x = c * peval p x := by
  induction p with
  | nil => simp [pscale, peval]
  | cons a p ih =>
    show c * a + x * peval (pscale c p) x = c * (a + x * peval p x)
    rw [ih]
    ring

theorem peval_append (p q : List F) (x : F) :
    peval (p ++ q) x = peval p x + x ^ p.length * peval q x := by
  induction p with
  | nil => simp [peval]
  | cons a p ih =>
    show a + x * peval (p ++ q) x = (a + x * peval p x) + x ^ (p.length + 1) * peval q x
    rw [ih, pow_succ]
    ring

theorem peval_replicate_zero (k : Nat) (x : F) :
    peval (List.replicate k (0 : F)) x = 0 := by
  induction k with
  | zero => rfl
  | succ n ih =>
    rw [List.replicate_succ]
    show 0 + x * peval (List.replicate n (0 : F)) x = 0
    rw [ih]
    ring

theorem peval_pmono (k : Nat) (c : F) (x : F) :
    peval (pmono k c) x = c * x ^ k := by
  unfold pmono
  rw [peval_append, peval_replicate_zero]
  show 0 + x ^ (List.replicate k (0 : F)).length * (c + x * 0) = c * x ^ k
  rw [List.length_replicate]
  ring

theorem peval_pmul (p q : List F) (x : F) :
    peval (pmul p q) x = peval p x * peval q x := by
  induction p with
  | nil => simp [pmul, peval]
  | cons a p ih =>
    show peval (padd (pscale a q) (0 :: pmul p q)) x = _
    rw [peval_padd, peval_pscale, peval_cons, ih, peval_cons]
    ring

theorem ptrim_decomp (p : List F) :
    ∃ zs : List F, p = ptrim p ++ zs ∧ ∀ a ∈ zs, a = 0 := by
  refine ⟨(p.reverse.takeWhile (fun a => a == 0)).reverse, ?_, ?_⟩
  · unfold ptrim
    conv_lhs => rw [← p.reverse_reverse]
    rw [← List.reverse_append, List.takeWhile_append_dropWhile]
  · intro a ha
    rw [List.mem_reverse] at ha
    have := List.mem_takeWhile_imp ha
    simpa using this

theorem peval_ptrim (p : List F) (x : F) : peval (ptrim p) x = peval p x := by
  obtain ⟨zs, hp, hz⟩ := ptrim_decomp p
  conv_rhs => rw [hp]
  rw [peval_append]
  have hzs : peval zs x = 0 := by
    have : ptrim zs = [] := by
      rw [ptrim_eq_nil_iff]
      exact hz
    exact peval_eq_zero_of_ptrim_nil this x
  rw [hzs]
  ring

theorem getD_eq_zero_of_trim_le (p : List F) (i : Nat)
    (h : (ptrim p).length ≤ i) : p.getD i 0 = 0 := by
  obtain ⟨zs, hp, hz⟩ := ptrim_decomp p
  conv_lhs => rw [hp]
  by_cases hi : i < (ptrim p ++ zs).length
  · rw [List.getD_eq_getElem _ _ hi]
    rw [List.getElem_append_right (by omega)]
    exact hz _ (List.getElem_mem _)
  · rw [List.getD_eq_default _ _ (by omega)]

theorem getD_trim_eq (p : List F) (i : Nat) :
    (ptrim p).getD i 0 = p.getD i 0 := by
  by_cases hi : i < (ptrim p).length
  · obtain ⟨zs, hp, hz⟩ := ptrim_decomp p
    conv_rhs => rw [hp]
    rw [List.getD_eq_getElem _ _ hi,
      List.getD_eq_getElem _ _ (by rw [List.length_append]; omega)]
    rw [List.getElem_append_left hi]
  · rw [List.getD_eq_default _ _ (by omega),
      getD_eq_zero_of_trim_le p i (by omega)]

theorem trim_getLast_ne_zero (p : List F) (h : ptrim p ≠ []) :
    (ptrim p).getLast h ≠ 0 := by
  unfold ptrim at *
  rw [List.getLast_reverse]
  intro hc
  have hne : p.reverse.dropWhile (fun a => a == 0) ≠ [] := by
    intro hc2
    rw [hc2] at h
    simp at h
  have := List.head_dropWhile_not (fun a : F => a == 0) p.reverse hne
  rw [hc] at this
  simp at this

theorem ptrim_idem (p : List F) : ptrim (ptrim p) = ptrim p := by
  cases he : ptrim p with
  | nil => rfl
  | cons a l =>
    have hne : ptrim p ≠ [] := by rw [he]; simp
    have hlast := trim_getLast_ne_zero p hne
    rw [← he]
    exact ptrim_eq_self_of_getLast (ptrim p) _ (List.getLast_eq_iff_getLast?_eq_some hne |>.mp rfl) hlast

theorem trim_length_lt_of_last_zero (l : List F) (hne : l ≠ [])
    (h : l.getLast hne = 0) : (ptrim l).length < l.length := by
  unfold ptrim
  rw [List.length_reverse]
  have hrev : l.reverse = 0 :: l.reverse.tail := by
    have hh : l.reverse.head? = some 0 := by
      rw [List.head?_reverse, ← h]
      exact (List.getLast_eq_iff_getLast?_eq_some hne).mp rfl
    cases hr : l.reverse with
    | nil => rw [hr] at hh; simp at hh
    | cons a t =>
      rw [hr] at hh
      injection hh with h1
      rw [← h1]
      rfl
  rw [hrev, List.dropWhile_cons, if_pos (by simp)]
  calc (l.reverse.tail.dropWhile (fun a => a == 0)).length
      ≤ l.reverse.tail.length := (List.dropWhile_suffix _).sublist.length_le
    _ < l.reverse.length := by
        rw [hrev]
        simp
    _ = l.length := List.length_reverse l

theorem getLast?_cons_ne_nil {α : Type} (x : α) (l : List α) (h : l ≠ []) :
    (x :: l).getLast? = l.getLast? := by
  cases l with
  | nil => exact absurd rfl h
  | cons y t => rw [List.getLast?_cons_cons]

theorem getLastD_cons_ne_nil (x : F) (l : List F) (h : l ≠ []) :
    (x :: l).getLastD 0 = l.getLastD 0 := by
  rw [List.getLastD_eq_getLast?, List.getLastD_eq_getLast?,
    getLast?_cons_ne_nil x l h]

theorem padd_getLast_eq (a : List F) :
    ∀ b : List F, a.length = b.length → a ≠ [] →
    (padd a b).getLast? = some (a.getLastD 0 + b.getLastD 0) := by
  induction a with
  | nil => intro b _ hne; exact absurd rfl hne
  | cons x a ih =>
    intro b hlen hne
    cases b with
    | nil => simp at hlen
    | cons y b =>
      have hab : a.length = b.length := by simpa using hlen
      cases ha : a with
      | nil =>
        have hb : b = [] := by
          rw [ha] at hab
          exact (List.length_eq_zero.mp hab.symm)
        subst hb
        subst ha
        rfl
      | cons z a' =>
        rw [← ha]
        have hane : a ≠ [] := by rw [ha]; simp
        have hbne : b ≠ [] := by
          intro hc
          rw [hc] at hab
          exact hane (List.length_eq_zero.mp hab)
        have hpne : padd a b ≠ [] := by
          intro hc
          have := congrArg List.length hc
          rw [padd_length] at this
          simp at this
          exact hane this.1
        show ((x + y) :: padd a b).getLast? = _
        rw [getLast?_cons_ne_nil _ _ hpne, ih b hab hane,
          getLastD_cons_ne_nil x a hane, getLastD_cons_ne_nil y b hbne]

theorem peval_foldl_padd {α : Type} (l : List α) (g : α → List F) (x : F) :
    ∀ init : List F,
    peval (l.foldl (fun acc e => padd acc (g e)) init) x =
      peval init x + (l.map (fun e => peval (g e) x)).sum := by
  induction l with
  | nil => intro init; simp
  | cons e l ih =>
    intro init
    rw [List.foldl_cons, ih, peval_padd, List.map_cons, List.sum_cons]
    ring

theorem list_map_range_sum {M : Type} [AddCommMonoid M] (n : Nat) (f : Nat → M) :
    ((List.range n).map f).sum = ∑ i in Finset.range n, f i := by
  induction n with
  | zero => simp
  | succ m ih =>
    rw [List.range_succ, List.map_append, List.sum_append, Finset.sum_range_succ, ih]
    simp

theorem foldl_mul_eq (l : List F) : ∀ init : F,
    l.foldl (fun a v => a * v) init = init * l.prod := by
  induction l with
  | nil => intro init; simp
  | cons v l ih =>
    intro init
    rw [List.foldl_cons, ih, List.prod_cons]
    ring

theorem toPoly_nil : toPoly ([] : List F) = 0 := rfl

theorem toPoly_cons (a : F) (p : List F) :
    toPoly (a :: p) = Polynomial.C a + Polynomial.X * toPoly p := rfl

theorem toPoly_eval (p : List F) (x : F) :
    (toPoly p).eval x = peval p x := by
  induction p with
  | nil => simp [toPoly_nil, peval]
  | cons a p ih =>
    rw [toPoly_cons, peval_cons, Polynomial.eval_add, Polynomial.eval_C,
      Polynomial.eval_mul, Polynomial.eval_X, ih]

theorem toPoly_coeff (p : List F) : ∀ n : Nat, (toPoly p).coeff n = p.getD n 0 := by
  induction p with
  | nil => intro n; simp [toPoly_nil]
  | cons a p ih =>
    intro n
    cases n with
    | zero =>
      rw [toPoly_cons]
      simp
    | succ m =>
      rw [toPoly_cons]
      rw [Polynomial.coeff_add, Polynomial.coeff_X_mul, Polynomial.coeff_C]
      rw [if_neg (by omega), ih]
      simp

theorem toPoly_natDegree_lt (p : List F) (n : Nat)
    (hlen : (ptrim p).length ≤ n) (hn : 0 < n) : (toPoly p).natDegree < n := by
  have h : (toPoly p).natDegree ≤ n - 1 := by
    apply Polynomial.natDegree_le_iff_coeff_eq_zero.mpr
    intro m hm
    rw [toPoly_coeff]
    exact getD_eq_zero_of_trim_le p m (by omega)
  omega

theorem poly_vanish (dd : Polynomial F) (xs : List F) (hnd : xs.Nodup)
    (hdeg : dd.natDegree < xs.length) (hroots : ∀ x ∈ xs, dd.eval x = 0) :
    dd = 0 := by
  by_contra h0
  have hsub : xs.toFinset ⊆ dd.roots.toFinset := by
    intro x hx
    rw [List.mem_toFinset] at hx
    rw [Multiset.mem_toFinset, Polynomial.mem_roots h0]
    exact hroots x hx
  have h1 : xs.length = xs.toFinset.card := (List.toFinset_card_of_nodup hnd).symm
  have h2 : xs.toFinset.card ≤ dd.roots.toFinset.card := Finset.card_le_card hsub
  have h3 : dd.roots.toFinset.card ≤ Multiset.card dd.roots :=
    Multiset.toFinset_card_le _
  have h4 : Multiset.card dd.roots ≤ dd.natDegree := Polynomial.card_roots' dd
  omega

/-- Two coefficient lists that agree, as functions, on more distinct
points than either can have coefficients, agree coefficient by
coefficient. -/
theorem agree_on_points (p q : List F) (xs : List F) (hnd : xs.Nodup)
    (hxs : xs ≠ [])
    (hp : (ptrim p).length ≤ xs.length) (hq : (ptrim q).length ≤ xs.length)
    (heval : ∀ x ∈ xs, peval p x = peval q x) :
    toPoly p = toPoly q := by
  have hlen : 0 < xs.length := List.length_pos.mpr hxs
  have hdd : toPoly p - toPoly q = 0 := by
    apply poly_vanish _ xs hnd
    · have h1 := toPoly_natDegree_lt p xs.length hp hlen
      have h2 := toPoly_natDegree_lt q xs.length hq hlen
      calc (toPoly p - toPoly q).natDegree
          ≤ max (toPoly p).natDegree (toPoly q).natDegree :=
            Polynomial.natDegree_sub_le _ _
        _ < xs.length := by omega
    · intro x hx
      rw [Polynomial.eval_sub, toPoly_eval, toPoly_eval, heval x hx]
      ring
  have := sub_eq_zero.mp hdd
  exact this

theorem peval_eq_of_toPoly_eq {p q : List F} (h : toPoly p = toPoly q)
    (x : F) : peval p x = peval q x := by
  rw [← toPoly_eval, ← toPoly_eval, h]

theorem getD_eq_of_toPoly_eq {p q : List F} (h : toPoly p = toPoly q)
    (i : Nat) : p.getD i 0 = q.getD i 0 := by
  rw [← toPoly_coeff, ← toPoly_coeff, h]

theorem pdeg_le_iff (p : List F) (k : Int) (hk : -1 ≤ k) :
    pdeg p ≤ k ↔ ∀ i : Nat, k < (i : Int) → p.getD i 0 = 0 := by
  constructor
  · intro h i hi
    apply getD_eq_zero_of_trim_le
    unfold pdeg at h
    omega
  · intro h
    unfold pdeg
    by_contra hc
    push_neg at hc
    have hne : ptrim p ≠ [] := by
      intro h0
      rw [h0] at hc
      simp at hc
      omega
    have hlast := trim_getLast_ne_zero p hne
    have hidx : (k.toNat + 1) ≤ (ptrim p).length := by omega
    apply hlast
    have hgl : (ptrim p).getLast hne = (ptrim p).getD ((ptrim p).length - 1) 0 := by
      rw [List.getLast_eq_getElem]
      rw [List.getD_eq_getElem _ _ (by omega)]
    rw [hgl, getD_trim_eq]
    apply h
    omega

theorem pdivmodAux_succ (n : Nat) (r d : List F) :
    pdivmodAux (n + 1) r d =
      if (ptrim d).isEmpty then ([], r)
      else if (ptrim r).length < (ptrim d).length then ([], ptrim r)
      else
        let k := (ptrim r).length - (ptrim d).length
        let c := (ptrim r).getLastD 0 * ExecField.einv ((ptrim d).getLastD 0)
        let r2 := psub (ptrim r) (pscale c (List.replicate k 0 ++ ptrim d))
        let qr := pdivmodAux n r2 d
        (padd qr.1 (pmono k c), qr.2) := rfl

theorem pdivmodAux_eval : ∀ (fuel : Nat) (r d : List F) (x : F),
    peval (pdivmodAux fuel r d).1 x * peval d x +
      peval (pdivmodAux fuel r d).2 x = peval r x := by
  intro fuel
  induction fuel with
  | zero =>
    intro r d x
    show peval ([] : List F) x * peval d x + peval r x = peval r x
    rw [peval_nil]
    ring
  | succ n ih =>
    intro r d x
    rw [pdivmodAux_succ]
    by_cases hd : (ptrim d).isEmpty
    · rw [if_pos hd]
      show peval ([] : List F) x * peval d x + peval r x = peval r x
      rw [peval_nil]
      ring
    · rw [if_neg hd]
      by_cases hlt : (ptrim r).length < (ptrim d).length
      · rw [if_pos hlt]
        show peval ([] : List F) x * peval d x + peval (ptrim r) x = peval r x
        rw [peval_nil, peval_ptrim]
        ring
      · rw [if_neg hlt]
        dsimp only []
        set c := (ptrim r).getLastD 0 * ExecField.einv ((ptrim d).getLastD 0)
          with hc
        set k := (ptrim r).length - (ptrim d).length with hk
        set r2 := psub (ptrim r) (pscale c (List.replicate k 0 ++ ptrim d))
          with hr2
        rw [peval_padd, peval_pmono]
        have hrr : peval r2 x = peval r x - c * x ^ k * peval d x := by
          rw [hr2, peval_psub, peval_pscale, peval_append,
            peval_replicate_zero, peval_ptrim, peval_ptrim,
            List.length_replicate]
          ring
        calc (peval (pdivmodAux n r2 d).1 x + c * x ^ k) * peval d x +
              peval (pdivmodAux n r2 d).2 x
            = (peval (pdivmodAux n r2 d).1 x * peval d x +
                peval (pdivmodAux n r2 d).2 x) + c * x ^ k * peval d x := by
              ring
          _ = peval r2 x + c * x ^ k * peval d x := by rw [ih r2 d x]
          _ = peval r x := by rw [hrr]; ring

theorem pdivmod_eval (p d : List F) (x : F) :
    peval (pdivmod p d).1 x * peval d x + peval (pdivmod p d).2 x = peval p x :=
  pdivmodAux_eval (p.length + 1) p d x

theorem getLastD_map_mul (c : F) (l : List F) :
    (l.map (fun a => c * a)).getLastD 0 = c * l.getLastD 0 := by
  rw [List.getLastD_eq_getLast?, List.getLastD_eq_getLast?, List.getLast?_map]
  cases l.getLast? with
  | none => simp
  | some a => simp

theorem getLastD_map_neg (l : List F) :
    (l.map (fun a => -a)).getLastD 0 = -(l.getLastD 0) := by
  rw [List.getLastD_eq_getLast?, List.getLastD_eq_getLast?, List.getLast?_map]
  cases l.getLast? with
  | none => simp
  | some a => simp

theorem step_trim_shrink (r d : List F) (hd : ¬ (ptrim d).isEmpty = true)
    (hge : ¬ (ptrim r).length < (ptrim d).length) :
    (ptrim (psub (ptrim r)
      (pscale ((ptrim r).getLastD 0 * ExecField.einv ((ptrim d).getLastD 0))
        (List.replicate ((ptrim r).length - (ptrim d).length) 0 ++
          ptrim d)))).length < (ptrim r).length := by
  set c := (ptrim r).getLastD 0 * ExecField.einv ((ptrim d).getLastD 0) with hc
  set k := (ptrim r).length - (ptrim d).length with hk
  have hdne : ptrim d ≠ [] := by
    intro h
    rw [h] at hd
    simp at hd
  have hdpos : 0 < (ptrim d).length := List.length_pos.mpr hdne
  have hrpos : 0 < (ptrim r).length := by omega
  have hrne : ptrim r ≠ [] := by
    intro h
    rw [h] at hrpos
    simp at hrpos
  have hlen2 : (pscale c (List.replicate k 0 ++ ptrim d)).length =
      (ptrim r).length := by
    rw [pscale_length, List.length_append, List.length_replicate]
    omega
  set s := psub (ptrim r) (pscale c (List.replicate k 0 ++ ptrim d)) with hs
  have hsublen : s.length = (ptrim r).length := by
    rw [hs, psub_length, hlen2]
    omega
  have hsubne : s ≠ [] := by
    intro h
    rw [h] at hsublen
    simp at hsublen
    omega
  have hdl : (ptrim d).getLastD 0 ≠ 0 := by
    have h2 : (ptrim d).getLastD 0 = (ptrim d).getLast hdne := by
      rw [List.getLastD_eq_getLast?,
        (List.getLast_eq_iff_getLast?_eq_some hdne).mp rfl]
      rfl
    rw [h2]
    exact trim_getLast_ne_zero d hdne
  have hlast2 : (pscale c (List.replicate k 0 ++ ptrim d)).getLastD 0 =
      (ptrim r).getLastD 0 := by
    show ((List.replicate k (0 : F) ++ ptrim d).map
      (fun a => c * a)).getLastD 0 = _
    rw [getLastD_map_mul]
    rw [show ((List.replicate k (0 : F) ++ ptrim d)).getLastD 0 =
      (ptrim d).getLastD 0 from by
        rw [List.getLastD_eq_getLast?,
          List.getLast?_append_of_ne_nil _ hdne,
          ← List.getLastD_eq_getLast?]
        ]
    rw [hc, ExecField.einv_eq]
    rw [mul_assoc, inv_mul_cancel₀ hdl, mul_one]
  have hlast : s.getLast? = some 0 := by
    rw [hs]
    show (padd (ptrim r)
      (pneg (pscale c (List.replicate k 0 ++ ptrim d)))).getLast? = some 0
    rw [padd_getLast_eq (ptrim r) _
      (by rw [pneg_length, hlen2]) hrne]
    congr 1
    show (ptrim r).getLastD 0 +
      ((pscale c (List.replicate k 0 ++ ptrim d)).map
        (fun a => -a)).getLastD 0 = 0
    rw [getLastD_map_neg, hlast2]
    ring
  have hz : s.getLast hsubne = 0 := by
    rw [(List.getLast_eq_iff_getLast?_eq_some hsubne)]
    exact hlast
  have := trim_length_lt_of_last_zero s hsubne hz
  omega

theorem pdivmodAux_snd_trim : ∀ (fuel : Nat) (r d : List F),
    ¬ (ptrim d).isEmpty = true → (ptrim r).length ≤ fuel →
    (ptrim (pdivmodAux fuel r d).2).length < (ptrim d).length := by
  intro fuel
  induction fuel with
  | zero =>
    intro r d hd hfuel
    show (ptrim r).length < (ptrim d).length
    have : (ptrim d).length ≠ 0 := by
      intro h
      rw [List.length_eq_zero.mp h] at hd
      simp at hd
    omega
  | succ n ih =>
    intro r d hd hfuel
    rw [pdivmodAux_succ, if_neg hd]
    by_cases hlt : (ptrim r).length < (ptrim d).length
    · rw [if_pos hlt]
      show (ptrim (ptrim r)).length < (ptrim d).length
      rw [ptrim_idem]
      exact hlt
    · rw [if_neg hlt]
      dsimp only []
      apply ih
      · exact hd
      · have := step_trim_shrink r d hd hlt
        omega

theorem pdivmod_snd_trim (p d : List F) (hd : ¬ (ptrim d).isEmpty = true) :
    (ptrim (pdivmod p d).2).length < (ptrim d).length := by
  apply pdivmodAux_snd_trim
  · exact hd
  · have := ptrim_length_le p
    omega

theorem peval_pair (a b x : F) : peval [a, b] x = a + x * b := by
  show a + x * (b + x * 0) = a + x * b
  ring

theorem peval_single (a x : F) : peval [a] x = a := by
  show a + x * 0 = a
  ring

theorem quotient_opening (f : List F) (z x : F) :
    peval f x = peval f z +
      peval (pdivmod (psub f [peval f z]) [-z, 1]).1 x * (x - z) := by
  set v := peval f z with hv
  set den : List F := [-z, 1] with hden
  have hdtrim : ptrim den = den := by
    apply ptrim_eq_self_of_getLast den 1 (by rw [hden]; rfl) one_ne_zero
  have hdne : ¬ (ptrim den).isEmpty = true := by
    rw [hdtrim, hden]
    simp
  have hdeval : ∀ t, peval den t = t - z := by
    intro t
    rw [hden, peval_pair]
    ring
  set num := psub f [v] with hnum
  have hid := pdivmod_eval num den
  have hrm := pdivmod_snd_trim num den hdne
  rw [hdtrim, hden] at hrm
  -- the remainder is a constant, and it vanishes at z, hence everywhere
  set rm := (pdivmod num den).2 with hrmdef
  have hrmconst : ∀ t, peval rm t = peval rm z := by
    intro t
    rw [← peval_ptrim rm t, ← peval_ptrim rm z]
    cases htr : ptrim rm with
    | nil => rfl
    | cons c0 tl =>
      cases tl with
      | nil => rw [peval_single, peval_single]
      | cons c1 tl2 =>
        rw [htr] at hrm
        simp at hrm
        omega
  have hrmz : peval rm z = 0 := by
    have h0 := hid z
    rw [hdeval z] at h0
    have hnz : peval num z = 0 := by
      rw [hnum, peval_psub, peval_single, hv]
      ring
    rw [hnz] at h0
    rw [sub_self, mul_zero, zero_add] at h0
    exact h0
  have hq := hid x
  rw [hdeval x, hrmconst x, hrmz, add_zero] at hq
  have hnx : peval num x = peval f x - v := by
    rw [hnum, peval_psub, peval_single]
  rw [hnx] at hq
  linear_combination -hq

theorem padd_getD (a : List F) : ∀ (b : List F) (i : Nat),
    (padd a b).getD i 0 = a.getD i 0 + b.getD i 0 := by
  induction a with
  | nil =>
    intro b i
    show (padd [] b).getD i 0 = _
    rw [show padd ([] : List F) b = b from by cases b <;> rfl]
    simp
  | cons x a ih =>
    intro b i
    cases b with
    | nil => simp [padd]
    | cons y b =>
      show ((x + y) :: padd a b).getD i 0 = _
      cases i with
      | zero => simp
      | succ j =>
        simp only [List.getD_cons_succ]
        exact ih b j

theorem pneg_getD (b : List F) (i : Nat) :
    (pneg b).getD i 0 = -(b.getD i 0) := by
  by_cases hi : i < b.length
  · rw [pneg, List.getD_eq_getElem _ _ (by simpa using hi),
      List.getD_eq_getElem _ _ hi]
    simp
  · rw [List.getD_eq_default _ _ (by rw [pneg_length]; omega),
      List.getD_eq_default _ _ (by omega)]
    simp

theorem quotient_pdeg_le (f : List F) (z : F) (d : Int) (hd0 : 0 ≤ d)
    (hf : pdeg f ≤ d) :
    pdeg (pdivmod (psub f [peval f z]) [-z, 1]).1 ≤ d - 1 := by
  set v := peval f z with hv
  have hnum : pdeg (psub f [v]) ≤ d := by
    rw [pdeg_le_iff _ _ (by omega)]
    intro i hi
    have hi1 : 1 ≤ i := by omega
    rw [psub, padd_getD, pneg_getD]
    have h1 : f.getD i 0 = 0 := by
      rw [pdeg_le_iff _ _ (by omega)] at hf
      exact hf i hi
    have h2 : ([v] : List F).getD i 0 = 0 := by
      rw [List.getD_eq_default]
      simpa using hi1
    rw [h1, h2]
    ring
  have hlen := pdivmodAux_fst_length ((psub f [v]).length + 1) (psub f [v])
    [-z, 1]
  have hdtrim : ptrim ([-z, 1] : List F) = [-z, 1] :=
    ptrim_eq_self_of_getLast _ 1 rfl one_ne_zero
  rw [hdtrim] at hlen
  have hnl : ((ptrim (psub f [v])).length : Int) ≤ d + 1 := by
    unfold pdeg at hnum
    omega
  have hq := pdeg_le_length (pdivmod (psub f [v]) [-z, 1]).1
  show pdeg (pdivmod (psub f [v]) [-z, 1]).1 ≤ d - 1
  have hlen2 : (pdivmod (psub f [v]) [-z, 1]).1.length ≤
      (ptrim (psub f [v])).length + 1 - 2 := by
    show (pdivmodAux ((psub f [v]).length + 1) (psub f [v]) [-z, 1]).1.length ≤ _
    have h2 : ([-z, 1] : List F).length = 2 := rfl
    rw [h2] at hlen
    exact hlen
  omega

theorem splitCoeffs_nil (t j : Nat) : splitCoeffs ([] : List F) t j = [] := rfl

theorem succ_mod_big (t i : Nat) (ht : 2 ≤ t) :
    (i + 1) % t = if i % t + 1 = t then 0 else i % t + 1 := by
  rw [Nat.add_mod, Nat.mod_eq_of_lt (show 1 < t by omega)]
  have hm : i % t < t := Nat.mod_lt _ (by omega)
  by_cases hc : i % t + 1 = t
  · rw [if_pos hc, hc, Nat.mod_self]
  · rw [if_neg hc, Nat.mod_eq_of_lt (by omega)]

theorem filterMap_enumFrom_succ {β : Type} (f : Nat × F → Option β) :
    ∀ (cs : List F) (s : Nat),
    List.filterMap f (List.enumFrom (s + 1) cs) =
      List.filterMap (fun e => f (e.1 + 1, e.2)) (List.enumFrom s cs) := by
  intro cs
  induction cs with
  | nil => intro s; rfl
  | cons a l ih =>
    intro s
    rw [List.enumFrom_cons, List.enumFrom_cons, List.filterMap_cons,
      List.filterMap_cons]
    rw [ih (s + 1)]

theorem splitCoeffs_cons (c : F) (cs : List F) (t j : Nat) (ht : 0 < t)
    (hj : j < t) :
    splitCoeffs (c :: cs) t j =
      if j = 0 then c :: splitCoeffs cs t (t - 1)
      else splitCoeffs cs t (j - 1) := by
  unfold splitCoeffs
  rw [List.enum_cons, List.filterMap_cons]
  have htail : List.filterMap
      (fun e : Nat × F => if e.1 % t == j then some e.2 else none)
      (List.enumFrom 1 cs) =
      List.filterMap (fun e : Nat × F =>
        if (e.1 + 1) % t == j then some e.2 else none) cs.enum := by
    rw [show (1 : Nat) = 0 + 1 from rfl, filterMap_enumFrom_succ]
    rfl
  rw [htail]
  by_cases hj0 : j = 0
  · subst hj0
    rw [if_pos rfl]
    have hscr : ((0, c) : Nat × F).1 % t == 0 := by simp
    dsimp only []
    rw [if_pos hscr]
    show c :: _ = c :: _
    congr 1
    apply List.filterMap_congr
    intro e he
    obtain ⟨m, hm, hme⟩ : ∃ m, m < t ∧ e.1 % t = m :=
      ⟨e.1 % t, Nat.mod_lt _ ht, rfl⟩
    rcases Nat.lt_or_ge t 2 with ht1 | ht2
    · have ht1' : t = 1 := by omega
      subst ht1'
      simp
    · rw [succ_mod_big t e.1 ht2, hme]
      by_cases hc : m + 1 = t
      · rw [if_pos hc]
        rw [if_pos (by simp), if_pos (by simp only [beq_iff_eq]; omega)]
      · rw [if_neg hc]
        rw [if_neg (by simp only [beq_iff_eq]; omega), if_neg (by simp only [beq_iff_eq]; omega)]
  · rw [if_neg hj0]
    have hscr : ¬ (((0, c) : Nat × F).1 % t == j) = true := by
      simp
      omega
    dsimp only []
    rw [if_neg hscr]
    show List.filterMap _ cs.enum = _
    apply List.filterMap_congr
    intro e he
    obtain ⟨m, hm, hme⟩ : ∃ m, m < t ∧ e.1 % t = m :=
      ⟨e.1 % t, Nat.mod_lt _ ht, rfl⟩
    have ht2 : 2 ≤ t := by omega
    rw [succ_mod_big t e.1 ht2, hme]
    by_cases hc : m + 1 = t
    · rw [if_pos hc]
      rw [if_neg (by simp only [beq_iff_eq]; omega), if_neg (by simp only [beq_iff_eq]; omega)]
    · rw [if_neg hc]
      by_cases hc2 : m + 1 = j
      · rw [if_pos (by simp only [beq_iff_eq]; omega), if_pos (by simp only [beq_iff_eq]; omega)]
      · rw [if_neg (by simp only [beq_iff_eq]; omega), if_neg (by simp only [beq_iff_eq]; omega)]

theorem splitCoeffs_eval (t : Nat) (ht : 0 < t) :
    ∀ (cs : List F) (y : F),
    peval cs y =
      ∑ j in Finset.range t, y ^ j * peval (splitCoeffs cs t j) (y ^ t) := by
  intro cs
  induction cs with
  | nil =>
    intro y
    simp [splitCoeffs_nil, peval_nil]
  | cons c cs ih =>
    intro y
    obtain ⟨s, rfl⟩ : ∃ s, t = s + 1 := ⟨t - 1, by omega⟩
    have h0 : splitCoeffs (c :: cs) (s + 1) 0 =
        c :: splitCoeffs cs (s + 1) s := by
      rw [splitCoeffs_cons c cs (s + 1) 0 (by omega) (by omega)]
      simp
    have hsucc : ∀ j, j < s → splitCoeffs (c :: cs) (s + 1) (j + 1) =
        splitCoeffs cs (s + 1) j := by
      intro j hj
      rw [splitCoeffs_cons c cs (s + 1) (j + 1) (by omega) (by omega)]
      simp
    rw [peval_cons, ih y]
    rw [Finset.sum_range_succ' (fun j => y ^ j *
      peval (splitCoeffs (c :: cs) (s + 1) j) (y ^ (s + 1))) s]
    have hs2 : ∑ j in Finset.range s, y ^ (j + 1) *
        peval (splitCoeffs (c :: cs) (s + 1) (j + 1)) (y ^ (s + 1)) =
        ∑ j in Finset.range s, y ^ (j + 1) *
        peval (splitCoeffs cs (s + 1) j) (y ^ (s + 1)) :=
      Finset.sum_congr rfl (fun j hj => by
        rw [hsucc j (Finset.mem_range.mp hj)])
    rw [hs2, h0, peval_cons]
    rw [Finset.sum_range_succ (fun j => y ^ j *
      peval (splitCoeffs cs (s + 1) j) (y ^ (s + 1))) s]
    rw [mul_add, Finset.mul_sum]
    have hs3 : ∑ j in Finset.range s, y * (y ^ j *
        peval (splitCoeffs cs (s + 1) j) (y ^ (s + 1))) =
        ∑ j in Finset.range s, y ^ (j + 1) *
        peval (splitCoeffs cs (s + 1) j) (y ^ (s + 1)) :=
      Finset.sum_congr rfl (fun j _ => by ring)
    rw [hs3]
    ring

theorem zip_self_map {α β : Type} (g : α × α → β) :
    ∀ (l : List α), (l.zip l).map g = l.map (fun a => g (a, a)) := by
  intro l
  induction l with
  | nil => rfl
  | cons a l ih => simp [ih]

theorem foldpoly_eval (p : List F) (t : Nat) (c x : F) :
    peval ((poly_ksplit p t).enum.foldl
      (fun acc e => padd acc (pscale (c ^ e.1) e.2)) []) x =
      ∑ j in Finset.range t, c ^ j * peval (splitCoeffs (ptrim p) t j) x := by
  rw [peval_foldl_padd, peval_nil, zero_add]
  unfold poly_ksplit
  rw [List.enum_map, List.map_map, List.enum_eq_zip_range, List.length_range]
  rw [zip_self_map]
  rw [list_map_range_sum]
  exact Finset.sum_congr rfl (fun j _ => by
    simp only [Function.comp, Prod.map, id]
    rw [peval_pscale])

theorem lagrange_eq (pts : List (F × F)) :
    lagrange pts = (List.range pts.length).foldl
      (fun acc i => padd acc (pscale ((pts.getD i (0, 0)).2 *
        ExecField.einv (lagDenom pts i)) (lagNumer pts i))) [] := rfl

theorem peval_foldl_pmul (x : F) : ∀ (l : List F) (init : List F),
    peval (l.foldl (fun q xj => pmul q [-xj, 1]) init) x =
      peval init x * (l.map (fun xj => x - xj)).prod := by
  intro l
  induction l with
  | nil => intro init; simp
  | cons a l ih =>
    intro init
    rw [List.foldl_cons, ih, peval_pmul, peval_pair, List.map_cons,
      List.prod_cons]
    ring

theorem foldl_mul_map {α : Type} (f : α → F) : ∀ (l : List α) (init : F),
    l.foldl (fun a v => a * f v) init = init * (l.map f).prod := by
  intro l
  induction l with
  | nil => intro init; simp
  | cons a l ih =>
    intro init
    rw [List.foldl_cons, ih, List.map_cons, List.prod_cons]
    ring

theorem lagNumer_eval (pts : List (F × F)) (i : Nat) (x : F) :
    peval (lagNumer pts i) x =
      ((lagOthers pts i).map (fun xj => x - xj)).prod := by
  unfold lagNumer
  rw [peval_foldl_pmul, peval_single, one_mul]

theorem lagDenom_eq (pts : List (F × F)) (i : Nat) :
    lagDenom pts i = ((lagOthers pts i).map
      (fun xj => (pts.map Prod.fst).getD i 0 - xj)).prod := by
  unfold lagDenom
  rw [foldl_mul_map, one_mul]

theorem lagOthers_mem_iff (pts : List (F × F)) (i : Nat) (v : F) :
    v ∈ lagOthers pts i ↔
      ∃ j, ∃ hj : j < (pts.map Prod.fst).length, j ≠ i ∧
        (pts.map Prod.fst).get ⟨j, hj⟩ = v := by
  unfold lagOthers
  constructor
  · intro hv
    obtain ⟨e, he, hev⟩ := List.mem_map.mp hv
    obtain ⟨hee, hne⟩ := List.mem_filter.mp he
    obtain ⟨hj, hget⟩ := List.getElem?_eq_some.mp
      (List.mem_enum_iff_getElem?.mp hee)
    refine ⟨e.1, hj, of_decide_eq_true hne, ?_⟩
    rw [List.get_eq_getElem, hget, hev]
  · rintro ⟨j, hj, hne, hv⟩
    refine List.mem_map.mpr ⟨(j, (pts.map Prod.fst).get ⟨j, hj⟩),
      List.mem_filter.mpr ⟨List.mem_enum_iff_getElem?.mpr ?_,
        decide_eq_true hne⟩, hv⟩
    refine List.getElem?_eq_some.mpr ⟨hj, ?_⟩
    show (pts.map Prod.fst)[j] = (pts.map Prod.fst).get ⟨j, hj⟩
    rw [List.get_eq_getElem]

theorem lagDenom_ne_zero (pts : List (F × F))
    (hnd : (pts.map Prod.fst).Nodup) (i : Nat)
    (hi : i < (pts.map Prod.fst).length) : lagDenom pts i ≠ 0 := by
  rw [lagDenom_eq]
  intro h0
  obtain ⟨w, hw, hwz⟩ := List.mem_map.mp (List.prod_eq_zero_iff.mp h0)
  obtain ⟨j, hj, hne, hv⟩ := (lagOthers_mem_iff pts i w).mp hw
  have hxi : (pts.map Prod.fst).getD i 0 = (pts.map Prod.fst).get ⟨i, hi⟩ := by
    rw [List.getD_eq_getElem _ _ hi, List.get_eq_getElem]
  rw [hxi, ← hv, sub_eq_zero] at hwz
  exact hne (congrArg Fin.val ((hnd.get_inj_iff).mp hwz)).symm

theorem lagrange_eval_node (pts : List (F × F))
    (hnd : (pts.map Prod.fst).Nodup) (k : Nat) (hk : k < pts.length) :
    peval (lagrange pts) ((pts.map Prod.fst).getD k 0) =
      (pts.getD k (0, 0)).2 := by
  have hxlen : (pts.map Prod.fst).length = pts.length := List.length_map _ _
  rw [lagrange_eq, peval_foldl_padd, peval_nil, zero_add, list_map_range_sum]
  rw [Finset.sum_eq_single k ?side ?notmem]
  · rw [peval_pscale, lagNumer_eval, ← lagDenom_eq]
    rw [ExecField.einv_eq, mul_assoc,
      inv_mul_cancel₀ (lagDenom_ne_zero pts hnd k (by omega)), mul_one]
  · intro i hi hik
    rw [peval_pscale, lagNumer_eval]
    have hmem : (pts.map Prod.fst).getD k 0 ∈ lagOthers pts i := by
      refine (lagOthers_mem_iff pts i _).mpr ⟨k, by omega, Ne.symm hik, ?_⟩
      rw [List.get_eq_getElem, List.getD_eq_getElem _ _ (by omega)]
    have hzero : (0 : F) ∈ (lagOthers pts i).map
        (fun xj => (pts.map Prod.fst).getD k 0 - xj) :=
      List.mem_map.mpr ⟨_, hmem, sub_self _⟩
    rw [List.prod_eq_zero hzero, mul_zero]
  · intro hkn
    exact absurd (Finset.mem_range.mpr hk) hkn

theorem pow_mod_eq (ω : F) (N a : Nat) (h1 : ω ^ N = 1) :
    ω ^ (a % N) = ω ^ a := by
  conv_rhs => rw [← Nat.div_add_mod a N]
  rw [pow_add, pow_mul, h1, one_pow, one_mul]

theorem root_ne_zero (ω : F) (N : Nat) (hN : 0 < N) (h1 : ω ^ N = 1) :
    ω ≠ 0 := by
  intro h0
  rw [h0, zero_pow (by omega)] at h1
  exact zero_ne_one h1

theorem pow_inj_lt (ω : F) (N : Nat) (h1 : ω ^ N = 1)
    (hord : ∀ m, 0 < m → m < N → ω ^ m ≠ 1) (hN : 0 < N) :
    ∀ a b : Nat, a < N → b < N → ω ^ a = ω ^ b → a = b := by
  have hkey : ∀ a b : Nat, a ≤ b → b < N → ω ^ a = ω ^ b → a = b := by
    intro a b hab hb hpow
    by_contra hne
    have hlt : 0 < b - a := by omega
    have hsplit : ω ^ b = ω ^ a * ω ^ (b - a) := by
      rw [← pow_add]
      congr 1
      omega
    rw [hsplit] at hpow
    have hz : ω ^ a ≠ 0 := pow_ne_zero _ (root_ne_zero ω N hN h1)
    have hone : ω ^ (b - a) = 1 :=
      (mul_left_cancel₀ hz ((mul_one (ω ^ a)).trans hpow)).symm
    exact hord (b - a) hlt (by omega) hone
  intro a b ha hb hpow
  rcases le_total a b with h | h
  · exact hkey a b h hb hpow
  · exact (hkey b a h ha hpow.symm).symm

theorem getD_map_range {α : Type} (n : Nat) (f : Nat → α) (d : α) (i : Nat)
    (hi : i < n) : ((List.range n).map f).getD i d = f i := by
  rw [List.getD_eq_getElem _ _ (by simpa using hi)]
  simp

theorem zip_getD {α β : Type} (d1 : α) (d2 : β)
    (l1 : List α) (l2 : List β) (k : Nat) (hk : k < l1.length)
    (hk2 : k < l2.length) :
    (l1.zip l2).getD k (d1, d2) = (l1.getD k d1, l2.getD k d2) := by
  rw [List.getD_eq_getElem _ _ (by rw [List.length_zip]; omega),
    List.getD_eq_getElem _ _ hk, List.getD_eq_getElem _ _ hk2]
  simp

theorem peval_map_range (n : Nat) (f : Nat → F) (y : F) :
    peval ((List.range n).map f) y = ∑ m in Finset.range n, y ^ m * f m := by
  induction n with
  | zero => simp [peval_nil]
  | succ m ih =>
    rw [List.range_succ, List.map_append, peval_append, ih, List.map_singleton,
      peval_single, List.length_map, List.length_range, Finset.sum_range_succ]

theorem evaluation_points_length (r : FRIRound F) :
    r.evaluation_points.length = r.mult_order := by
  simp [FRIRound.evaluation_points]

theorem evaluation_points_getD (r : FRIRound F) (i : Nat)
    (hi : i < r.mult_order) :
    r.evaluation_points.getD i 0 = r.omega ^ i :=
  getD_map_range _ _ _ _ hi

theorem gen_proof_getD (r : FRIRound F) (i : Nat) (hi : i < r.mult_order) :
    r.gen_proof.getD i 0 = peval r.poly (r.omega ^ i) := by
  unfold FRIRound.gen_proof
  have h1 : i < r.evaluation_points.length := by
    rw [evaluation_points_length]; exact hi
  rw [List.getD_eq_getElem _ _ (by simpa using h1),
    List.getElem_map, ← List.getD_eq_getElem r.evaluation_points 0 h1,
    evaluation_points_getD r i hi]

theorem evaluation_points_nodup (r : FRIRound F)
    (h1 : r.omega ^ r.mult_order = 1)
    (hord : ∀ m, 0 < m → m < r.mult_order → r.omega ^ m ≠ 1)
    (hN : 0 < r.mult_order) : r.evaluation_points.Nodup := by
  unfold FRIRound.evaluation_points
  apply List.Nodup.map_on _ (List.nodup_range _)
  intro a ha b hb hab
  exact pow_inj_lt r.omega r.mult_order h1 hord hN a b
    (List.mem_range.mp ha) (List.mem_range.mp hb) hab

theorem fold_none_inv {r r' : FRIRound F} {c : F}
    {frac : Option (List F × List F)}
    (h : r.fold c [] = .ok (r', frac)) :
    frac = none ∧
    r' = ⟨(poly_ksplit r.poly r.folding_factor).enum.foldl
        (fun acc e => padd acc (pscale (c ^ e.1) e.2)) [],
      r.omega ^ r.folding_factor,
      r.mult_order / Nat.gcd r.mult_order r.folding_factor,
      r.rate_factor, r.folding_factor⟩ ∧
    isPow2 (r.mult_order / Nat.gcd r.mult_order r.folding_factor) = true ∧
    ¬ r.mult_order / Nat.gcd r.mult_order r.folding_factor < r.rate_factor := by
  unfold FRIRound.fold at h
  simp only [List.isEmpty_nil, if_true, ite_true] at h
  obtain ⟨rr, hm, hfx⟩ := except_map_ok h
  obtain ⟨hre, hpo, hpra, hor, hpf⟩ := make_ok_inv hm
  have hfst : r' = rr := by
    have := congrArg Prod.fst hfx
    simpa using this.symm
  have hsnd : frac = none := by
    have := congrArg Prod.snd hfx
    simpa using this.symm
  subst hfst
  exact ⟨hsnd, hre, hpo, hor⟩

theorem cross_check_one_honest (r r' : FRIRound F) (c : F)
    (hfold : r.fold c [] = .ok (r', none))
    (h1 : r.omega ^ r.mult_order = 1)
    (hord : ∀ m, 0 < m → m < r.mult_order → r.omega ^ m ≠ 1)
    (hN : 0 < r.mult_order)
    (htdvd : r.folding_factor ∣ r.mult_order)
    (ht : 0 < r.folding_factor)
    (ndx_raw : Nat) :
    FRIRound.cross_check_one r' r c none ndx_raw = true := by
  unfold FRIRound.cross_check_one
  dsimp only []
  simp only [beq_iff_eq]
  rw [gen_proof_length r]
  obtain ⟨-, hr', -, -⟩ := fold_none_inv hfold
  have hgcd : Nat.gcd r.mult_order r.folding_factor = r.folding_factor :=
    Nat.gcd_eq_right htdvd
  have hpoly' : r'.poly = (poly_ksplit r.poly r.folding_factor).enum.foldl
      (fun acc e => padd acc (pscale (c ^ e.1) e.2)) [] := by rw [hr']
  have homega' : r'.omega = r.omega ^ r.folding_factor := by rw [hr']
  have hN' : r'.mult_order = r.mult_order / r.folding_factor := by
    rw [hr', hgcd]
  set ndx := ndx_raw % r.mult_order with hndxdef
  have hndx : ndx < r.mult_order := Nat.mod_lt _ hN
  have hs : 0 < r.mult_order / r.folding_factor :=
    Nat.div_pos (Nat.le_of_dvd hN htdvd) ht
  have hstN : r.mult_order / r.folding_factor * r.folding_factor =
      r.mult_order := Nat.div_mul_cancel htdvd
  have hωt1 : (r.omega ^ r.folding_factor) ^
      (r.mult_order / r.folding_factor) = 1 := by
    rw [← pow_mul, Nat.mul_div_cancel' htdvd, h1]
  have hω0 : r.omega ≠ 0 := root_ne_zero _ _ hN h1
  -- left side: codeword value of the folded layer
  have hnewndx : ndx % (r.mult_order / r.folding_factor) <
      r'.mult_order := by
    rw [hN']
    exact Nat.mod_lt _ hs
  rw [hN', gen_proof_getD r' _ hnewndx, hpoly', homega',
    pow_mod_eq _ _ _ hωt1, foldpoly_eval]
  -- right side: rewrite the nodes and values
  have hep : r.evaluation_points.getD ndx 0 = r.omega ^ ndx :=
    evaluation_points_getD r ndx hndx
  have hfr : r.folding_root =
      r.omega ^ (r.mult_order / r.folding_factor) := rfl
  have hnw : r.ndx_with_folding_roots ndx = (List.range r.folding_factor).map
      (fun j => (ndx + j * (r.mult_order / r.folding_factor)) %
        r.mult_order) := rfl
  rw [hep, hfr, hnw, List.map_map, List.map_map]
  simp only [Function.comp_def]
  have hval : List.map (fun j => r.gen_proof.getD
      ((ndx + j * (r.mult_order / r.folding_factor)) % r.mult_order) 0)
      (List.range r.folding_factor) =
      List.map (fun j => peval r.poly (r.omega ^ ndx *
        (r.omega ^ (r.mult_order / r.folding_factor)) ^ j))
      (List.range r.folding_factor) := by
    apply List.map_congr_left
    intro j hj
    rw [gen_proof_getD r _ (Nat.mod_lt _ hN), pow_mod_eq _ _ _ h1, pow_add,
      Nat.mul_comm j, pow_mul]
  rw [hval]
  -- abbreviations
  set nodefn : Nat → F := fun j => r.omega ^ ndx *
    (r.omega ^ (r.mult_order / r.folding_factor)) ^ j with hnodefn
  set nodes : List F := (List.range r.folding_factor).map nodefn with hnodes
  set values : List F := (List.range r.folding_factor).map
    (fun j => peval r.poly (nodefn j)) with hvalues
  have hlnodes : nodes.length = r.folding_factor := by
    rw [hnodes, List.length_map, List.length_range]
  have hlvalues : values.length = r.folding_factor := by
    rw [hvalues, List.length_map, List.length_range]
  set pts : List (F × F) := nodes.zip values with hpts
  have hlpts : pts.length = r.folding_factor := by
    rw [hpts, List.length_zip, hlnodes, hlvalues, min_self]
  have hxs : pts.map Prod.fst = nodes :=
    List.map_fst_zip nodes values (by rw [hlnodes, hlvalues])
  -- distinctness of the coset nodes
  have hnodup : nodes.Nodup := by
    rw [hnodes]
    apply List.Nodup.map_on _ (List.nodup_range _)
    intro i hi j hj hij
    rw [hnodefn] at hij
    have hc := mul_left_cancel₀ (pow_ne_zero ndx hω0) hij
    rw [← pow_mul, ← pow_mul] at hc
    have hiN : r.mult_order / r.folding_factor * i < r.mult_order := by
      calc r.mult_order / r.folding_factor * i
          < r.mult_order / r.folding_factor * r.folding_factor :=
            (Nat.mul_lt_mul_left hs).mpr (List.mem_range.mp hi)
        _ = r.mult_order := hstN
    have hjN : r.mult_order / r.folding_factor * j < r.mult_order := by
      calc r.mult_order / r.folding_factor * j
          < r.mult_order / r.folding_factor * r.folding_factor :=
            (Nat.mul_lt_mul_left hs).mpr (List.mem_range.mp hj)
        _ = r.mult_order := hstN
    exact Nat.eq_of_mul_eq_mul_left hs
      (pow_inj_lt r.omega r.mult_order h1 hord hN _ _ hiN hjN hc)
  -- the interpolant agrees with the split-evaluation coefficient list
  set x0 : F := (r.omega ^ r.folding_factor) ^ ndx with hx0
  have hnodepow : ∀ k, nodefn k ^ r.folding_factor = x0 := by
    intro k
    rw [hnodefn, hx0]
    calc (r.omega ^ ndx *
        (r.omega ^ (r.mult_order / r.folding_factor)) ^ k) ^ r.folding_factor
        = r.omega ^ (ndx * r.folding_factor) *
          r.omega ^ (r.mult_order / r.folding_factor * (k *
            r.folding_factor)) := by
          rw [mul_pow, ← pow_mul, ← pow_mul, ← pow_mul]
      _ = r.omega ^ (ndx * r.folding_factor) *
          (r.omega ^ (r.mult_order / r.folding_factor * r.folding_factor)) ^
            k := by
          rw [← pow_mul]
          congr 2
          ring
      _ = r.omega ^ (ndx * r.folding_factor) := by
          rw [hstN, h1, one_pow, mul_one]
      _ = (r.omega ^ r.folding_factor) ^ ndx := by
          rw [Nat.mul_comm, pow_mul]
  set Pl : List F := (List.range r.folding_factor).map
    (fun j => peval (splitCoeffs (ptrim r.poly) r.folding_factor j) x0)
    with hPl
  have hlPl : Pl.length = r.folding_factor := by
    rw [hPl, List.length_map, List.length_range]
  have hagree : toPoly (lagrange pts) = toPoly Pl := by
    apply agree_on_points _ _ nodes hnodup
    · intro hc
      rw [hc] at hlnodes
      simp at hlnodes
      omega
    · calc (ptrim (lagrange pts)).length ≤ (lagrange pts).length :=
          ptrim_length_le _
        _ ≤ pts.length := lagrange_length_le pts
        _ = nodes.length := by rw [hlpts, hlnodes]
    · calc (ptrim Pl).length ≤ Pl.length := ptrim_length_le _
        _ = nodes.length := by rw [hlPl, hlnodes]
    · intro x hx
      obtain ⟨k, hk, hkx⟩ := List.mem_iff_getElem.mp hx
      have hkt : k < r.folding_factor := by rw [← hlnodes]; exact hk
      have hxk : nodes.getD k 0 = x := by
        rw [List.getD_eq_getElem _ _ hk, hkx]
      have hndp : (pts.map Prod.fst).Nodup := by rw [hxs]; exact hnodup
      have hL := lagrange_eval_node pts hndp k (by rw [hlpts]; exact hkt)
      rw [hxs, hxk] at hL
      have hptsk : pts.getD k (0, 0) = (nodes.getD k 0, values.getD k 0) :=
        zip_getD 0 0 nodes values k hk (by rw [hlvalues]; exact hkt)
      rw [hptsk] at hL
      have hvk : values.getD k 0 = peval r.poly (nodefn k) := by
        rw [hvalues]
        exact getD_map_range _ _ _ _ hkt
      have hnk : nodes.getD k 0 = nodefn k := by
        rw [hnodes]
        exact getD_map_range _ _ _ _ hkt
      rw [hvk] at hL
      rw [← hxk, hnk] at hL ⊢
      rw [hL]
      rw [← peval_ptrim r.poly, splitCoeffs_eval r.folding_factor ht
        (ptrim r.poly) (nodefn k), hnodepow k]
      rw [hPl, peval_map_range]
  have hRc : peval (lagrange pts) c = peval Pl c :=
    peval_eq_of_toPoly_eq hagree c
  rw [hRc, hPl, peval_map_range]

theorem consistancy_cross_check_honest (r r' : FRIRound F) (c : F)
    (qc : Nat) (hqc : 0 < qc) (rnd : Nat → Nat)
    (hone : ∀ ndx_raw, FRIRound.cross_check_one r' r c none ndx_raw = true) :
    FRIRound.consistancy_cross_check r' r c qc none rnd = true := by
  unfold FRIRound.consistancy_cross_check is_overwhelming_majority
  dsimp only []
  have hcount : ((List.range qc).map (fun t =>
      FRIRound.cross_check_one r' r c none (rnd t))).countP id = qc := by
    rw [List.countP_eq_length.mpr]
    · rw [List.length_map, List.length_range]
    · intro b hb
      obtain ⟨t, -, rfl⟩ := List.mem_map.mp hb
      simp [hone]
  rw [hcount, List.length_map, List.length_range]
  exact decide_eq_true (by omega)

theorem fdiv_le_fdiv (a b : Int) (t : Nat) (ht : 0 < t) (h : a ≤ b) :
    Int.fdiv a (t : Int) ≤ Int.fdiv b (t : Int) := by
  rw [Int.fdiv_eq_ediv _ (by exact_mod_cast Nat.zero_le t),
    Int.fdiv_eq_ediv _ (by exact_mod_cast Nat.zero_le t)]
  exact Int.ediv_le_ediv (by exact_mod_cast ht) h

theorem vpLoop_nil (prev : FRIRound F) (bound : Int) (qc : Nat)
    (rnd : Nat → Nat) (k : Nat) :
    vpLoop prev [] bound qc rnd k =
      decide (pdeg (lagrange (prev.evaluation_points.zip prev.gen_proof)) ≤
        (prev.folding_factor : Int)) := rfl

theorem vpLoop_cons_none (prev fr : FRIRound F) (ch : Option F)
    (rest : List (RoundData F)) (bound : Int) (qc : Nat)
    (rnd : Nat → Nat) (k : Nat) :
    vpLoop prev (⟨fr, ch, none⟩ :: rest) bound qc rnd k =
      (if ¬ FRIRound.consistancy_cross_check fr prev (ch.getD 0) qc none
          (fun t => rnd (k * qc + t)) then false
       else if Int.fdiv bound fr.folding_factor + 1 ≤
           (fr.folding_factor : Int) then
         decide (pdeg (lagrange (fr.evaluation_points.zip fr.gen_proof)) ≤
           (fr.folding_factor : Int))
       else vpLoop fr rest (Int.fdiv bound fr.folding_factor + 1) qc rnd
         (k + 1)) := rfl

theorem final_interp_ok (r : FRIRound F)
    (h1 : r.omega ^ r.mult_order = 1)
    (hord : ∀ m, 0 < m → m < r.mult_order → r.omega ^ m ≠ 1)
    (hN2 : 2 ≤ r.mult_order)
    (hrate2 : 2 ≤ r.rate_factor)
    (hdim : pdeg r.poly ≤ (r.dimension : Int))
    (hff : pdeg r.poly ≤ (r.folding_factor : Int)) :
    pdeg (lagrange (r.evaluation_points.zip r.gen_proof)) ≤
      (r.folding_factor : Int) := by
  have hN : 0 < r.mult_order := by omega
  have hle : r.evaluation_points.length = r.mult_order :=
    evaluation_points_length r
  have hlg : r.gen_proof.length = r.mult_order := gen_proof_length r
  set pts : List (F × F) := r.evaluation_points.zip r.gen_proof with hptsdef
  have hlpts : pts.length = r.mult_order := by
    rw [hptsdef, List.length_zip, hle, hlg, min_self]
  have hxs : pts.map Prod.fst = r.evaluation_points :=
    List.map_fst_zip _ _ (by rw [hle, hlg])
  have hnodup : r.evaluation_points.Nodup :=
    evaluation_points_nodup r h1 hord hN
  have htrim : (ptrim r.poly).length ≤ r.mult_order := by
    have hd2 : r.dimension ≤ r.mult_order / 2 := by
      unfold FRIRound.dimension
      exact Nat.div_le_div_left hrate2 (by omega)
    have hd3 : r.mult_order / 2 < r.mult_order := Nat.div_lt_self hN (by omega)
    unfold pdeg at hdim
    omega
  have hagree : toPoly (lagrange pts) = toPoly r.poly := by
    apply agree_on_points _ _ r.evaluation_points hnodup
    · intro hc
      rw [hc] at hle
      simp at hle
      omega
    · calc (ptrim (lagrange pts)).length ≤ (lagrange pts).length :=
          ptrim_length_le _
        _ ≤ pts.length := lagrange_length_le pts
        _ = r.evaluation_points.length := by rw [hlpts, hle]
    · rw [hle]
      exact htrim
    · intro x hx
      obtain ⟨kk, hk, hkx⟩ := List.mem_iff_getElem.mp hx
      have hkN : kk < r.mult_order := by rw [← hle]; exact hk
      have hxk : r.evaluation_points.getD kk 0 = x := by
        rw [List.getD_eq_getElem _ _ hk, hkx]
      have hndp : (pts.map Prod.fst).Nodup := by rw [hxs]; exact hnodup
      have hL := lagrange_eval_node pts hndp kk (by rw [hlpts]; exact hkN)
      rw [hxs, hxk] at hL
      have hptsk : pts.getD kk (0, 0) =
          (r.evaluation_points.getD kk 0, r.gen_proof.getD kk 0) :=
        zip_getD 0 0 _ _ kk hk (by rw [hlg]; exact hkN)
      rw [hptsk] at hL
      rw [hL, gen_proof_getD r kk hkN, ← hxk, evaluation_points_getD r kk hkN]
  rw [pdeg_le_iff _ _ (by omega)]
  intro i hi
  rw [getD_eq_of_toPoly_eq hagree i]
  rw [pdeg_le_iff _ _ (by omega)] at hff
  exact hff i hi

theorem vpLoop_complete (chs : Nat → F) (qc : Nat) (hqc : 0 < qc)
    (rnd : Nat → Nat) :
    ∀ (fuel : Nat) (r : FRIRound F) (i k : Nat) (tl : List (RoundData F))
      (bound : Int),
    friopp_tail (fuel + 1) r chs (fun _ => []) i = .ok tl →
    tl.length ≤ fuel →
    r.omega ^ r.mult_order = 1 →
    (∀ m, 0 < m → m < r.mult_order → r.omega ^ m ≠ 1) →
    isPow2 r.mult_order = true →
    isPow2 r.folding_factor = true →
    2 ≤ r.rate_factor →
    r.rate_factor ≤ r.mult_order →
    pdeg r.poly ≤ (r.dimension : Int) →
    pdeg r.poly ≤ bound →
    vpLoop r tl bound qc rnd k = true := by
  intro fuel
  induction fuel with
  | zero =>
    intro r i k tl bound h hlen h1 hord hpo hpf hrate2 hrateN hdim hbound
    rw [friopp_tail_succ] at h
    by_cases hstop : pdeg r.poly ≤ (r.folding_factor : Int)
    · rw [if_pos hstop] at h
      obtain rfl : tl = [] := (Except.ok.inj h).symm
      rw [vpLoop_nil]
      exact decide_eq_true (final_interp_ok r h1 hord (by omega) hrate2
        hdim hstop)
    · rw [if_neg hstop] at h
      exfalso
      cases hfold : r.fold (chs i) [] with
      | error e =>
        rw [hfold] at h
        simp [Except.bind] at h
      | ok nx =>
        rw [hfold] at h
        simp only [Except.bind] at h
        have hz : friopp_tail 0 nx.1 chs (fun _ => []) (i + 1) =
            .ok ([] : List (RoundData F)) := rfl
        rw [hz] at h
        simp only [Except.bind] at h
        obtain rfl : tl = [⟨nx.1, some (chs i), nx.2⟩] := (Except.ok.inj h).symm
        simp at hlen
  | succ fl ih =>
    intro r i k tl bound h hlen h1 hord hpo hpf hrate2 hrateN hdim hbound
    rw [friopp_tail_succ] at h
    by_cases hstop : pdeg r.poly ≤ (r.folding_factor : Int)
    · rw [if_pos hstop] at h
      obtain rfl : tl = [] := (Except.ok.inj h).symm
      rw [vpLoop_nil]
      exact decide_eq_true (final_interp_ok r h1 hord (by omega) hrate2
        hdim hstop)
    · rw [if_neg hstop] at h
      cases hfold : r.fold (chs i) [] with
      | error e =>
        rw [hfold] at h
        simp [Except.bind] at h
      | ok nx =>
        rw [hfold] at h
        simp only [Except.bind] at h
        cases htl : friopp_tail (fl + 1) nx.1 chs (fun _ => []) (i + 1) with
        | error e =>
          rw [htl] at h
          simp [Except.bind] at h
        | ok rest =>
          rw [htl] at h
          simp only [Except.bind] at h
          obtain rfl : tl = ⟨nx.1, some (chs i), nx.2⟩ :: rest :=
            (Except.ok.inj h).symm
          -- basic facts about the previous layer
          have ht : 0 < r.folding_factor := isPow2_pos hpf
          have hN : 0 < r.mult_order := by omega
          have hffdim : (r.folding_factor : Int) < (r.dimension : Int) :=
            lt_of_lt_of_le (not_le.mp hstop) hdim
          have hffdimN : r.folding_factor < r.dimension := by
            exact_mod_cast hffdim
          have hdimle : r.dimension ≤ r.mult_order := by
            unfold FRIRound.dimension
            exact Nat.div_le_self _ _
          have hffN : r.folding_factor ≤ r.mult_order := by omega
          have htdvd : r.folding_factor ∣ r.mult_order :=
            isPow2_dvd_of_le hpo hpf hffN
          have hfold2 : r.fold (chs i) [] = .ok (nx.1, nx.2) := by
            rw [hfold]
          obtain ⟨hfrac, hr', hpo', hrate'⟩ := fold_none_inv hfold2
          have hgcd : Nat.gcd r.mult_order r.folding_factor =
              r.folding_factor := Nat.gcd_eq_right htdvd
          -- next-layer fields
          have homega' : nx.1.omega = r.omega ^ r.folding_factor := by
            rw [hr']
          have hN' : nx.1.mult_order =
              r.mult_order / r.folding_factor := by rw [hr', hgcd]
          have hrf' : nx.1.rate_factor = r.rate_factor := by rw [hr']
          have hff' : nx.1.folding_factor = r.folding_factor := by rw [hr']
          have hs : 0 < r.mult_order / r.folding_factor :=
            Nat.div_pos (Nat.le_of_dvd hN htdvd) ht
          -- exact order of the next layer's generator
          have h1' : nx.1.omega ^ nx.1.mult_order = 1 := by
            rw [homega', hN', ← pow_mul, Nat.mul_div_cancel' htdvd, h1]
          have hord' : ∀ m, 0 < m → m < nx.1.mult_order →
              nx.1.omega ^ m ≠ 1 := by
            intro m hm hmN
            rw [homega', ← pow_mul]
            apply hord
            · positivity
            · rw [hN'] at hmN
              calc r.folding_factor * m
                  < r.folding_factor * (r.mult_order / r.folding_factor) :=
                    (Nat.mul_lt_mul_left ht).mpr hmN
                _ = r.mult_order := Nat.mul_div_cancel' htdvd
          have hpo'' : isPow2 nx.1.mult_order = true := by
            rw [hN']
            rw [hgcd] at hpo'
            exact hpo'
          have hpf'' : isPow2 nx.1.folding_factor = true := by
            rw [hff']
            exact hpf
          have hrate2' : 2 ≤ nx.1.rate_factor := by rw [hrf']; exact hrate2
          have hrateN' : nx.1.rate_factor ≤ nx.1.mult_order := by
            rw [hrf', hN']
            rw [hgcd] at hrate'
            omega
          -- degree bounds of the next layer
          have hpd := fold_ok_pdeg_le hfold2
          have hdim' : pdeg nx.1.poly ≤ (nx.1.dimension : Int) := by
            have h2 : Int.fdiv (pdeg r.poly) (r.folding_factor : Int) ≤
                Int.fdiv ((r.dimension : Int)) (r.folding_factor : Int) :=
              fdiv_le_fdiv _ _ _ ht hdim
            have h3 : Int.fdiv ((r.dimension : Int)) (r.folding_factor : Int)
                = ((r.dimension / r.folding_factor : Nat) : Int) :=
              fdiv_natCast _ _
            have h4 : r.dimension / r.folding_factor = nx.1.dimension := by
              unfold FRIRound.dimension
              rw [hN', hrf', Nat.div_div_eq_div_mul, Nat.div_div_eq_div_mul,
                Nat.mul_comm]
            calc pdeg nx.1.poly
                ≤ Int.fdiv (pdeg r.poly) (r.folding_factor : Int) := hpd
              _ ≤ ((r.dimension / r.folding_factor : Nat) : Int) := by
                  rw [← h3]; exact h2
              _ = (nx.1.dimension : Int) := by rw [h4]
          have hbnd' : pdeg nx.1.poly ≤
              Int.fdiv bound (r.folding_factor : Int) := by
            exact le_trans hpd (fdiv_le_fdiv _ _ _ ht hbound)
          -- step the verifier loop
          rw [hfrac, vpLoop_cons_none]
          have hcross : FRIRound.consistancy_cross_check nx.1 r (chs i) qc
              none (fun t => rnd (k * qc + t)) = true := by
            apply consistancy_cross_check_honest r nx.1 (chs i) qc hqc
            intro ndx_raw
            have hfold3 : r.fold (chs i) [] = .ok (nx.1, none) := by
              rw [hfold2, hfrac]
            exact cross_check_one_honest r nx.1 (chs i) hfold3 h1 hord hN
              htdvd ht ndx_raw
          simp only [Option.getD_some]
          rw [if_neg (by simp [hcross])]
          by_cases hb2 : Int.fdiv bound nx.1.folding_factor + 1 ≤
              (nx.1.folding_factor : Int)
          · rw [if_pos hb2]
            apply decide_eq_true
            refine final_interp_ok nx.1 h1' hord' ?_ hrate2' hdim' ?_
            · rw [hN']
              omega
            · rw [hff'] at hb2 ⊢
              calc pdeg nx.1.poly ≤ Int.fdiv bound (r.folding_factor : Int) :=
                  hbnd'
                _ ≤ (r.folding_factor : Int) := by omega
          · rw [if_neg hb2]
            apply ih nx.1 (i + 1) (k + 1) rest _ htl (by simpa using hlen)
              h1' hord' hpo'' hpf'' hrate2' hrateN' hdim'
            calc pdeg nx.1.poly ≤ Int.fdiv bound (r.folding_factor : Int) :=
                hbnd'
              _ ≤ Int.fdiv bound (nx.1.folding_factor : Int) + 1 := by
                  rw [hff']
                  omega

theorem verify_proximity_complete (f : List F) (g : F)
    (order rate ff fuel : Nat) (chs : Nat → F) (o : FRIOPP F) (d : Int)
    (qc : Nat) (rnd : Nat → Nat)
    (hbuild : FRIOPP.build (fuel + 1) f g order rate ff chs
      (fun _ => []) = .ok o)
    (hlen : o.tail.length ≤ fuel)
    (h1 : g ^ order = 1)
    (hord : ∀ m, 0 < m → m < order → g ^ m ≠ 1)
    (hrate2 : 2 ≤ rate)
    (hqc : 0 < qc)
    (hdeg : pdeg f ≤ d)
    (hdim : d ≤ ((order / rate : Nat) : Int)) :
    o.verify_proximity d qc rnd = true := by
  rw [FRIOPP_build_eq] at hbuild
  cases hmk : FRIRound.make f g order rate ff with
  | error e =>
    rw [hmk] at hbuild
    simp [Except.bind] at hbuild
  | ok first =>
    rw [hmk] at hbuild
    simp only [Except.bind] at hbuild
    cases htl : friopp_tail (fuel + 1) first chs (fun _ => []) 0 with
    | error e =>
      rw [htl] at hbuild
      simp [Except.bind] at hbuild
    | ok tail =>
      rw [htl] at hbuild
      simp only [Except.bind] at hbuild
      obtain rfl : o = ⟨first, tail⟩ := Except.ok.inj hbuild.symm
      obtain ⟨hre, hpo, hpra, hra, hpf⟩ := make_ok_inv hmk
      have hfirst : first.poly = f ∧ first.omega = g ∧
          first.mult_order = order ∧ first.rate_factor = rate ∧
          first.folding_factor = ff := by
        rw [hre]
        exact ⟨rfl, rfl, rfl, rfl, rfl⟩
      obtain ⟨hp1, hg1, ho1, hr1, hf1⟩ := hfirst
      unfold FRIOPP.verify_proximity
      dsimp only []
      have hdim1 : ((FRIOPP.mk first tail).first.dimension : Int) = 
          ((order / rate : Nat) : Int) := by
        show ((first.dimension : Nat) : Int) = _
        unfold FRIRound.dimension
        rw [ho1, hr1]
      rw [if_neg (by rw [hdim1]; omega)]
      apply vpLoop_complete chs qc hqc rnd fuel first 0 0 tail d htl
        (by simpa using hlen)
      · rw [hg1, ho1]
        exact h1
      · rw [hg1, ho1]
        exact hord
      · rw [ho1]
        exact hpo
      · rw [hf1]
        exact hpf
      · rw [hr1]
        exact hrate2
      · rw [hr1, ho1]
        omega
      · rw [hp1]
        refine le_trans hdeg ?_
        show d ≤ ((first.mult_order / first.rate_factor : Nat) : Int)
        rw [ho1, hr1]
        exact hdim
      · rw [hp1]
        exact hdeg

theorem build_ok_first {fuel : Nat} {p : List F} {g : F}
    {order rate ff : Nat} {chs : Nat → F} {oods : Nat → List F}
    {o : FRIOPP F}
    (h : FRIOPP.build fuel p g order rate ff chs oods = .ok o) :
    o.first = ⟨p, g, order, rate, ff⟩ ∧ isPow2 order = true := by
  rw [FRIOPP_build_eq] at h
  cases hmk : FRIRound.make p g order rate ff with
  | error e =>
    rw [hmk] at h
    simp [Except.bind] at h
  | ok first =>
    rw [hmk] at h
    simp only [Except.bind] at h
    cases htl : friopp_tail fuel first chs oods 0 with
    | error e =>
      rw [htl] at h
      simp [Except.bind] at h
    | ok tail =>
      rw [htl] at h
      simp only [Except.bind] at h
      obtain rfl : o = ⟨first, tail⟩ := Except.ok.inj h.symm
      obtain ⟨hre, hpo, -, -, -⟩ := make_ok_inv hmk
      exact ⟨hre, hpo⟩

theorem FRIPCS_honest_accept (f : List F) (g : F)
    (order rate ff fuel : Nat) (chs chsq : Nat → F) (orig quot : FRIOPP F)
    (d : Int) (qc : Nat) (z : F) (rndO rndQ rndV : Nat → Nat)
    (hbo : FRIOPP.build (fuel + 1) f g order rate ff chs
      (fun _ => []) = .ok orig)
    (hbq : FRIOPP.build (fuel + 1) (pdivmod (psub f [peval f z]) [-z, 1]).1
      g order rate ff chsq (fun _ => []) = .ok quot)
    (hlo : orig.tail.length ≤ fuel) (hlq : quot.tail.length ≤ fuel)
    (h1 : g ^ order = 1)
    (hord : ∀ m, 0 < m → m < order → g ^ m ≠ 1)
    (hrate2 : 2 ≤ rate) (hqc : 0 < qc) (hd0 : 0 ≤ d)
    (hdeg : pdeg f ≤ d) (hdim : d ≤ ((order / rate : Nat) : Int)) :
    FRIPCS_verify_proof d qc orig quot z (peval f z) rndO rndQ rndV = true := by
  have hprox1 : orig.verify_proximity d qc rndO = true :=
    verify_proximity_complete f g order rate ff fuel chs orig d qc rndO
      hbo hlo h1 hord hrate2 hqc hdeg hdim
  have hqdeg : pdeg (pdivmod (psub f [peval f z]) [-z, 1]).1 ≤ d - 1 :=
    quotient_pdeg_le f z d hd0 hdeg
  have hprox2 : quot.verify_proximity (d - 1) qc rndQ = true :=
    verify_proximity_complete _ g order rate ff fuel chsq quot (d - 1) qc
      rndQ hbq hlq h1 hord hrate2 hqc hqdeg (by omega)
  obtain ⟨hfo, hpo⟩ := build_ok_first hbo
  obtain ⟨hfq, -⟩ := build_ok_first hbq
  have hdomeq : orig.first.evaluation_points =
      quot.first.evaluation_points := by
    unfold FRIRound.evaluation_points
    rw [hfo, hfq]
  have hN : 0 < order := isPow2_pos hpo
  have hlenf : orig.first.gen_proof.length = order := by
    rw [gen_proof_length, hfo]
  unfold FRIPCS_verify_proof
  rw [if_neg (by rw [hprox1]; simp)]
  rw [if_neg (by rw [hprox2]; simp)]
  dsimp only []
  rw [if_neg (fun hc => hc hdomeq)]
  apply decide_eq_true
  have hall : (List.range qc).countP (fun t =>
      peval f z + quot.first.gen_proof.getD
          (rndV t % orig.first.gen_proof.length) 0 *
        (orig.first.evaluation_points.getD
          (rndV t % orig.first.gen_proof.length) 0 - z)
        == orig.first.gen_proof.getD
          (rndV t % orig.first.gen_proof.length) 0) = qc := by
    rw [List.countP_eq_length.mpr]
    · rw [List.length_range]
    · intro t _
      have hndx : rndV t % orig.first.gen_proof.length < order := by
        rw [hlenf]
        exact Nat.mod_lt _ hN
      set ndx := rndV t % orig.first.gen_proof.length with hndxdef
      have h2 : orig.first.gen_proof.getD ndx 0 =
          peval f (g ^ ndx) := by
        rw [hfo]
        exact gen_proof_getD _ _ hndx
      have h3 : quot.first.gen_proof.getD ndx 0 =
          peval (pdivmod (psub f [peval f z]) [-z, 1]).1 (g ^ ndx) := by
        rw [hfq]
        exact gen_proof_getD _ _ hndx
      have h4 : orig.first.evaluation_points.getD ndx 0 = g ^ ndx := by
        rw [hfo]
        exact evaluation_points_getD _ _ hndx
      rw [h2, h3, h4]
      simp only [beq_iff_eq]
      exact (quotient_opening f z (g ^ ndx)).symm
  rw [hall]
  omega

/-! ## Claim C4: the honest-completeness and rejection properties of the
PCS verifier -/

/-- Claim C4, amended: verify_proof rejects unless both oracles pass
verify_proximity at degrees d and d-1; mismatched evaluation domains
reject unconditionally; otherwise it accepts iff strictly more than 2/3
of query_count random indices satisfy v + q[i]*(domain[i] - z) == f[i].
For an honest commitment to f and an honest opening at z — both oracles
built without out-of-domain sampling over a domain whose generator has
exact power-of-two order, with rate factor at least 2, the configured
degree accommodating f, and enough fuel for the fold chains — verify
accepts: the two proximity gates pass deterministically and every final
query matches.  Perturbing the claimed value deterministically rejects;
perturbing the evaluation point deterministically rejects provided the
quotient codeword is nonzero on the domain (the counterexample above
shows the unqualified statement fails when the quotient vanishes). -/
theorem C4_verify_proof_amended (d : Int) (qc : Nat) (orig quot : FRIOPP F)
    (z v : F) (rndO rndQ rndV : Nat → Nat)
    (hq : 1 ≤ qc)
    (hn : orig.first.mult_order ≠ 0)
    (hdom : orig.first.evaluation_points = quot.first.evaluation_points)
    (hrel : ∀ i < orig.first.mult_order,
      orig.first.gen_proof.getD i 0 =
        v + quot.first.gen_proof.getD i 0 *
          (orig.first.evaluation_points.getD i 0 - z)) :
    (∀ v2 z2, FRIPCS_verify_proof d qc orig quot z2 v2 rndO rndQ rndV =
      (orig.verify_proximity d qc rndO && quot.verify_proximity (d - 1) qc rndQ &&
        decide (((List.range qc).countP (fun t =>
          v2 + quot.first.gen_proof.getD (rndV t % orig.first.gen_proof.length) 0 *
            (orig.first.evaluation_points.getD
              (rndV t % orig.first.gen_proof.length) 0 - z2)
            == orig.first.gen_proof.getD (rndV t % orig.first.gen_proof.length) 0))
          > 2 * qc / 3)))
    ∧ (∀ (f : List F) (g : F) (order rate ff fuel : Nat)
        (chs chsq : Nat → F),
        FRIOPP.build (fuel + 1) f g order rate ff chs (fun _ => []) =
          .ok orig →
        FRIOPP.build (fuel + 1) (pdivmod (psub f [v]) [-z, 1]).1 g order
          rate ff chsq (fun _ => []) = .ok quot →
        orig.tail.length ≤ fuel →
        quot.tail.length ≤ fuel →
        g ^ order = 1 →
        (∀ m, m < order → 0 < m → g ^ m ≠ 1) →
        2 ≤ rate →
        0 ≤ d →
        pdeg f ≤ d →
        d ≤ ((order / rate : Nat) : Int) →
        v = peval f z →
        FRIPCS_verify_proof d qc orig quot z v rndO rndQ rndV = true)
    ∧ (∀ v', v' ≠ v →
        FRIPCS_verify_proof d qc orig quot z v' rndO rndQ rndV = false)
    ∧ (∀ z', z' ≠ z →
        (∀ i < orig.first.mult_order, quot.first.gen_proof.getD i 0 ≠ 0) →
        FRIPCS_verify_proof d qc orig quot z' v rndO rndQ rndV = false)
    ∧ (∀ o2 : FRIOPP F,
        orig.first.evaluation_points ≠ o2.first.evaluation_points →
        FRIPCS_verify_proof d qc orig o2 z v rndO rndQ rndV = false)
    ∧ (orig.verify_proximity d qc rndO = false →
        FRIPCS_verify_proof d qc orig quot z v rndO rndQ rndV = false)
    ∧ (quot.verify_proximity (d - 1) qc rndQ = false →
        FRIPCS_verify_proof d qc orig quot z v rndO rndQ rndV = false) := by
  have hlen : orig.first.gen_proof.length = orig.first.mult_order :=
    gen_proof_length orig.first
  have hndx : ∀ t : Nat, rndV t % orig.first.gen_proof.length <
      orig.first.mult_order := by
    intro t
    rw [hlen]
    exact Nat.mod_lt _ (Nat.pos_of_ne_zero hn)
  have hchar : ∀ v2 z2, FRIPCS_verify_proof d qc orig quot z2 v2 rndO rndQ rndV =
      (orig.verify_proximity d qc rndO && quot.verify_proximity (d - 1) qc rndQ &&
        decide (((List.range qc).countP (fun t =>
          v2 + quot.first.gen_proof.getD (rndV t % orig.first.gen_proof.length) 0 *
            (orig.first.evaluation_points.getD
              (rndV t % orig.first.gen_proof.length) 0 - z2)
            == orig.first.gen_proof.getD (rndV t % orig.first.gen_proof.length) 0))
          > 2 * qc / 3)) := by
    intro v2 z2
    unfold FRIPCS_verify_proof
    cases hg1 : orig.verify_proximity d qc rndO with
    | false => simp [hg1]
    | true =>
      cases hg2 : quot.verify_proximity (d - 1) qc rndQ with
      | false => simp [hg1, hg2]
      | true => simp [hg1, hg2, hdom]
  have hmaj : 2 * qc / 3 < qc := by
    omega
  refine ⟨hchar, ?_, ?_, ?_, ?_, ?_, ?_⟩
  · intro f g order rate ff fuel chs chsq hbo hbq hlo hlq h1 hordc hrate2
      hd0 hdeg hdimc hv
    subst hv
    exact FRIPCS_honest_accept f g order rate ff fuel chs chsq orig quot
      d qc z rndO rndQ rndV hbo hbq hlo hlq h1
      (fun m hm1 hm2 => hordc m hm2 hm1) hrate2 (by omega) hd0 hdeg hdimc
  · intro v' hv
    rw [hchar v' z]
    have hzero : (List.range qc).countP (fun t =>
        v' + quot.first.gen_proof.getD (rndV t % orig.first.gen_proof.length) 0 *
          (orig.first.evaluation_points.getD
            (rndV t % orig.first.gen_proof.length) 0 - z)
          == orig.first.gen_proof.getD (rndV t % orig.first.gen_proof.length) 0)
        = 0 := by
      rw [List.countP_eq_zero]
      intro t _
      have heq := hrel _ (hndx t)
      rw [heq]
      simp only [beq_iff_eq, ne_eq]
      intro hcon
      exact hv (add_right_cancel hcon)
    rw [hzero]
    simp
  · intro z' hz hqz
    rw [hchar v z']
    have hzero : (List.range qc).countP (fun t =>
        v + quot.first.gen_proof.getD (rndV t % orig.first.gen_proof.length) 0 *
          (orig.first.evaluation_points.getD
            (rndV t % orig.first.gen_proof.length) 0 - z')
          == orig.first.gen_proof.getD (rndV t % orig.first.gen_proof.length) 0)
        = 0 := by
      rw [List.countP_eq_zero]
      intro t _
      have heq := hrel _ (hndx t)
      rw [heq]
      simp only [beq_iff_eq, ne_eq]
      intro hcon
      have hmul := add_left_cancel hcon
      have hsub := mul_left_cancel₀ (hqz _ (hndx t)) hmul
      exact hz (sub_right_inj.mp hsub)
    rw [hzero]
    simp
  · intro o2 hne
    unfold FRIPCS_verify_proof
    cases hg1 : orig.verify_proximity d qc rndO with
    | false => simp [hg1]
    | true =>
      cases hg2 : o2.verify_proximity (d - 1) qc rndQ with
      | false => simp [hg1, hg2]
      | true => simp [hg1, hg2, hne]
  · intro hg1
    unfold FRIPCS_verify_proof
    simp [hg1]
  · intro hg2
    unfold FRIPCS_verify_proof
    cases hg1 : orig.verify_proximity d qc rndO with
    | false => simp [hg1]
    | true => simp [hg1, hg2]

/-- Witness for C4: the amended verifier characterization instantiated on
the constant polynomial 5 over the order-4 domain of GF(17), committed
and opened honestly at the point 1 with the zero quotient: the verifier
accepts. -/
theorem C4_verify_proof_amended_witness :
    FRIPCS_verify_proof 1 1 c1o c4quot (1 : ZMod 17) 5
        (fun _ => 0) (fun _ => 0) (fun _ => 0) = true :=
  (C4_verify_proof_amended 1 1 c1o c4quot 1 5 (fun _ => 0) (fun _ => 0)
    (fun _ => 0) (by decide) (by decide) (by decide) (by decide)).2.1
    [5] 4 4 2 2 0 (fun _ => 1) (fun _ => 1)
    (by decide) (by decide) (by decide) (by decide) (by decide) (by decide)
    (by decide) (by decide) (by decide) (by decide) (by decide)
